import Mathlib

/-!
# gc-vm: a stack VM with a mark-and-sweep collector, its codec and its assembler

Shallow embedding of `src/gc.c`, `src/instruction.c` and `src/asm.c`.

Conventions of the embedding.

* A heap pointer (`Object *`) is a natural number, the address of the object.
* The intrusive all-objects chain that starts at `vm->first` and runs through
  `Object.next` is the Lean list `VM.first`, in chain order.
* The operand stack `vm->stack[0 .. stack_size-1]` is the list `VM.stack`,
  written from the top slot down to slot 0; `stack_size` is its length. Slots
  at or above `stack_size` are never read by the program and are not modelled.
* The union in `Object` is represented by the three fields `value`, `head`,
  `tail`; the program only reads the ones selected by `type`.
* `malloc` is a parameter: a function from the addresses of the live objects
  to the address of the new block.
* `die` and a failed `assert` end the process: `Failure.fatal`. Dereferencing
  an address that is not a live object, and a recursion that never returns,
  are `Failure.undefined`.
* The counters `num_objects`, `max_objects` are `Int`; signed overflow of an
  `i32` is undefined in C and lies outside the embedding.
* Bytes are natural numbers below 256; a C string is the list of its bytes
  before the terminating NUL.
* The target is little-endian and its `char` is signed (x86-64), which fixes
  the bytes of an `i32` in the output file and the value of a character.
* A recursive C function is a Lean function with a `fuel` argument that bounds
  the depth of the recursion; where the program calls it, the embedding passes
  a bound beyond which the C recursion would not return.
-/

deriving instance DecidableEq for Except

namespace GcVm

/-! ## Heap objects and the VM (src/gc.c) -/

/-- Heap address. -/
abbrev Ref := Nat

inductive ObjType where
  | OBJ_INT
  | OBJ_PAIR
deriving DecidableEq, Repr

structure Object where
  addr : Ref
  type : ObjType
  is_marked : Bool
  value : Int
  head : Ref
  tail : Ref
deriving DecidableEq, Repr

def STACK_MAX : Nat := 256

def INITIAL_GC_THRESHOLD : Int := 100

structure VM where
  stack : List Ref
  first : List Object
  num_objects : Int
  max_objects : Int
  has_halted : Bool
deriving DecidableEq, Repr

def VM.stack_size (vm : VM) : Nat := vm.stack.length

inductive Failure where
  | fatal
  | undefined
deriving DecidableEq, Repr

def newVM : VM :=
  { stack := [], first := [], num_objects := 0,
    max_objects := INITIAL_GC_THRESHOLD, has_halted := false }

def push (vm : VM) (value : Ref) : Except Failure VM :=
  if vm.stack.length < STACK_MAX then
    .ok { vm with stack := value :: vm.stack }
  else .error .fatal

def pop (vm : VM) : Except Failure (VM × Ref) :=
  match vm.stack with
  | [] => .error .fatal
  | top :: below => .ok ({ vm with stack := below }, top)

/-- Dereference: the live object stored at address `r`. -/
def deref (objs : List Object) (r : Ref) : Option Object :=
  objs.find? (fun o => o.addr == r)

/-- The assignment `obj->is_marked = true` for the object at address `r`. -/
def setMarked (objs : List Object) (r : Ref) : List Object :=
  objs.map (fun o => if o.addr = r then { o with is_marked := true } else o)

/-- The recursion of `mark`; `fuel` bounds the depth of the C call stack. -/
def mark : Nat → List Object → Ref → Option (List Object)
  | 0, _, _ => none
  | fuel + 1, objs, r =>
    match deref objs r with
    | none => none
    | some o =>
      if o.is_marked then some objs
      else
        match o.type with
        | .OBJ_INT => some (setMarked objs r)
        | .OBJ_PAIR =>
          match mark fuel (setMarked objs r) o.head with
          | none => none
          | some objs1 => mark fuel objs1 o.tail

/-- The loop of `markAll` over the slots `0 .. stack_size-1`, given in that order. -/
def markSlots (fuel : Nat) : List Ref → List Object → Option (List Object)
  | [], objs => some objs
  | r :: rest, objs =>
    match mark fuel objs r with
    | none => none
    | some objs1 => markSlots fuel rest objs1

/-- Depth of recursion that `mark` and `objPrint` are allowed on a heap: one
more than the number of objects. A path through head/tail links that is longer
visits an object twice, and then the C recursion of `objPrint` never returns. -/
def callDepth (objs : List Object) : Nat := objs.length + 1

def markAll (vm : VM) : Option (List Object) :=
  markSlots (callDepth vm.first) vm.stack.reverse vm.first

/-- The loop of `sweep`: returns the surviving chain and the updated `num_objects`. -/
def sweep : List Object → Int → List Object × Int
  | [], n => ([], n)
  | o :: rest, n =>
    if !o.is_marked then sweep rest (n - 1)
    else
      let r := sweep rest n
      ({ o with is_marked := false } :: r.1, r.2)

def gc (vm : VM) : Option VM :=
  match markAll vm with
  | none => none
  | some marked =>
    let r := sweep marked vm.num_objects
    some { vm with first := r.1, num_objects := r.2, max_objects := r.2 * 2 }

def newObject (malloc : List Ref → Ref) (vm : VM) (type : ObjType) : Option (VM × Ref) :=
  match (if vm.num_objects = vm.max_objects then gc vm else some vm) with
  | none => none
  | some vm1 =>
    let a := malloc (vm1.first.map Object.addr)
    some ({ vm1 with
              first := { addr := a, type := type, is_marked := false,
                         value := 0, head := 0, tail := 0 } :: vm1.first,
              num_objects := vm1.num_objects + 1 }, a)

/-- Store to a field of the object at address `r`. -/
def store (objs : List Object) (r : Ref) (f : Object → Object) : List Object :=
  objs.map (fun o => if o.addr = r then f o else o)

def pushInt (malloc : List Ref → Ref) (vm : VM) (intValue : Int) : Except Failure VM :=
  match newObject malloc vm .OBJ_INT with
  | none => .error .undefined
  | some (vm1, a) =>
    push { vm1 with first := store vm1.first a (fun o => { o with value := intValue }) } a

def pushPair (malloc : List Ref → Ref) (vm : VM) : Except Failure (VM × Ref) :=
  match newObject malloc vm .OBJ_PAIR with
  | none => .error .undefined
  | some (vm1, a) =>
    match pop vm1 with
    | .error e => .error e
    | .ok (vm2, t) =>
      let vm3 := { vm2 with first := store vm2.first a (fun o => { o with tail := t }) }
      match pop vm3 with
      | .error e => .error e
      | .ok (vm4, h) =>
        let vm5 := { vm4 with first := store vm4.first a (fun o => { o with head := h }) }
        match push vm5 a with
        | .error e => .error e
        | .ok vm6 => .ok (vm6, a)

/-- The byte that `putchar` writes for an `int` argument. -/
def putchar (c : Int) : Nat := (c % 256).toNat

/-- The recursion of `objPrint`; `fuel` bounds the depth of the C call stack.
The result is the sequence of bytes written to stdout. -/
def objPrint : Nat → List Object → Ref → Option (List Nat)
  | 0, _, _ => none
  | fuel + 1, objs, r =>
    match deref objs r with
    | none => none
    | some o =>
      match o.type with
      | .OBJ_INT => some [putchar o.value]
      | .OBJ_PAIR =>
        match objPrint fuel objs o.head with
        | none => none
        | some out1 =>
          match objPrint fuel objs o.tail with
          | none => none
          | some out2 => some (out1 ++ out2)

def swap (vm : VM) : Except Failure VM :=
  match pop vm with
  | .error e => .error e
  | .ok (vm1, obj1) =>
    match pop vm1 with
    | .error e => .error e
    | .ok (vm2, obj2) =>
      match push vm2 obj1 with
      | .error e => .error e
      | .ok vm3 => push vm3 obj2

/-! ## Instructions (src/instruction.h) -/

inductive Instruction where
  | I_PRINT
  | I_READ_I32
  | I_PSH_I32 (value : Int)
  | I_PAIR
  | I_SWP
  | I_POP
  | I_HALT
  | I_DIE (errmsg : List Nat)
  | I_GC
  | I_ASSERT (expected : Int) (msg : List Nat)
deriving DecidableEq, Repr

/-- The VM together with the two byte streams of the process. -/
structure Machine where
  vm : VM
  stdin : List Nat
  stdout : List Nat
deriving DecidableEq, Repr

/-- The value `getchar` returns and the input left: a byte, or -1 at end of input. -/
def getchar : List Nat → Int × List Nat
  | [] => (-1, [])
  | b :: rest => ((b % 256 : Nat), rest)

def interpret (malloc : List Ref → Ref) (m : Machine) (i : Instruction) :
    Except Failure Machine :=
  match i with
  | .I_DIE _ => .error .fatal
  | .I_HALT => .ok { m with vm := { m.vm with has_halted := true } }
  | .I_POP =>
    match pop m.vm with
    | .error e => .error e
    | .ok (vm1, _) => .ok { m with vm := vm1 }
  | .I_PRINT =>
    match pop m.vm with
    | .error e => .error e
    | .ok (vm1, o) =>
      match objPrint (callDepth vm1.first) vm1.first o with
      | none => .error .undefined
      | some out =>
        match push vm1 o with
        | .error e => .error e
        | .ok vm2 => .ok { m with vm := vm2, stdout := m.stdout ++ out }
  | .I_READ_I32 =>
    let r := getchar m.stdin
    match pushInt malloc m.vm r.1 with
    | .error e => .error e
    | .ok vm1 => .ok { m with vm := vm1, stdin := r.2 }
  | .I_PSH_I32 value =>
    match pushInt malloc m.vm value with
    | .error e => .error e
    | .ok vm1 => .ok { m with vm := vm1 }
  | .I_PAIR =>
    match pushPair malloc m.vm with
    | .error e => .error e
    | .ok (vm1, _) => .ok { m with vm := vm1 }
  | .I_SWP =>
    match swap m.vm with
    | .error e => .error e
    | .ok vm1 => .ok { m with vm := vm1 }
  | .I_GC =>
    match gc m.vm with
    | none => .error .undefined
    | some vm1 => .ok { m with vm := vm1 }
  | .I_ASSERT expected _ =>
    if m.vm.num_objects = expected then .ok m else .error .fatal

/-- An allocator for concrete runs: one more than the largest live address. -/
def bumpAlloc (live : List Ref) : Ref := live.foldr max 0 + 1

/-- States the interpreter can be in: `newVM` with any pending input, then any
number of instructions, each of which returned. -/
inductive Reachable (malloc : List Ref → Ref) : Machine → Prop where
  | init (input : List Nat) :
      Reachable malloc { vm := newVM, stdin := input, stdout := [] }
  | step {m m1 : Machine} (i : Instruction) :
      Reachable malloc m → interpret malloc m i = .ok m1 → Reachable malloc m1

/-- Interpret a list of instructions in order, stopping at the first failure. -/
def interpretAll (malloc : List Ref → Ref) : Machine → List Instruction → Except Failure Machine
  | m, [] => .ok m
  | m, i :: rest =>
    match interpret malloc m i with
    | .error e => .error e
    | .ok m1 => interpretAll malloc m1 rest

/-! ## The instruction codec: decoding (src/instruction.c) -/

/-- The opcode byte of an instruction: its `IType`. -/
def Instruction.type : Instruction → Nat
  | .I_PRINT => 0x00
  | .I_READ_I32 => 0x01
  | .I_PSH_I32 _ => 0x02
  | .I_PAIR => 0x03
  | .I_SWP => 0x04
  | .I_POP => 0x05
  | .I_HALT => 0x06
  | .I_DIE _ => 0x07
  | .I_GC => 0x10
  | .I_ASSERT _ _ => 0x12

/-- The `i32` whose four bytes in memory, lowest address first, are
`b0 b1 b2 b3` (little-endian, two's complement). -/
def i32_of_bytes (b0 b1 b2 b3 : Nat) : Int :=
  let u := b0 + 256 * b1 + 65536 * b2 + 16777216 * b3
  if u < 2147483648 then (u : Int) else (u : Int) - 4294967296

/-- The loop of `read_raw_str`: the last value of `b`, the bytes stored in the
buffer, and the input left. -/
def read_raw_str_loop : List Nat → Nat → List Nat → Nat × List Nat × List Nat
  | [], b, buf => (b, buf, [])
  | c :: rest, _, buf =>
    if c ≠ 0 then read_raw_str_loop rest c (buf ++ [c]) else (c, buf, rest)

def read_raw_str (fp : List Nat) : Except Failure (List Nat × List Nat) :=
  let r := read_raw_str_loop fp 0 []
  if r.1 = 0 then .ok (r.2.1, r.2.2) else .error .fatal

/-- The call `fread(&v, 4, 1, fp)`: an `i32` and the input left, or nothing on a
short read. -/
def fread_i32 : List Nat → Option (Int × List Nat)
  | b0 :: b1 :: b2 :: b3 :: rest => some (i32_of_bytes b0 b1 b2 b3, rest)
  | _ => none

/-- The result is `none` at end of stream (the C function returns NULL),
otherwise the instruction and the input left. -/
def fetchInstruction (fp : List Nat) : Except Failure (Option (Instruction × List Nat)) :=
  match fp with
  | [] => .ok none
  | first :: rest =>
    if first = 0x03 then .ok (some (.I_PAIR, rest))
    else if first = 0x01 then .ok (some (.I_READ_I32, rest))
    else if first = 0x06 then .ok (some (.I_HALT, rest))
    else if first = 0x04 then .ok (some (.I_SWP, rest))
    else if first = 0x10 then .ok (some (.I_GC, rest))
    else if first = 0x05 then .ok (some (.I_POP, rest))
    else if first = 0x00 then .ok (some (.I_PRINT, rest))
    else if first = 0x07 then
      match read_raw_str rest with
      | .error e => .error e
      | .ok (errmsg, rest1) => .ok (some (.I_DIE errmsg, rest1))
    else if first = 0x02 then
      match fread_i32 rest with
      | none => .error .fatal
      | some (value, rest1) => .ok (some (.I_PSH_I32 value, rest1))
    else if first = 0x12 then
      match fread_i32 rest with
      | none => .error .fatal
      | some (expected, rest1) =>
        match read_raw_str rest1 with
        | .error e => .error e
        | .ok (msg, rest2) => .ok (some (.I_ASSERT expected msg, rest2))
    else .error .fatal

/-- Repeated `fetchInstruction` until it returns NULL, as the loops of the
disassembler and of the VM do; `fuel` bounds the number of calls. -/
def fetchAll : Nat → List Nat → Except Failure (List Instruction)
  | 0, _ => .error .undefined
  | fuel + 1, fp =>
    match fetchInstruction fp with
    | .error e => .error e
    | .ok none => .ok []
    | .ok (some (i, rest)) =>
      match fetchAll fuel rest with
      | .error e => .error e
      | .ok is => .ok (i :: is)

/-- The loop of `_run`: fetch, then test the halt flag, then interpret. The
instruction fetched while the flag is set is dropped. `fuel` bounds the number
of fetches; every fetch that returns an instruction consumes a byte. -/
def _run (malloc : List Ref → Ref) : Nat → Machine → List Nat → Except Failure Machine
  | 0, _, _ => .error .undefined
  | fuel + 1, m, fp =>
    match fetchInstruction fp with
    | .error e => .error e
    | .ok none => .ok m
    | .ok (some (i, rest)) =>
      if m.vm.has_halted then .ok m
      else
        match interpret malloc m i with
        | .error e => .error e
        | .ok m1 => _run malloc fuel m1 rest

/-- The run of the VM on a byte file, from `newVM` to the end of `_run`. -/
def runBytes (malloc : List Ref → Ref) (input : List Nat) (fp : List Nat) :
    Except Failure Machine :=
  _run malloc (fp.length + 1) { vm := newVM, stdin := input, stdout := [] } fp

/-- The state in which `freeVM` releases the VM structure: the stack emptied,
then one collection. -/
def freeVM (vm : VM) : Option VM := gc { vm with stack := [] }

/-- The opcode bytes the decoder knows. -/
def knownOpcodes : List Nat := [0x00, 0x01, 0x02, 0x03, 0x04, 0x05, 0x06, 0x07, 0x10, 0x12]

/-! ## The wire format in the words of the specification -/

/-- The four little-endian bytes of the two's complement of `n`. -/
def le32 (n : Int) : List Nat :=
  let u := (n % 4294967296).toNat
  [u % 256, u / 256 % 256, u / 65536 % 256, u / 16777216 % 256]

/-- Encode of the specification: the opcode byte, then the payload fields in
declaration order. -/
def encode : Instruction → List Nat
  | .I_PSH_I32 n => 0x02 :: le32 n
  | .I_DIE s => 0x07 :: (s ++ [0])
  | .I_ASSERT n s => 0x12 :: (le32 n ++ (s ++ [0]))
  | i => [i.type]

/-- An `i32` value. -/
def IsI32 (n : Int) : Prop := -2147483648 ≤ n ∧ n < 2147483648

instance (n : Int) : Decidable (IsI32 n) := by unfold IsI32; infer_instance

/-- A string payload the codec can carry: no NUL byte and no double quote. -/
def PlainString (s : List Nat) : Prop := 0 ∉ s ∧ 34 ∉ s

instance (s : List Nat) : Decidable (PlainString s) := by unfold PlainString; infer_instance

/-- An instruction whose payloads are an `i32` and plain strings. -/
def Instruction.Encodable : Instruction → Prop
  | .I_PSH_I32 n => IsI32 n
  | .I_DIE s => PlainString s
  | .I_ASSERT n s => IsI32 n ∧ PlainString s
  | _ => True

instance (i : Instruction) : Decidable i.Encodable := by
  cases i <;> unfold Instruction.Encodable <;> infer_instance

end GcVm

/-! ## The assembler: emission (src/asm.c) -/

namespace GcVm.Asm

open GcVm

inductive TType where
  | TOK_MNEM
  | TOK_CTANT
  | TOK_EOL
  | TOK_DIRECTIVE
  | TOK_IDENT
  | TOK_UNK
deriving DecidableEq, Repr

inductive Mnemonic where
  | MNEM_OUT
  | MNEM_IN
  | MNEM_PUSH
  | MNEM_PAIR
  | MNEM_SWP
  | MNEM_GC
  | MNEM_POP
  | MNEM_ASSERT
  | MNEM_PRINT
  | MNEM_DIE
  | MNEM_HALT
  | MNEM_UNK
deriving DecidableEq, Repr

inductive NType where
  | NUM_DEC
  | NUM_HEX
  | NUM_UNK
deriving DecidableEq, Repr

structure Number where
  value : Int
  type : NType
deriving DecidableEq, Repr

inductive CType where
  | CONST_NUM
  | CONST_STR
  | CONST_IDENT
deriving DecidableEq, Repr

inductive Directive where
  | DIRECTIVE_REPEAT
  | DIRECTIVE_END
  | DIRECTIVE_UNK
deriving DecidableEq, Repr

/-- The tagged union `Constant`: a number, a string, or the name of an
identifier still to be resolved. -/
inductive Constant where
  | num (num : Number)
  | str (str : List Nat)
  | ident (str : List Nat)
deriving DecidableEq, Repr

def Constant.c_type : Constant → CType
  | .num _ => .CONST_NUM
  | .str _ => .CONST_STR
  | .ident _ => .CONST_IDENT

/-- A token. `src` is the text of the token (empty for the end-of-line token,
whose `src` is NULL); of the union only the field selected by `type` is read. -/
structure Token where
  type : TType
  src : List Nat
  mnemonic : Mnemonic
  directive : Directive
  constant : Constant
  col : Nat
  line : Nat
deriving DecidableEq, Repr

structure Op where
  opcode : Mnemonic
  str : List Nat
  num : Int
deriving DecidableEq, Repr

/-- The table `opcodes`. It has no entry for `MNEM_UNK`, which no token line
carries; the embedding gives it the byte 0xff. -/
def opcodes : Mnemonic → Nat
  | .MNEM_OUT => 0x00
  | .MNEM_IN => 0x01
  | .MNEM_PUSH => 0x02
  | .MNEM_PAIR => 0x03
  | .MNEM_SWP => 0x04
  | .MNEM_GC => 0x10
  | .MNEM_ASSERT => 0x12
  | .MNEM_PRINT => 0xfa
  | .MNEM_POP => 0x05
  | .MNEM_HALT => 0x06
  | .MNEM_DIE => 0x07
  | .MNEM_UNK => 0xff

/-- Each emission function returns the bytes it writes to the output file. -/
def opcode (m : Mnemonic) : List Nat := [opcodes m]

/-- The call `fwrite(&value, 4, 1, fp)` of an `i32` on a little-endian machine. -/
def out_val (value : Int) : List Nat :=
  let u := (value % 4294967296).toNat
  [u % 256, u / 256 % 256, u / 65536 % 256, u / 16777216 % 256]

/-- The C code cuts the string at its first double quote, writes it with
`fputs` and then writes a NUL. -/
def out_str (str : List Nat) : List Nat :=
  str.takeWhile (fun c => c ≠ 34) ++ [0]

def push (value : Int) : List Nat := opcode .MNEM_PUSH ++ out_val value

def pop : List Nat := opcode .MNEM_POP

def pout : List Nat := opcode .MNEM_OUT

def «in» : List Nat := opcode .MNEM_IN

def pair : List Nat := opcode .MNEM_PAIR

def swp : List Nat := opcode .MNEM_SWP

def out_assert (val : Int) (str : List Nat) : List Nat :=
  opcode .MNEM_ASSERT ++ out_val val ++ out_str str

def gc : List Nat := opcode .MNEM_GC

def halt : List Nat := opcode .MNEM_HALT

def out_die (errmsg : List Nat) : List Nat := opcode .MNEM_DIE ++ out_str errmsg

/-- The value of a byte read through `char`, a signed type on the target:
bytes below 128 are themselves, the others are negative. -/
def charValue (c : Nat) : Int := if c < 128 then (c : Int) else (c : Int) - 256

/-- The loop of the `MNEM_PRINT` case over the characters from `&op->str[2]`. -/
def print_loop : List Nat → List Nat
  | [] => []
  | c :: rest => push (charValue c) ++ pair ++ print_loop rest

/-- The bytes `process_op` writes. In the `MNEM_PRINT` case the C code reads
`str[0]` and `str[1]` before it cuts the string at the double quote; when
fewer than two characters stand before the quote it reads the quote or what
lies behind the terminator, and the embedding leaves that case undefined. -/
def process_op (op : Op) : Except Failure (List Nat) :=
  match op.opcode with
  | .MNEM_HALT => .ok halt
  | .MNEM_DIE => .ok (out_die op.str)
  | .MNEM_PRINT =>
    match op.str with
    | c0 :: c1 :: _ =>
      if c0 = 34 ∨ c1 = 34 then .error .undefined
      else
        .ok (push (charValue c0) ++ push (charValue c1) ++ pair ++
          print_loop ((op.str.takeWhile (fun c => c ≠ 34)).drop 2) ++
          push 10 ++ pair ++ pout ++ pop ++ gc)
    | _ => .error .undefined
  | .MNEM_OUT => .ok pout
  | .MNEM_POP => .ok pop
  | .MNEM_PUSH => .ok (push op.num)
  | .MNEM_IN => .ok «in»
  | .MNEM_PAIR => .ok pair
  | .MNEM_SWP => .ok swp
  | .MNEM_UNK => .ok []
  | .MNEM_ASSERT => .ok (out_assert op.num op.str)
  | .MNEM_GC => .ok gc

/-- The `Op` that the opcode builder hands to `process_op` for the source line
of an instruction: the number argument in `num`, and in `str` the text of the
string argument from behind its opening quote, closing quote included. -/
def asmOp : Instruction → Op
  | .I_PRINT => ⟨.MNEM_OUT, [], 0⟩
  | .I_READ_I32 => ⟨.MNEM_IN, [], 0⟩
  | .I_PSH_I32 n => ⟨.MNEM_PUSH, [], n⟩
  | .I_PAIR => ⟨.MNEM_PAIR, [], 0⟩
  | .I_SWP => ⟨.MNEM_SWP, [], 0⟩
  | .I_POP => ⟨.MNEM_POP, [], 0⟩
  | .I_HALT => ⟨.MNEM_HALT, [], 0⟩
  | .I_DIE s => ⟨.MNEM_DIE, s ++ [34], 0⟩
  | .I_GC => ⟨.MNEM_GC, [], 0⟩
  | .I_ASSERT n s => ⟨.MNEM_ASSERT, s ++ [34], n⟩

/-- The bytes the assembler writes for a list of instructions, one
`process_op` after the other. -/
def emitAll : List Instruction → Except Failure (List Nat)
  | [] => .ok []
  | i :: rest =>
    match process_op (asmOp i) with
    | .error e => .error e
    | .ok bytes =>
      match emitAll rest with
      | .error e => .error e
      | .ok more => .ok (bytes ++ more)

/-! ## The assembler: opcode builder and scopes (src/asm.c) -/

structure TokLine where
  tokens : List Token
  line_no : Nat
deriving DecidableEq, Repr

structure Binding where
  name : List Nat
  constant : Constant
deriving DecidableEq, Repr

inductive SType where
  | SCOPE_NORMAL
  | SCOPE_REPEAT
deriving DecidableEq, Repr

mutual
/-- An output of a scope: a nested scope or one token line. -/
inductive Output where
  | OUT_SCOPE (inner_scope : Scope)
  | OUT_SINGLE (line : TokLine)
/-- A scope: its kind, the line that declared it, its outputs in order, its
bindings, and for a repeat scope the count and the optional loop variable.
The pointer `next` to the enclosing scope is not a field: where the C code
follows it, the embedding passes the bindings of the enclosing scopes,
innermost first. -/
inductive Scope where
  | mk (scope_type : SType) (decl_line : Nat) (out : List Output)
      (constants : List Binding) (n : Nat) (var_name : Option (List Nat))
end

/-- Find variable in a single scope. -/
def scope_find (constants : List Binding) (name : List Nat) : Option Constant :=
  match constants with
  | [] => none
  | b :: rest => if name = b.name then some b.constant else scope_find rest name

/-- Find variable using the scope chain; `s` lists the bindings of the current
scope and of the scopes that enclose it, innermost first. -/
def find_constant (s : List (List Binding)) (name : List Nat) : Option Constant :=
  match s with
  | [] => none
  | constants :: next =>
    match scope_find constants name with
    | some c => some c
    | none => find_constant next name

/-- The recursion of `resolve_const`; `fuel` bounds the depth of the C call
stack. The result is `none` when the C function returns false. -/
def resolve_const : Nat → List (List Binding) → List Nat → Except Failure (Option Constant)
  | 0, _, _ => .error .undefined
  | fuel + 1, s, name =>
    match find_constant s name with
    | none => .ok none
    | some (.ident str) => resolve_const fuel s str
    | some c => .ok (some c)

/-- Depth that `resolve_const` is allowed on a chain: one more than the number
of bindings, beyond which a name would be looked up twice. -/
def resolveFuel (s : List (List Binding)) : Nat := (s.map List.length).sum + 1

def set_constant (constants : List Binding) (name : List Nat) (value : Constant) :
    List Binding :=
  match constants with
  | [] => [{ name := name, constant := value }]
  | c :: rest =>
    if name = c.name then { c with constant := value } :: rest
    else c :: set_constant rest name value

def decode_hex (v : Nat) : Nat :=
  if 48 ≤ v ∧ v ≤ 57 then v - 48
  else if 65 ≤ v ∧ v ≤ 70 then v + 10 - 65
  else if 97 ≤ v ∧ v ≤ 102 then v + 10 - 97
  else 0

/-- The decimal loop of `parse_num` on `u32` values: `dig = *_src - '0'`,
`next = val * 10 + dig`, fatal when `next < val` or the top bit of `next` is set. -/
def parse_dec_loop : List Nat → Nat → Except Failure Nat
  | [], val => .ok val
  | c :: rest, val =>
    let dig := ((charValue c - 48) % 4294967296).toNat
    let next := (val * 10 + dig) % 4294967296
    if next < val ∨ 2147483648 ≤ next then .error .fatal
    else parse_dec_loop rest next

/-- The hexadecimal loop of `parse_num`. -/
def parse_hex_loop : List Nat → Nat → Except Failure Nat
  | [], val => .ok val
  | c :: rest, val =>
    let dig := decode_hex c
    let next := (val * 16 + dig) % 4294967296
    if next < val ∨ 2147483648 ≤ next then .error .fatal
    else parse_hex_loop rest next

/-- The value `parse_num` stores in the token for its text `src` and the
number type recorded at classification. -/
def parse_num (src : List Nat) (type : NType) : Except Failure Int :=
  let multiplier : Int := if src.head? = some 45 then -1 else 1
  let src1 := if src.head? = some 43 ∨ src.head? = some 45 then src.tail else src
  if type = .NUM_DEC then
    match parse_dec_loop src1 0 with
    | .error e => .error e
    | .ok val => .ok ((val : Int) * multiplier)
  else
    match parse_hex_loop (src1.drop 2) 0 with
    | .error e => .error e
    | .ok val => .ok ((val : Int) * multiplier)

/-- The pair of `_resolve_constant` and `resolve_constant`: the constant of the
token with a number parsed and an identifier looked up in the scope chain. -/
def resolve_constant (tok : Token) (s : List (List Binding)) : Except Failure Constant :=
  match tok.constant with
  | .num num =>
    match parse_num tok.src num.type with
    | .error e => .error e
    | .ok value => .ok (.num { num with value := value })
  | .ident _ =>
    match resolve_const (resolveFuel s) s tok.src with
    | .error e => .error e
    | .ok none => .error .fatal
    | .ok (some c) => if c.c_type = .CONST_IDENT then .error .fatal else .ok c
  | .str str => .ok (.str str)

/-- The token at `index` and the index advanced by one. -/
def please_tok (line : TokLine) (index : Nat) : Except Failure (Token × Nat) :=
  match line.tokens.get? index with
  | none => .error .fatal
  | some tok => .ok (tok, index + 1)

def expect_tok (line : TokLine) (index : Nat) (expected_type : TType) :
    Except Failure (Token × Nat) :=
  match please_tok line index with
  | .error e => .error e
  | .ok (tok, index1) => if tok.type = expected_type then .ok (tok, index1) else .error .fatal

def expect_constant (line : TokLine) (index : Nat) : Except Failure (Token × Nat) :=
  match please_tok line index with
  | .error e => .error e
  | .ok (tok, index1) =>
    if tok.type = .TOK_CTANT then .ok (tok, index1)
    else if tok.type = .TOK_IDENT then
      .ok ({ tok with type := .TOK_CTANT, constant := .ident tok.src }, index1)
    else .error .fatal

def expect_constant_kind (line : TokLine) (index : Nat) (type : CType)
    (s : List (List Binding)) : Except Failure (Constant × Nat) :=
  match expect_constant line index with
  | .error e => .error e
  | .ok (tok, index1) =>
    match resolve_constant tok s with
    | .error e => .error e
    | .ok ctant => if ctant.c_type = type then .ok (ctant, index1) else .error .fatal

def opcode_insert (op : Op) (line : TokLine) (index : Nat) (s : List (List Binding))
    (ctype : CType) : Except Failure (Op × Nat) :=
  match expect_constant_kind line index ctype s with
  | .error e => .error e
  | .ok (ctant, index1) =>
    match ctant with
    | .ident _ => .ok (op, index1)
    | .num num => .ok ({ op with num := num.value }, index1)
    | .str str => .ok ({ op with str := str }, index1)

/-- The table `specs`: the argument kinds of each mnemonic, in order. It has
no entry for `MNEM_UNK`, which no token line carries. -/
def specs : Mnemonic → List CType
  | .MNEM_ASSERT => [.CONST_NUM, .CONST_STR]
  | .MNEM_DIE => [.CONST_STR]
  | .MNEM_PRINT => [.CONST_STR]
  | .MNEM_PUSH => [.CONST_NUM]
  | _ => []

/-- The loop of `parse` over the arguments of the schedule. -/
def parse_args (line : TokLine) (s : List (List Binding)) :
    List CType → Op → Nat → Except Failure (Op × Nat)
  | [], op, i => .ok (op, i)
  | ctype :: rest, op, i =>
    match opcode_insert op line i s ctype with
    | .error e => .error e
    | .ok (op1, i1) => parse_args line s rest op1 i1

/-- The fields `str` and `num` of the `Op` are unset until an argument fills
them; the embedding starts them empty and zero. The read of
`tokens[args_len + 1]` outside the line is undefined. -/
def parse (line : TokLine) (scope : List (List Binding)) : Except Failure Op :=
  match expect_tok line 0 .TOK_MNEM with
  | .error e => .error e
  | .ok (fst, i) =>
    match parse_args line scope (specs fst.mnemonic)
        { opcode := fst.mnemonic, str := [], num := 0 } i with
    | .error e => .error e
    | .ok (op, _) =>
      match line.tokens.get? ((specs fst.mnemonic).length + 1) with
      | none => .error .undefined
      | some tok => if tok.type ≠ .TOK_EOL then .error .fatal else .ok op

/-- The statement `if (s->repeat.var_name) set_constant(s, s->repeat.var_name, c)`
with the loop constant at `i`: the bindings of the scope afterwards. The C
code leaves the number type of the loop constant unset and never reads it;
the embedding records `NUM_DEC`. -/
def bindLoopVar (constants : List Binding) (var_name : Option (List Nat)) (i : Nat) :
    List Binding :=
  match var_name with
  | some v => set_constant constants v (.num { value := (i : Int), type := .NUM_DEC })
  | none => constants

/-- The loop of `flatten_repeat_scope`, with `remaining` iterations to go, the
loop constant at `value` and the bindings of the scope as the iterations so
far left them; `body` is `flatten_normal_scope` on the scope with the given
bindings. -/
def repeat_loop (body : List Binding → Except Failure (List Nat))
    (var_name : Option (List Nat)) :
    Nat → Nat → List Binding → Except Failure (List Nat)
  | 0, _, _ => .ok []
  | remaining + 1, value, constants =>
    let constants1 := bindLoopVar constants var_name value
    match body constants1 with
    | .error e => .error e
    | .ok bytes =>
      match repeat_loop body var_name remaining (value + 1) constants1 with
      | .error e => .error e
      | .ok more => .ok (bytes ++ more)

mutual
/-- The argument `s` is the chain of the scope that holds the output: its
own bindings first. -/
def flatten_output (s : List (List Binding)) : Output → Except Failure (List Nat)
  | .OUT_SCOPE inner_scope => flatten_scope s inner_scope
  | .OUT_SINGLE line =>
    match parse line s with
    | .error e => .error e
    | .ok op => process_op op
/-- The loop of `flatten_normal_scope` over the outputs of a scope whose chain
is `s`. -/
def flatten_normal_scope (s : List (List Binding)) : List Output → Except Failure (List Nat)
  | [] => .ok []
  | out :: rest =>
    match flatten_output s out with
    | .error e => .error e
    | .ok bytes =>
      match flatten_normal_scope s rest with
      | .error e => .error e
      | .ok more => .ok (bytes ++ more)
/-- The argument `next` is the chain of the enclosing scope. The bindings that
`set_constant` writes into a repeat scope stay in the C structure when the
scope is emitted again by an enclosing repeat; the embedding starts each
emission from the bindings in the tree, which gives the same bytes, since a
scope only ever binds its own loop variable and every iteration sets it anew
before a line is parsed (`set_constant` overwrites the earlier value). -/
def flatten_scope (next : List (List Binding)) : Scope → Except Failure (List Nat)
  | .mk .SCOPE_NORMAL _ out constants _ _ => flatten_normal_scope (constants :: next) out
  | .mk .SCOPE_REPEAT _ out constants n var_name =>
    repeat_loop (fun cs => flatten_normal_scope (cs :: next) out) var_name n 0 constants
end

/-- Run the computations of a list in order and concatenate what they wrote;
the first failure is the result. -/
def concatAll : List (Except Failure (List Nat)) → Except Failure (List Nat)
  | [] => .ok []
  | r :: rest =>
    match r with
    | .error e => .error e
    | .ok bytes =>
      match concatAll rest with
      | .error e => .error e
      | .ok more => .ok (bytes ++ more)

/-- A mnemonic token as the lexer classifies it. -/
def mnemToken (src : List Nat) (m : Mnemonic) (line col : Nat) : Token :=
  { type := .TOK_MNEM, src := src, mnemonic := m, directive := .DIRECTIVE_UNK,
    constant := .str [], col := col, line := line }

/-- An identifier token. -/
def identToken (src : List Nat) (line col : Nat) : Token :=
  { type := .TOK_IDENT, src := src, mnemonic := .MNEM_UNK, directive := .DIRECTIVE_UNK,
    constant := .str [], col := col, line := line }

/-- The token of the string literal `"s"`: its text keeps both quotes, and its
string constant starts behind the opening quote and keeps the closing one. -/
def stringToken (s : List Nat) (line col : Nat) : Token :=
  { type := .TOK_CTANT, src := 34 :: (s ++ [34]), mnemonic := .MNEM_UNK,
    directive := .DIRECTIVE_UNK, constant := .str (s ++ [34]), col := col, line := line }

/-- The end-of-line token that closes every token line. -/
def eolToken (line col : Nat) : Token :=
  { type := .TOK_EOL, src := [], mnemonic := .MNEM_UNK, directive := .DIRECTIVE_UNK,
    constant := .str [], col := col, line := line }

/-- The token line of the source line `print "s"`: the mnemonic, the string
literal, the end of line. -/
def printLine (s : List Nat) (line_no : Nat) : TokLine :=
  { tokens := [mnemToken [112, 114, 105, 110, 116] .MNEM_PRINT line_no 0,
               stringToken s line_no 0, eolToken line_no 0],
    line_no := line_no }

/-- The token line of the source line `push i`: the mnemonic, the identifier,
the end of line. -/
def pushILine (line_no : Nat) : TokLine :=
  { tokens := [mnemToken [112, 117, 115, 104] .MNEM_PUSH line_no 0,
               identToken [105] line_no 0, eolToken line_no 0],
    line_no := line_no }

/-- The scope tree of `%repeat 3 i / push i / %end`: the root scope with the
repeat scope as its only output. -/
def repeat3Program : Scope :=
  .mk .SCOPE_NORMAL 0
    [.OUT_SCOPE (.mk .SCOPE_REPEAT 1 [.OUT_SINGLE (pushILine 2)] [] 3 (some [105]))]
    [] 0 none

/-! ## The assembler: lexer (src/asm.c) -/

/-- The bytes of a text, to write names and source lines. -/
def bytes (s : String) : List Nat := s.toList.map Char.toNat

/-- The character classes of `<ctype.h>` in the C locale; a byte above 127 is
in none of them. -/
def isspace (c : Nat) : Bool := decide (c = 32 ∨ (9 ≤ c ∧ c ≤ 13))

def isdigit (c : Nat) : Bool := decide (48 ≤ c ∧ c ≤ 57)

def isalpha (c : Nat) : Bool := decide ((65 ≤ c ∧ c ≤ 90) ∨ (97 ≤ c ∧ c ≤ 122))

def isalnum (c : Nat) : Bool := isalpha c || isdigit c

def tolower (c : Nat) : Nat := if 65 ≤ c ∧ c ≤ 90 then c + 32 else c

/-- The test `strcasecmp(a, b) == 0`. -/
def strcasecmp_eq (a b : List Nat) : Bool := decide (a.map tolower = b.map tolower)

def dir_type (src : List Nat) : Directive :=
  if strcasecmp_eq src (bytes "repeat") then .DIRECTIVE_REPEAT
  else if strcasecmp_eq src (bytes "end") then .DIRECTIVE_END
  else .DIRECTIVE_UNK

def mnem_type (msg : List Nat) : Mnemonic :=
  if strcasecmp_eq msg (bytes "out") then .MNEM_OUT
  else if strcasecmp_eq msg (bytes "in") then .MNEM_IN
  else if strcasecmp_eq msg (bytes "halt") then .MNEM_HALT
  else if strcasecmp_eq msg (bytes "die") then .MNEM_DIE
  else if strcasecmp_eq msg (bytes "push") then .MNEM_PUSH
  else if strcasecmp_eq msg (bytes "pair") then .MNEM_PAIR
  else if strcasecmp_eq msg (bytes "swap") then .MNEM_SWP
  else if strcasecmp_eq msg (bytes "assert_allocated") then .MNEM_ASSERT
  else if strcasecmp_eq msg (bytes "gc") then .MNEM_GC
  else if strcasecmp_eq msg (bytes "print") then .MNEM_PRINT
  else if strcasecmp_eq msg (bytes "pop") then .MNEM_POP
  else .MNEM_UNK

def ishexdig (c : Nat) : Bool :=
  decide ((48 ≤ c ∧ c ≤ 57) ∨ (65 ≤ c ∧ c ≤ 70) ∨ (97 ≤ c ∧ c ≤ 102))

/-- The text behind an optional leading `+` or `-`. -/
def skipSign (src : List Nat) : List Nat :=
  if src.head? = some 45 ∨ src.head? = some 43 then src.tail else src

def num_type (src : List Nat) : NType :=
  match skipSign src with
  | [] => .NUM_DEC
  | c :: src1 =>
    if c = 48 then
      match src1 with
      | [] => .NUM_DEC
      | d :: src2 =>
        if d = 120 then (if src2.all ishexdig then .NUM_HEX else .NUM_UNK)
        else .NUM_UNK
    else if (c :: src1).all isdigit then .NUM_DEC
    else .NUM_UNK

/-- A directive token as the lexer classifies it. -/
def directiveToken (src : List Nat) (d : Directive) (line col : Nat) : Token :=
  { type := .TOK_DIRECTIVE, src := src, mnemonic := .MNEM_UNK, directive := d,
    constant := .str [], col := col, line := line }

/-- A number token: the value is -1 until `parse_num` runs. -/
def numberToken (src : List Nat) (t : NType) (line col : Nat) : Token :=
  { type := .TOK_CTANT, src := src, mnemonic := .MNEM_UNK, directive := .DIRECTIVE_UNK,
    constant := .num { value := -1, type := t }, col := col, line := line }

/-- A string token: the constant is the text behind the first byte. -/
def quotedToken (src : List Nat) (line col : Nat) : Token :=
  { type := .TOK_CTANT, src := src, mnemonic := .MNEM_UNK, directive := .DIRECTIVE_UNK,
    constant := .str src.tail, col := col, line := line }

/-- A token that no rule of `identify` classifies. -/
def unknownToken (src : List Nat) (line col : Nat) : Token :=
  { type := .TOK_UNK, src := src, mnemonic := .MNEM_UNK, directive := .DIRECTIVE_UNK,
    constant := .str [], col := col, line := line }

/-- The shape `identify` asks of an identifier: a letter or `_`, then letters,
digits and `_`. -/
def identShape : List Nat → Bool
  | [] => false
  | c :: rest => (isalpha c || decide (c = 95)) && rest.all (fun d => isalnum d || decide (d = 95))

/-- The classification of a token text; `none` is the NULL that `lex_space`
returns at the end of the line. The result is the token with its type set
(`TOK_UNK` when no rule applies); an unknown directive is fatal. The fields
of the union that the type does not select keep a fixed value. -/
def identify (src : Option (List Nat)) (line col : Nat) : Except Failure Token :=
  match src with
  | none => .ok (eolToken line col)
  | some s =>
    if s.head? = some 37 then
      if dir_type s.tail = .DIRECTIVE_UNK then .error .fatal
      else .ok (directiveToken s (dir_type s.tail) line col)
    else if s.head? = some 34 then .ok (quotedToken s line col)
    else if num_type s ≠ .NUM_UNK then .ok (numberToken s (num_type s) line col)
    else if mnem_type s ≠ .MNEM_UNK then .ok (mnemToken s (mnem_type s) line col)
    else if identShape s then .ok (identToken s line col)
    else .ok (unknownToken s line col)

/-- Where the pointer `line` of the lexer stands: inside the duplicated line,
with the bytes from the pointer to the terminator, or behind the terminator,
with the bytes that follow the pointer in memory. -/
inductive Cursor where
  | inside (rest : List Nat)
  | outside (beyond : List Nat)
deriving DecidableEq, Repr

/-- The loop `for (; *line && isspace(*line); ++line)` inside the buffer. -/
def skip_inside (rest : List Nat) : Cursor := .inside (rest.dropWhile isspace)

/-- The same loop behind the terminator of the buffer, where it reads the
memory that follows the buffer; what lies behind the known bytes is undefined. -/
def skip_outside : List Nat → Except Failure Cursor
  | [] => .error .undefined
  | c :: rest =>
    if c ≠ 0 ∧ isspace c = true then skip_outside rest else .ok (.outside (c :: rest))

/-- One call of `lex_space`: NULL (`none`) at a NUL, otherwise the text of the
token and the new pointer. `beyond` is the memory that follows the buffer of
the line. The function writes a NUL behind the token and steps over it; when
the token ends at the terminator of the buffer this step leaves the buffer,
and the loop that skips spaces reads `beyond`. A write behind the terminator
(after a string without closing quote, or for a token that starts behind the
terminator) is undefined. -/
def lex_space (beyond : List Nat) : Cursor → Except Failure (Option (List Nat × Cursor))
  | .outside [] => .error .undefined
  | .outside (c :: _) => if c = 0 then .ok none else .error .undefined
  | .inside [] => .ok none
  | .inside (c :: rest) =>
    if c = 34 then
      let body := rest.takeWhile (fun x => x ≠ 34)
      match rest.drop body.length with
      | [] => .error .undefined
      | _ :: [] =>
        match skip_outside beyond with
        | .error e => .error e
        | .ok cur => .ok (some (34 :: (body ++ [34]), cur))
      | _ :: _ :: after => .ok (some (34 :: (body ++ [34]), skip_inside after))
    else
      let tok := (c :: rest).takeWhile (fun x => !isspace x)
      match (c :: rest).drop tok.length with
      | [] =>
        match skip_outside beyond with
        | .error e => .error e
        | .ok cur => .ok (some (tok, cur))
      | _ :: after => .ok (some (tok, skip_inside after))

/-- The result of `next_tok`: the difference `end - start`, the text of the
token (`tok->src`) and the new pointer. `lex_space` returns the pointer it
was given, so the difference is 0; for NULL the C value is not used. -/
def next_tok (beyond : List Nat) (cur : Cursor) :
    Except Failure (Nat × Option (List Nat) × Cursor) :=
  match lex_space beyond cur with
  | .error e => .error e
  | .ok none => .ok (0, none, cur)
  | .ok (some (src, cur1)) => .ok (0, some src, cur1)

/-- The `do ... while` loop of `tokenize_line`; `fuel` bounds its iterations. -/
def tokenize_loop (beyond : List Nat) (line_no : Nat) :
    Nat → Cursor → Nat → Except Failure (List Token)
  | 0, _, _ => .error .undefined
  | fuel + 1, cur, col =>
    match next_tok beyond cur with
    | .error e => .error e
    | .ok (lexed, src, cur1) =>
      match identify src line_no col with
      | .error e => .error e
      | .ok current =>
        if current.type = .TOK_UNK then .error .fatal
        else if current.type = .TOK_EOL then .ok [current]
        else
          match tokenize_loop beyond line_no fuel cur1 (col + lexed) with
          | .error e => .error e
          | .ok more => .ok (current :: more)

/-- The token line of a trimmed source line. `beyond` is the memory behind the
duplicate of the line, which the lexer reads after the last token. Every
iteration but the last consumes a byte of the line, so the loop is allowed
two iterations more than the line has bytes. -/
def tokenize_line (line_ : List Nat) (line_no : Nat) (beyond : List Nat) :
    Except Failure TokLine :=
  match tokenize_loop beyond line_no (line_.length + 2) (.inside line_) 0 with
  | .error e => .error e
  | .ok tokens => .ok { tokens := tokens, line_no := line_no }

/-- The text `trim_line` returns for the line that `getline` read. `before`
is the byte in memory in front of the buffer, which the loop that trims on the
right reads when everything in front of the `;` is white space. The NUL is
written at `end`; when `end` lies in front of the first byte that is not white
space, the text returned runs to the old terminator. -/
def trim_line (before : Nat) (line : List Nat) : Except Failure (List Nat) :=
  let kept := ((line.takeWhile (fun c => c ≠ 59)).reverse.dropWhile isspace).reverse
  if kept = [] ∧ before ≠ 0 ∧ isspace before = true then .error .undefined
  else
    let start := (line.takeWhile isspace).length
    if start ≤ kept.length then .ok (kept.drop start) else .ok (line.drop start)

/-! ## The assembler: directives and the line loop (src/asm.c) -/

/-- The intermediate code of a line. The C structure has a `type`, the token
line and the new scope; each constructor carries the field its type uses. -/
inductive IMCode where
  | IM_BEGIN_SCOPE (new_scope : Scope)
  | IM_END_SCOPE
  | IM_DIRECTIVE
  | IM_NOOP
  | IM_INSTR (line : TokLine)

/-- A normal scope without outputs and bindings. The fields of the repeat that
the C function leaves unset are 0 and no name. -/
def new_scope : Scope := .mk .SCOPE_NORMAL 0 [] [] 0 none

def repeat_scope (n : Nat) (var_name : Option (List Nat)) : Scope :=
  .mk .SCOPE_REPEAT 0 [] [] n var_name

/-- The field `num.value` of the constant that `expect_constant_kind` returns
for the kind `CONST_NUM`; the kind check leaves no other constant. -/
def expect_number (args : TokLine) (index : Nat) (s : List (List Binding)) :
    Except Failure Int :=
  match expect_constant_kind args index .CONST_NUM s with
  | .error e => .error e
  | .ok (.num num, _) => .ok num.value
  | .ok (_, _) => .error .undefined

/-- The directive `%repeat`: the count at index 1, and a loop variable at index
2 when the line has more than 3 tokens. The result is the code
`IM_BEGIN_SCOPE` with the new repeat scope, declared at the line. The
statement `(void)expect_tok(args, &i, TOK_EOL)` that ends the checks is no
part of the function as it is built: `expect_tok` is declared
`__attribute_const__` and the result of this call is discarded, so the call
is dropped together with the assertion inside it, and a token behind the
count or the loop variable is never looked at. The call for the loop variable
stays, since its result is used. -/
def parse_repeat (args : TokLine) (s : List (List Binding)) : Except Failure IMCode :=
  match expect_number args 1 s with
  | .error e => .error e
  | .ok n =>
    if n < 0 then .error .fatal
    else if args.tokens.length > 3 then
      match expect_tok args 2 .TOK_IDENT with
      | .error e => .error e
      | .ok (tok, _) =>
        .ok (.IM_BEGIN_SCOPE (.mk .SCOPE_REPEAT args.line_no [] [] n.toNat (some tok.src)))
    else .ok (.IM_BEGIN_SCOPE (.mk .SCOPE_REPEAT args.line_no [] [] n.toNat none))

/-- The directive `%end`. Its only check is `expect_eol(args, 1)`, whose body
is the discarded call `(void)expect_tok(args, &i, TOK_EOL)` of the
`__attribute_const__` function: the call is dropped as in `parse_repeat`, and
what follows `%end` on the line is never looked at. -/
def parse_end (_ : TokLine) : Except Failure IMCode := .ok .IM_END_SCOPE

/-- The table `directive_parsers` has no entry for `DIRECTIVE_UNK`, which
`identify` gives to no token. -/
def parse_directive (line : TokLine) (directive : Directive) (s : List (List Binding)) :
    Except Failure IMCode :=
  match directive with
  | .DIRECTIVE_REPEAT => parse_repeat line s
  | .DIRECTIVE_END => parse_end line
  | .DIRECTIVE_UNK => .error .undefined

def get_code (line : TokLine) (s : List (List Binding)) : Except Failure IMCode :=
  if line.tokens.length = 0 then .ok .IM_NOOP
  else
    match please_tok line 0 with
    | .error e => .error e
    | .ok (first, _) =>
      match first.type with
      | .TOK_DIRECTIVE => parse_directive line first.directive s
      | .TOK_MNEM => .ok (.IM_INSTR line)
      | _ => .error .fatal

def push_out (current : Scope) (out : Output) : Scope :=
  match current with
  | .mk scope_type decl_line outs constants n var_name =>
    .mk scope_type decl_line (outs ++ [out]) constants n var_name

def push_line (current : Scope) (line : TokLine) : Scope := push_out current (.OUT_SINGLE line)

def push_scope (current : Scope) (sc : Scope) : Scope := push_out current (.OUT_SCOPE sc)

/-- The argument `scope` is the chain that starts at `*scope` and runs through
the pointers `next`: the current scope first, the root last; the empty list is
the NULL pointer. For `IM_END_SCOPE` the C code tests `*scope`, takes
`last = current->next` and calls `push_scope(last, current)`; at the root
`last` is NULL and `push_out` dereferences it. -/
def follow_imcode (code : IMCode) (scope : List Scope) : Except Failure (List Scope) :=
  match code with
  | .IM_DIRECTIVE => .error .fatal
  | .IM_NOOP => .ok scope
  | .IM_INSTR line =>
    match scope with
    | [] => .error .fatal
    | current :: next => .ok (push_line current line :: next)
  | .IM_BEGIN_SCOPE new_scope => .ok (new_scope :: scope)
  | .IM_END_SCOPE =>
    match scope with
    | [] => .error .fatal
    | [_] => .error .undefined
    | current :: last :: next => .ok (push_scope last current :: next)

def Scope.constants : Scope → List Binding
  | .mk _ _ _ constants _ _ => constants

/-- The bindings along the chain of scopes, as `find_constant` walks it. -/
def chainOf (scope : List Scope) : List (List Binding) := scope.map Scope.constants

/-- The loop of `main` over the lines that `getline` returns, from line number
`line_no` on. `before n` is the byte in front of the buffer of `getline` and
`beyond n` the memory behind the copy that `tokenize_line` makes, at line `n`. -/
def main_loop (before : Nat → Nat) (beyond : Nat → List Nat) :
    List (List Nat) → Nat → List Scope → Except Failure (List Scope)
  | [], _, current => .ok current
  | line :: rest, line_no, current =>
    match trim_line (before line_no) line with
    | .error e => .error e
    | .ok trimmed =>
      if trimmed = [] then main_loop before beyond rest (line_no + 1) current
      else
        match tokenize_line trimmed line_no (beyond line_no) with
        | .error e => .error e
        | .ok tok_line =>
          match get_code tok_line (chainOf current) with
          | .error e => .error e
          | .ok code =>
            match follow_imcode code current with
            | .error e => .error e
            | .ok current1 => main_loop before beyond rest (line_no + 1) current1

/-- The assembler on the lines of its input: the bytes it writes to the output
file. The output is written by `flatten_scope` alone, after the assertion
`current == first`, which holds when the chain is the root scope alone. -/
def assemble (before : Nat → Nat) (beyond : Nat → List Nat) (lines : List (List Nat)) :
    Except Failure (List Nat) :=
  match main_loop before beyond lines 1 [new_scope] with
  | .error e => .error e
  | .ok [root] => flatten_scope [] root
  | .ok _ => .error .fatal

/-- The lines `getline` returns for a text without NUL bytes: each runs through
its newline; the last may lack one. -/
def getlines_loop : List Nat → List Nat → List (List Nat)
  | [], cur => if cur = [] then [] else [cur]
  | c :: rest, cur =>
    if c = 10 then (cur ++ [c]) :: getlines_loop rest [] else getlines_loop rest (cur ++ [c])

def getlines (text : List Nat) : List (List Nat) := getlines_loop text []

/-! ## The lexical grammar in the words of the specification -/

/-- The pattern `[+-]?body`. -/
def optSign (body : List Nat → Bool) (t : List Nat) : Bool :=
  body t ||
    match t with
    | [] => false
    | c :: rest => (decide (c = 43) || decide (c = 45)) && body rest

/-- The character class `[lo-hi]`. -/
def inClass (lo hi c : Nat) : Bool := decide (lo ≤ c ∧ c ≤ hi)

/-- The pattern `0|[1-9][0-9]*`. -/
def decimalBody : List Nat → Bool
  | [] => false
  | c :: rest =>
    (decide (c = 48) && rest.isEmpty) || (inClass 49 57 c && rest.all (inClass 48 57))

/-- The pattern `0x[0-9A-Fa-f]+`. -/
def hexBody : List Nat → Bool
  | c :: d :: digits =>
    decide (c = 48) && decide (d = 120) && !digits.isEmpty &&
      digits.all (fun h => inClass 48 57 h || inClass 65 70 h || inClass 97 102 h)
  | _ => false

/-- The decimal numbers of the specification: `[+-]?(0|[1-9][0-9]*)`. -/
def matchesDecimal (t : List Nat) : Bool := optSign decimalBody t

/-- The hexadecimal numbers of the specification: `[+-]?0x[0-9A-Fa-f]+`. -/
def matchesHex (t : List Nat) : Bool := optSign hexBody t

/-- The identifiers of the specification: `[A-Za-z_][A-Za-z0-9_]*`. -/
def matchesIdentifier : List Nat → Bool
  | [] => false
  | c :: rest =>
    (inClass 65 90 c || inClass 97 122 c || decide (c = 95)) &&
      rest.all (fun d => inClass 65 90 d || inClass 97 122 d || inClass 48 57 d || decide (d = 95))

/-- The mnemonic names of the specification, in its order. -/
def mnemonicNames : List (List Nat × Mnemonic) :=
  [(bytes "out", .MNEM_OUT), (bytes "in", .MNEM_IN), (bytes "push", .MNEM_PUSH),
   (bytes "pair", .MNEM_PAIR), (bytes "swap", .MNEM_SWP), (bytes "gc", .MNEM_GC),
   (bytes "pop", .MNEM_POP), (bytes "assert_allocated", .MNEM_ASSERT),
   (bytes "print", .MNEM_PRINT), (bytes "die", .MNEM_DIE), (bytes "halt", .MNEM_HALT)]

/-- The mnemonic whose name equals `t` when the case of letters is ignored. -/
def mnemonicNamed (t : List Nat) : Option Mnemonic :=
  (mnemonicNames.find? (fun p => decide (t.map tolower = p.1))).map Prod.snd

/-- What the classification of a token text comes to. -/
inductive TokenClass where
  | directive (d : Directive)
  | string
  | number (t : NType)
  | mnemonic (m : Mnemonic)
  | identifier
  | fatal
deriving DecidableEq, Repr

/-- The classification of the specification, rule by rule in its order of
priority, for a token text that is not empty. -/
def classifySpec (t : List Nat) : TokenClass :=
  if t.head? = some 37 then
    if t.tail.map tolower = bytes "repeat" then .directive .DIRECTIVE_REPEAT
    else if t.tail.map tolower = bytes "end" then .directive .DIRECTIVE_END
    else .fatal
  else if t.head? = some 34 then .string
  else if num_type t ≠ .NUM_UNK then .number (num_type t)
  else
    match mnemonicNamed t with
    | some m => .mnemonic m
    | none => if matchesIdentifier t then .identifier else .fatal

/-- The class of what `identify` returns, with the assertion of
`tokenize_line` that the type is not `TOK_UNK`. -/
def classOf : Except Failure Token → TokenClass
  | .error _ => .fatal
  | .ok tok =>
    match tok.type with
    | .TOK_DIRECTIVE => .directive tok.directive
    | .TOK_CTANT =>
      match tok.constant with
      | .str _ => .string
      | .num n => .number n.type
      | .ident _ => .fatal
    | .TOK_MNEM => .mnemonic tok.mnemonic
    | .TOK_IDENT => .identifier
    | .TOK_EOL => .fatal
    | .TOK_UNK => .fatal

/-- A token text that is a run of bytes without white space and does not start
with a double quote. -/
def IsWord (t : List Nat) : Prop :=
  t ≠ [] ∧ t.head? ≠ some 34 ∧ ∀ c ∈ t, isspace c = false

/-- A token text that runs from a double quote through the next double quote. -/
def IsQuoted (t : List Nat) : Prop :=
  ∃ body, t = 34 :: (body ++ [34]) ∧ 34 ∉ body

/-- The line is the token texts in order, with white space between two of
them and nowhere else outside the quoted ones: every double quote that
starts a token has its closing quote, followed by white space or by the end of
the line. -/
inductive Lexes : List Nat → List (List Nat) → Prop where
  | last {t : List Nat} : IsWord t ∨ IsQuoted t → Lexes t [t]
  | more {t ws rest : List Nat} {ts : List (List Nat)} :
      IsWord t ∨ IsQuoted t → ws ≠ [] → (∀ c ∈ ws, isspace c = true) →
      Lexes rest ts → Lexes (t ++ (ws ++ rest)) (t :: ts)

/-- The tokens of the token texts in order: each is classified by `identify`;
the first text that is an unknown directive or that no rule classifies is
fatal. -/
def identifyAll (line : Nat) : List (List Nat) → Except Failure (List Token)
  | [] => .ok []
  | t :: ts =>
    match identify (some t) line 0 with
    | .error e => .error e
    | .ok tok =>
      if tok.type = .TOK_UNK then .error .fatal
      else
        match identifyAll line ts with
        | .error e => .error e
        | .ok more => .ok (tok :: more)

/-- The value of a string of decimal digits. -/
def decimalValue (digits : List Nat) : Nat :=
  digits.foldl (fun acc c => acc * 10 + (c - 48)) 0

/-- The value of a string of hexadecimal digits. -/
def hexValue (digits : List Nat) : Nat :=
  digits.foldl (fun acc c => acc * 16 + decode_hex c) 0

/-! ## Directives and scopes in the words of the specification -/

/-- The arguments the specification accepts behind `%repeat`: a number token
whose parsed value `n` is not negative, optionally one identifier token, which
names the loop variable, then the end of the line. -/
def RepeatArgs (rest : List Token) (n : Int) (var : Option (List Nat)) : Prop :=
  ∃ count num eol, count.type = .TOK_CTANT ∧ count.constant = .num num ∧
    parse_num count.src num.type = .ok n ∧ 0 ≤ n ∧ eol.type = .TOK_EOL ∧
    ((var = none ∧ rest = [count, eol]) ∨
      ∃ name, name.type = .TOK_IDENT ∧ var = some name.src ∧ rest = [count, name, eol])

/-- The directive a source line starts with, if it starts with one: the
directive of the first token of the trimmed line. -/
def lineDirective (before : Nat) (beyond : List Nat) (line_no : Nat) (line : List Nat) :
    Option Directive :=
  match trim_line before line with
  | .error _ => none
  | .ok trimmed =>
    if trimmed = [] then none
    else
      match tokenize_line trimmed line_no beyond with
      | .error _ => none
      | .ok tok_line =>
        match tok_line.tokens.head? with
        | none => none
        | some first => if first.type = .TOK_DIRECTIVE then some first.directive else none

/-- The number of `%repeat` lines still open after the lines, `open_` being
open before them: a `%repeat` line opens one, an `%end` line closes one. -/
def openRepeats (before : Nat → Nat) (beyond : Nat → List Nat) :
    List (List Nat) → Nat → Nat → Nat
  | [], _, open_ => open_
  | line :: rest, line_no, open_ =>
    match lineDirective (before line_no) (beyond line_no) line_no line with
    | some .DIRECTIVE_REPEAT => openRepeats before beyond rest (line_no + 1) (open_ + 1)
    | some .DIRECTIVE_END => openRepeats before beyond rest (line_no + 1) (open_ - 1)
    | _ => openRepeats before beyond rest (line_no + 1) open_

/-! ## Identifier resolution in the words of the specification -/

/-- The chain a line sees during emission: for every enclosing scope,
innermost first, the bindings of that scope, which hold its loop variable (if
it has one) at the current index. -/
def loopChain (encl : List (Option (List Nat) × Nat)) : List (List Binding) :=
  encl.map (fun e => bindLoopVar [] e.1 e.2)

/-- The current index of the innermost enclosing repeat whose loop variable is
named `x`. -/
def innermostIndex : List (Option (List Nat) × Nat) → List Nat → Option Nat
  | [], _ => none
  | (v, i) :: rest, x => if v = some x then some i else innermostIndex rest x

/-- The token line of the source line `push x` for an identifier `x`. -/
def pushIdentLine (x : List Nat) (line_no : Nat) : TokLine :=
  { tokens := [mnemToken (bytes "push") .MNEM_PUSH line_no 0,
               identToken x line_no 0, eolToken line_no 0],
    line_no := line_no }

/-- The scope tree of `%repeat 2 i / %repeat 2 j / push i / %end / %end`. -/
def nestedIJProgram : Scope :=
  .mk .SCOPE_NORMAL 0
    [.OUT_SCOPE (.mk .SCOPE_REPEAT 1
      [.OUT_SCOPE (.mk .SCOPE_REPEAT 2 [.OUT_SINGLE (pushIdentLine (bytes "i") 3)] [] 2
        (some (bytes "j")))] [] 2 (some (bytes "i")))]
    [] 0 none

/-- The scope tree of `%repeat 2 i / %repeat 2 i / push i / %end / %end`. -/
def nestedIIProgram : Scope :=
  .mk .SCOPE_NORMAL 0
    [.OUT_SCOPE (.mk .SCOPE_REPEAT 1
      [.OUT_SCOPE (.mk .SCOPE_REPEAT 2 [.OUT_SINGLE (pushIdentLine (bytes "i") 3)] [] 2
        (some (bytes "i")))] [] 2 (some (bytes "i")))]
    [] 0 none

/-- The scope tree of the one-line program `push x`. -/
def pushXProgram : Scope :=
  .mk .SCOPE_NORMAL 0 [.OUT_SINGLE (pushIdentLine (bytes "x") 1)] [] 0 none

/-- The instructions the specification gives for `print "s"` with
`s = c0 c1 rest`. -/
def printInstructions (c0 c1 : Nat) (rest : List Nat) : List Instruction :=
  [.I_PSH_I32 (charValue c0), .I_PSH_I32 (charValue c1), .I_PAIR] ++
    rest.flatMap (fun c => [.I_PSH_I32 (charValue c), .I_PAIR]) ++
    [.I_PSH_I32 10, .I_PAIR, .I_PRINT, .I_POP, .I_GC]

/-- The source line `print "s"`, without its newline: the mnemonic, one blank,
and the string between double quotes. -/
def printSource (s : List Nat) : List Nat := bytes "print" ++ ([32] ++ 34 :: (s ++ [34]))

end GcVm.Asm

/-! ## The disassembler (src/dasm.c) -/

namespace GcVm.Dasm

open GcVm

/-- The text of `printf("'%c'", v)` for the `char` that `value` converts to. -/
def ch (value : Int) : List Nat := [39, (value % 256).toNat, 39]

end GcVm.Dasm

namespace GcVm

/-! ## Specification vocabulary for the heap -/

/-- The addresses of the objects of a chain, in chain order. -/
def addrs (objs : List Object) : List Ref := objs.map Object.addr

/-- An edge of the pair graph: `b` is the head or the tail of the pair at `a`. -/
def Child (objs : List Object) (a b : Ref) : Prop :=
  ∃ o, deref objs a = some o ∧ o.type = .OBJ_PAIR ∧ (o.head = b ∨ o.tail = b)

/-- Reachability through head/tail links. -/
inductive Reach (objs : List Object) : Ref → Ref → Prop where
  | refl (a : Ref) : Reach objs a a
  | step {a b c : Ref} : Child objs a b → Reach objs b c → Reach objs a c

/-- Reachable from some slot of the operand stack. -/
def FromStack (vm : VM) (x : Ref) : Prop :=
  ∃ r ∈ vm.stack, Reach vm.first r x

/-- Every mark bit is clear. -/
def AllClear (objs : List Object) : Prop := ∀ o ∈ objs, o.is_marked = false

/-- No dangling pair field: head and tail of every pair are live objects. -/
def Closed (objs : List Object) : Prop :=
  ∀ o ∈ objs, o.type = .OBJ_PAIR → o.head ∈ addrs objs ∧ o.tail ∈ addrs objs

/-- No dangling stack slot. -/
def RootsLive (vm : VM) : Prop := ∀ r ∈ vm.stack, r ∈ addrs vm.first

/-- The chain `objs` with exactly the objects whose address is in `S` marked. -/
def withMarks (objs : List Object) (S : List Ref) : List Object :=
  objs.map (fun o => { o with is_marked := decide (o.addr ∈ S) })

/-- Number of objects of `objs` whose address is outside `S`. -/
def unvisited (objs : List Object) (S : List Ref) : Nat :=
  (objs.filter (fun o => decide (o.addr ∉ S))).length

/-- Allocation order: head and tail of every pair are objects further down the
chain, that is, objects that were allocated before the pair. -/
def Ordered : List Object → Prop
  | [] => True
  | o :: rest =>
    (o.type = .OBJ_PAIR → o.head ∈ addrs rest ∧ o.tail ∈ addrs rest) ∧ Ordered rest

/-- The invariant of the VM between two instructions. -/
structure Inv (vm : VM) : Prop where
  nodup : (addrs vm.first).Nodup
  clear : AllClear vm.first
  roots : RootsLive vm
  ordered : Ordered vm.first
  count : vm.num_objects = (vm.first.length : Int)
  size : vm.stack.length ≤ STACK_MAX

/-- What the embedding assumes of `malloc`: the block it returns is not one of
the live objects. -/
def FreshAlloc (malloc : List Ref → Ref) : Prop := ∀ live, malloc live ∉ live

/-- The integer leaves of the object at an address, from left to right: an
integer is its own single leaf, a pair has the leaves of its head followed by
the leaves of its tail. -/
inductive Leaves (objs : List Object) : Ref → List Int → Prop where
  | int {r : Ref} {o : Object} :
      deref objs r = some o → o.type = .OBJ_INT → Leaves objs r [o.value]
  | pair {r : Ref} {o : Object} {l1 l2 : List Int} :
      deref objs r = some o → o.type = .OBJ_PAIR →
      Leaves objs o.head l1 → Leaves objs o.tail l2 → Leaves objs r (l1 ++ l2)

/-- The conditions under which the specification says an instruction is fatal. -/
def FaultCondition (vm : VM) : Instruction → Prop
  | .I_POP => vm.stack_size = 0
  | .I_PRINT => vm.stack_size = 0
  | .I_SWP => vm.stack_size < 2
  | .I_PAIR => vm.stack_size < 2
  | .I_PSH_I32 _ => vm.stack_size = 256
  | .I_READ_I32 => vm.stack_size = 256
  | .I_ASSERT n _ => vm.num_objects ≠ n
  | .I_DIE _ => True
  | .I_HALT => False
  | .I_GC => False

/-- The state in which `newObject` allocates: the result of the collection
when `num_objects == max_objects`, the state itself otherwise. -/
def afterTrigger (vm : VM) : Option VM :=
  if vm.num_objects = vm.max_objects then gc vm else some vm

instance (objs : List Object) : Decidable (AllClear objs) := by
  unfold AllClear; infer_instance

instance (objs : List Object) : Decidable (Closed objs) := by
  unfold Closed; infer_instance

instance (vm : VM) : Decidable (RootsLive vm) := by
  unfold RootsLive; infer_instance

/-- The state `test3` builds before it calls `gc`: addresses 1 .. 7 in
allocation order, the pair of pairs on the stack. -/
def test3VM : VM :=
  { stack := [7],
    first := [⟨7, .OBJ_PAIR, false, 0, 3, 6⟩, ⟨6, .OBJ_PAIR, false, 0, 4, 5⟩,
              ⟨5, .OBJ_INT, false, 4, 0, 0⟩, ⟨4, .OBJ_INT, false, 3, 0, 0⟩,
              ⟨3, .OBJ_PAIR, false, 0, 1, 2⟩, ⟨2, .OBJ_INT, false, 2, 0, 0⟩,
              ⟨1, .OBJ_INT, false, 1, 0, 0⟩],
    num_objects := 7, max_objects := 100, has_halted := false }

/-- The state `test4` builds before it calls `gc`: the pairs `a` (address 3)
and `b` (address 6) are on the stack and `a.tail = b`, `b.tail = a`. -/
def test4VM : VM :=
  { stack := [6, 3],
    first := [⟨6, .OBJ_PAIR, false, 0, 4, 3⟩, ⟨5, .OBJ_INT, false, 4, 0, 0⟩,
              ⟨4, .OBJ_INT, false, 3, 0, 0⟩, ⟨3, .OBJ_PAIR, false, 0, 1, 6⟩,
              ⟨2, .OBJ_INT, false, 2, 0, 0⟩, ⟨1, .OBJ_INT, false, 1, 0, 0⟩],
    num_objects := 6, max_objects := 100, has_halted := false }

/-- A machine with nothing to read and nothing written yet. -/
def startMachine : Machine := { vm := newVM, stdin := [], stdout := [] }

/-- The machine after `PUSH 72; PUSH 105`. -/
def twoIntsMachine : Machine :=
  { vm := { stack := [2, 1],
            first := [⟨2, .OBJ_INT, false, 105, 0, 0⟩, ⟨1, .OBJ_INT, false, 72, 0, 0⟩],
            num_objects := 2, max_objects := 100, has_halted := false },
    stdin := [], stdout := [] }

/-- The machine after `PUSH 72; PUSH 105; PAIR`. -/
def onePairMachine : Machine :=
  { vm := { stack := [3],
            first := [⟨3, .OBJ_PAIR, false, 0, 1, 2⟩,
                      ⟨2, .OBJ_INT, false, 105, 0, 0⟩, ⟨1, .OBJ_INT, false, 72, 0, 0⟩],
            num_objects := 3, max_objects := 100, has_halted := false },
    stdin := [], stdout := [] }

/-- A program whose last allocation is the 101st: one hundred times
`PUSH 0; POP`, then `PUSH 7`. -/
def churnProgram : List Instruction :=
  (List.replicate 100 [Instruction.I_PSH_I32 0, Instruction.I_POP]).flatten ++
    [Instruction.I_PSH_I32 7]

/-- The machine at the end of `churnProgram`: the collection that the 101st
allocation triggered has freed the hundred popped integers. -/
def churnMachine : Machine :=
  { vm := { stack := [1], first := [⟨1, .OBJ_INT, false, 7, 0, 0⟩],
            num_objects := 1, max_objects := 0, has_halted := false },
    stdin := [], stdout := [] }

/-- The state `vm` during a computation that started in `vm0` and has only
pushed onto the stack of `vm0`: the invariant holds, the stack of `vm0` lies
under what was pushed, and the chain is some new objects in front of objects
of the chain of `vm0`, among them every object that was reachable from the
stack of `vm0`. -/
def Frame (vm0 vm : VM) : Prop :=
  Inv vm ∧ (∃ stk, vm.stack = stk ++ vm0.stack) ∧
    ∃ (pre : List Object) (p : Object → Bool), vm.first = pre ++ vm0.first.filter p ∧
      ∀ o ∈ vm0.first, FromStack vm0 o.addr → p o = true

/-- A frame over `vm0` with one object on top of the stack of `vm0`, whose
leaves are `ls`. -/
def Building (vm0 vm : VM) (ls : List Int) : Prop :=
  Frame vm0 vm ∧ ∃ t, vm.stack = t :: vm0.stack ∧ Leaves vm.first t ls

/-- The heap of `test4` with nothing on the stack: the two pairs of the cycle
and their integers are all unreachable. -/
def test4Dropped : VM := { test4VM with stack := [] }

/-- One hundred times `PUSH 0; POP`: one hundred allocations on a fresh VM,
each object unreachable as soon as it is popped. -/
def hundredAllocations : List Instruction :=
  (List.replicate 100 [Instruction.I_PSH_I32 0, Instruction.I_POP]).flatten

/-- A GC on the fresh VM, then one hundred times `PUSH 0; POP`, then `PUSH 7`:
the allocations of `churnProgram` behind a collection that found no object. -/
def leakProgram : List Instruction :=
  Instruction.I_GC :: (hundredAllocations ++ [Instruction.I_PSH_I32 7])

/-! ## Lemmas on dereferencing and marking -/

theorem deref_some_mem {objs : List Object} {r : Ref} {o : Object}
    (h : deref objs r = some o) : o ∈ objs ∧ o.addr = r := by
  unfold deref at h
  refine ⟨List.mem_of_find?_eq_some h, ?_⟩
  have := List.find?_some h
  simpa using this

theorem deref_cons (p : Object) (rest : List Object) (r : Ref) :
    deref (p :: rest) r = if p.addr = r then some p else deref rest r := by
  by_cases hp : p.addr = r
  · simp [deref, List.find?_cons, hp]
  · simp [deref, List.find?_cons, hp]

theorem mem_addrs_cons {p : Object} {rest : List Object} {r : Ref} :
    r ∈ addrs (p :: rest) ↔ p.addr = r ∨ r ∈ addrs rest := by
  simp only [addrs, List.map_cons, List.mem_cons]
  constructor
  · rintro (h | h)
    · exact Or.inl h.symm
    · exact Or.inr h
  · rintro (h | h)
    · exact Or.inl h.symm
    · exact Or.inr h

theorem deref_of_mem_addrs {objs : List Object} {r : Ref}
    (h : r ∈ addrs objs) : ∃ o, deref objs r = some o := by
  induction objs with
  | nil => simp [addrs] at h
  | cons p rest ih =>
    rw [deref_cons]
    by_cases hp : p.addr = r
    · exact ⟨p, by simp [hp]⟩
    · rcases mem_addrs_cons.mp h with h1 | h1
      · exact absurd h1 hp
      · obtain ⟨o, ho⟩ := ih h1
        exact ⟨o, by simp [hp, ho]⟩

theorem deref_map (objs : List Object) (f : Object → Object)
    (hf : ∀ o, (f o).addr = o.addr) (r : Ref) :
    deref (objs.map f) r = (deref objs r).map f := by
  induction objs with
  | nil => rfl
  | cons p rest ih =>
    rw [List.map_cons, deref_cons, deref_cons, ih, hf]
    by_cases hp : p.addr = r
    · simp [hp]
    · simp [hp]

theorem deref_withMarks (objs : List Object) (S : List Ref) (r : Ref) :
    deref (withMarks objs S) r =
      (deref objs r).map (fun o => { o with is_marked := decide (o.addr ∈ S) }) :=
  deref_map objs (fun o => { o with is_marked := decide (o.addr ∈ S) }) (fun _ => rfl) r

theorem setMarked_withMarks (objs : List Object) (S : List Ref) (r : Ref) :
    setMarked (withMarks objs S) r = withMarks objs (r :: S) := by
  simp only [setMarked, withMarks, List.map_map]
  apply List.map_congr_left
  intro o _
  by_cases h : o.addr = r
  · simp [h]
  · simp [h]

theorem withMarks_nil_of_clear {objs : List Object} (h : AllClear objs) :
    withMarks objs [] = objs := by
  induction objs with
  | nil => rfl
  | cons p rest ih =>
    have hp : p.is_marked = false := h p (List.mem_cons_self _ _)
    have hr : AllClear rest := fun o ho => h o (List.mem_cons_of_mem _ ho)
    simp only [withMarks, List.map_cons] at ih ⊢
    rw [ih hr]
    cases p
    simp_all

theorem unvisited_cons (p : Object) (rest : List Object) (S : List Ref) :
    unvisited (p :: rest) S = (if p.addr ∈ S then 0 else 1) + unvisited rest S := by
  unfold unvisited
  rw [List.filter_cons]
  by_cases h : p.addr ∈ S
  · simp [h]
  · simp [h]
    omega

theorem unvisited_le {objs : List Object} {S T : List Ref} (h : S ⊆ T) :
    unvisited objs T ≤ unvisited objs S := by
  induction objs with
  | nil => simp [unvisited]
  | cons p rest ih =>
    rw [unvisited_cons, unvisited_cons]
    by_cases hS : p.addr ∈ S
    · have hT : p.addr ∈ T := h hS
      simp only [hS, hT, if_true]
      omega
    · by_cases hT : p.addr ∈ T
      · simp only [hS, hT, if_true, if_false]
        omega
      · simp only [hS, hT, if_false]
        omega

theorem unvisited_cons_lt {objs : List Object} {S : List Ref} {r : Ref}
    (hr : r ∈ addrs objs) (hS : r ∉ S) :
    unvisited objs (r :: S) < unvisited objs S := by
  induction objs with
  | nil => simp [addrs] at hr
  | cons p rest ih =>
    have hle : unvisited rest (r :: S) ≤ unvisited rest S :=
      unvisited_le (fun a ha => List.mem_cons_of_mem _ ha)
    rw [unvisited_cons, unvisited_cons]
    by_cases hp : p.addr = r
    · have h1 : p.addr ∉ S := hp ▸ hS
      have h2 : p.addr ∈ r :: S := by simp [hp]
      simp only [h1, h2, if_true, if_false]
      omega
    · rcases mem_addrs_cons.mp hr with h1 | h1
      · exact absurd h1 hp
      · have := ih h1
        by_cases hpS : p.addr ∈ S
        · have h2 : p.addr ∈ r :: S := List.mem_cons_of_mem _ hpS
          simp only [hpS, h2, if_true]
          omega
        · have h2 : p.addr ∉ r :: S := by simp [hp, hpS]
          simp only [hpS, h2, if_false]
          omega

theorem unvisited_le_length (objs : List Object) (S : List Ref) :
    unvisited objs S ≤ objs.length := by
  unfold unvisited
  exact List.length_filter_le _ _

theorem reach_trans {objs : List Object} {a b c : Ref}
    (h1 : Reach objs a b) (h2 : Reach objs b c) : Reach objs a c := by
  induction h1 with
  | refl => exact h2
  | step hc _ ih => exact Reach.step hc (ih h2)

theorem child_of_deref {objs : List Object} {a : Ref} {o : Object}
    (ho : deref objs a = some o) (hty : o.type = .OBJ_PAIR) :
    Child objs a o.head ∧ Child objs a o.tail :=
  ⟨⟨o, ho, hty, Or.inl rfl⟩, ⟨o, ho, hty, Or.inr rfl⟩⟩

/-- One call of `mark` on a chain whose marked set is `S`: with fuel above the
number of unvisited objects it returns, the marked set grows to some `T`, the
root is in `T`, and every address added is reachable from the root and has its
children in `T`. -/
theorem mark_withMarks (objs : List Object) (hclosed : Closed objs) :
    ∀ (fuel : Nat) (S : List Ref) (r : Ref), r ∈ addrs objs → unvisited objs S < fuel →
      ∃ T, mark fuel (withMarks objs S) r = some (withMarks objs T) ∧ S ⊆ T ∧ r ∈ T ∧
        (∀ a ∈ T, a ∈ S ∨ (Reach objs r a ∧ ∀ b, Child objs a b → b ∈ T)) := by
  intro fuel
  induction fuel with
  | zero => intro S r _ h; omega
  | succ n ih =>
    intro S r hr hfuel
    obtain ⟨o, ho⟩ := deref_of_mem_addrs hr
    obtain ⟨homem, hoaddr⟩ := deref_some_mem ho
    by_cases hS : r ∈ S
    · refine ⟨S, ?_, fun a ha => ha, hS, fun a ha => Or.inl ha⟩
      simp [mark, deref_withMarks, ho, hoaddr, hS]
    · cases htype : o.type with
      | OBJ_INT =>
        refine ⟨r :: S, ?_, fun a ha => List.mem_cons_of_mem _ ha, List.mem_cons_self _ _, ?_⟩
        · simp [mark, deref_withMarks, ho, hoaddr, hS, htype, setMarked_withMarks]
        · intro a ha
          rcases List.mem_cons.mp ha with h | h
          · right
            subst h
            refine ⟨Reach.refl _, ?_⟩
            rintro b ⟨o1, ho1, hty, _⟩
            rw [ho] at ho1
            cases ho1
            rw [htype] at hty
            cases hty
          · exact Or.inl h
      | OBJ_PAIR =>
        obtain ⟨hh, ht⟩ := hclosed o homem htype
        have hlt := unvisited_cons_lt hr hS
        obtain ⟨T1, hm1, hsub1, hh1, hc1⟩ := ih (r :: S) o.head hh (by omega)
        have hle := @unvisited_le objs _ _ hsub1
        obtain ⟨T2, hm2, hsub2, ht2, hc2⟩ := ih T1 o.tail ht (by omega)
        obtain ⟨hch, hct⟩ := child_of_deref ho htype
        refine ⟨T2, ?_, ?_, ?_, ?_⟩
        · simp [mark, deref_withMarks, ho, hoaddr, hS, htype, setMarked_withMarks, hm1, hm2]
        · exact fun a ha => hsub2 (hsub1 (List.mem_cons_of_mem _ ha))
        · exact hsub2 (hsub1 (List.mem_cons_self _ _))
        · intro a ha
          rcases hc2 a ha with h2 | ⟨hreach, hkids⟩
          · rcases hc1 a h2 with h1 | ⟨hreach, hkids⟩
            · rcases List.mem_cons.mp h1 with h0 | h0
              · right
                subst h0
                refine ⟨Reach.refl _, ?_⟩
                rintro b ⟨o1, ho1, _, hb⟩
                rw [ho] at ho1
                cases ho1
                rcases hb with hb | hb
                · exact hb ▸ hsub2 hh1
                · exact hb ▸ ht2
              · exact Or.inl h0
            · exact Or.inr ⟨Reach.step hch hreach, fun b hb => hsub2 (hkids b hb)⟩
          · exact Or.inr ⟨Reach.step hct hreach, hkids⟩

/-- The loop of `markAll` over a list of live roots. -/
theorem markSlots_withMarks (objs : List Object) (hclosed : Closed objs) (fuel : Nat) :
    ∀ (rs : List Ref) (S : List Ref), (∀ r ∈ rs, r ∈ addrs objs) → unvisited objs S < fuel →
      ∃ T, markSlots fuel rs (withMarks objs S) = some (withMarks objs T) ∧ S ⊆ T ∧
        (∀ r ∈ rs, r ∈ T) ∧
        (∀ a ∈ T, a ∈ S ∨ ((∃ r ∈ rs, Reach objs r a) ∧ ∀ b, Child objs a b → b ∈ T)) := by
  intro rs
  induction rs with
  | nil =>
    intro S _ _
    exact ⟨S, rfl, fun a ha => ha, fun r hr => absurd hr (List.not_mem_nil r),
      fun a ha => Or.inl ha⟩
  | cons r rest ih =>
    intro S hlive hfuel
    obtain ⟨T1, hm1, hsub1, hr1, hc1⟩ :=
      mark_withMarks objs hclosed fuel S r (hlive r (List.mem_cons_self _ _)) hfuel
    have hle := @unvisited_le objs _ _ hsub1
    obtain ⟨T2, hm2, hsub2, hr2, hc2⟩ :=
      ih T1 (fun x hx => hlive x (List.mem_cons_of_mem _ hx)) (by omega)
    refine ⟨T2, ?_, fun a ha => hsub2 (hsub1 ha), ?_, ?_⟩
    · simp [markSlots, hm1, hm2]
    · intro x hx
      rcases List.mem_cons.mp hx with h | h
      · exact h ▸ hsub2 hr1
      · exact hr2 x h
    · intro a ha
      rcases hc2 a ha with h2 | ⟨⟨x, hx, hreach⟩, hkids⟩
      · rcases hc1 a h2 with h1 | ⟨hreach, hkids⟩
        · exact Or.inl h1
        · exact Or.inr ⟨⟨r, List.mem_cons_self _ _, hreach⟩, fun b hb => hsub2 (hkids b hb)⟩
      · exact Or.inr ⟨⟨x, List.mem_cons_of_mem _ hx, hreach⟩, hkids⟩

theorem sweep_withMarks (objs : List Object) (T : List Ref) :
    ∀ n : Int, sweep (withMarks objs T) n =
      ((objs.filter (fun o => decide (o.addr ∈ T))).map (fun o => { o with is_marked := false }),
        n - unvisited objs T) := by
  induction objs with
  | nil => intro n; simp [withMarks, sweep, unvisited]
  | cons p rest ih =>
    intro n
    have hcons : withMarks (p :: rest) T =
        { p with is_marked := decide (p.addr ∈ T) } :: withMarks rest T := rfl
    rw [hcons, unvisited_cons, List.filter_cons]
    by_cases hp : p.addr ∈ T
    · simp only [sweep, hp, decide_True, Bool.not_true, Bool.false_eq_true, if_false, if_true,
        ih, List.map_cons]
      simp
    · simp only [sweep, hp, decide_False, Bool.not_false, if_true, ih, if_false,
        Bool.false_eq_true]
      congr 1
      push_cast
      ring

theorem map_clear_of_clear {objs : List Object} (h : AllClear objs) :
    objs.map (fun o => { o with is_marked := false }) = objs := by
  have := withMarks_nil_of_clear h
  simpa [withMarks] using this

theorem allClear_filter {objs : List Object} (h : AllClear objs) (f : Object → Bool) :
    AllClear (objs.filter f) :=
  fun o ho => h o (List.mem_of_mem_filter ho)

/-- What a collection computes on a state with clear mark bits and no dangling
reference: a set `T` of addresses, exactly those reachable from the stack; the
chain keeps the objects whose address is in `T`. -/
theorem gc_spec (vm : VM) (hclear : AllClear vm.first) (hclosed : Closed vm.first)
    (hroots : RootsLive vm) :
    ∃ T : List Ref, (∀ a, a ∈ T ↔ FromStack vm a) ∧
      gc vm = some { vm with
        first := vm.first.filter (fun o => decide (o.addr ∈ T)),
        num_objects := vm.num_objects - unvisited vm.first T,
        max_objects := (vm.num_objects - unvisited vm.first T) * 2 } := by
  have hfuel : unvisited vm.first [] < callDepth vm.first := by
    have := unvisited_le_length vm.first []
    unfold callDepth
    omega
  obtain ⟨T, hm, _, hr, hc⟩ := markSlots_withMarks vm.first hclosed (callDepth vm.first)
    vm.stack.reverse [] (fun r hr => hroots r (List.mem_reverse.mp hr)) hfuel
  rw [withMarks_nil_of_clear hclear] at hm
  refine ⟨T, ?_, ?_⟩
  · intro a
    constructor
    · intro ha
      rcases hc a ha with h | ⟨⟨r, hr1, hreach⟩, _⟩
      · exact absurd h (List.not_mem_nil a)
      · exact ⟨r, List.mem_reverse.mp hr1, hreach⟩
    · rintro ⟨r, hr1, hreach⟩
      have hrT : r ∈ T := hr r (List.mem_reverse.mpr hr1)
      clear hr1
      induction hreach with
      | refl => exact hrT
      | step hch _ ih =>
        rcases hc _ hrT with h | ⟨_, hkids⟩
        · exact absurd h (List.not_mem_nil _)
        · exact ih (hkids _ hch)
  · unfold gc markAll
    rw [hm]
    simp only [sweep_withMarks]
    rw [map_clear_of_clear (allClear_filter hclear _)]

/-! ## The object count -/

theorem mark_length : ∀ (fuel : Nat) (objs : List Object) (r : Ref) (objs1 : List Object),
    mark fuel objs r = some objs1 → objs1.length = objs.length := by
  intro fuel
  induction fuel with
  | zero => intro objs r objs1 h; simp [mark] at h
  | succ n ih =>
    intro objs r objs1 h
    unfold mark at h
    split at h
    · cases h
    · split at h
      · cases h; rfl
      · split at h
        · cases h; simp [setMarked]
        · split at h
          · cases h
          · rename_i objs2 h2
            rw [ih _ _ _ h, ih _ _ _ h2]
            simp [setMarked]

theorem markSlots_length (fuel : Nat) : ∀ (rs : List Ref) (objs objs1 : List Object),
    markSlots fuel rs objs = some objs1 → objs1.length = objs.length := by
  intro rs
  induction rs with
  | nil => intro objs objs1 h; simp [markSlots] at h; rw [h]
  | cons r rest ih =>
    intro objs objs1 h
    unfold markSlots at h
    split at h
    · cases h
    · rename_i objs2 h2
      rw [ih _ _ h, mark_length _ _ _ _ h2]

theorem sweep_count : ∀ (objs : List Object) (n : Int),
    (sweep objs n).2 - ((sweep objs n).1.length : Int) = n - (objs.length : Int) := by
  intro objs
  induction objs with
  | nil => intro n; simp [sweep]
  | cons p rest ih =>
    intro n
    unfold sweep
    by_cases hp : p.is_marked = true
    · simp only [hp, Bool.not_true, Bool.false_eq_true, if_false, List.length_cons]
      have := ih n
      push_cast
      omega
    · simp only [hp, Bool.not_false, if_true, List.length_cons]
      have := ih (n - 1)
      push_cast
      omega

theorem gc_count {vm vm1 : VM} (h : gc vm = some vm1)
    (hc : vm.num_objects = (vm.first.length : Int)) :
    vm1.num_objects = (vm1.first.length : Int) := by
  unfold gc at h
  split at h
  · cases h
  · rename_i marked hm
    cases h
    have h1 := markSlots_length _ _ _ _ hm
    have h2 := sweep_count marked vm.num_objects
    simp only
    omega

theorem store_length (objs : List Object) (r : Ref) (f : Object → Object) :
    (store objs r f).length = objs.length := by
  simp [store]

theorem newObject_count {malloc : List Ref → Ref} {vm vm1 : VM} {ty : ObjType} {a : Ref}
    (h : newObject malloc vm ty = some (vm1, a))
    (hc : vm.num_objects = (vm.first.length : Int)) :
    vm1.num_objects = (vm1.first.length : Int) ∧ vm1.stack = vm.stack := by
  unfold newObject at h
  split at h
  · cases h
  · rename_i vm2 hg
    cases h
    have h2 : vm2.num_objects = (vm2.first.length : Int) ∧ vm2.stack = vm.stack := by
      split at hg
      · refine ⟨gc_count hg hc, ?_⟩
        unfold gc at hg
        split at hg
        · cases hg
        · cases hg; rfl
      · cases hg; exact ⟨hc, rfl⟩
    refine ⟨?_, h2.2⟩
    simp only [List.length_cons]
    push_cast
    omega

theorem push_first {vm vm1 : VM} {v : Ref} (h : push vm v = .ok vm1) :
    vm1.first = vm.first ∧ vm1.num_objects = vm.num_objects ∧
      vm1.max_objects = vm.max_objects ∧ vm1.has_halted = vm.has_halted ∧
      vm1.stack = v :: vm.stack ∧ vm.stack.length < STACK_MAX := by
  unfold push at h
  split at h
  · cases h; simp_all
  · cases h

theorem pop_first {vm vm1 : VM} {v : Ref} (h : pop vm = .ok (vm1, v)) :
    vm1.first = vm.first ∧ vm1.num_objects = vm.num_objects ∧
      vm1.max_objects = vm.max_objects ∧ vm1.has_halted = vm.has_halted ∧
      vm.stack = v :: vm1.stack := by
  unfold pop at h
  split at h
  · cases h
  · rename_i top below hs
    cases h; simp_all

/-! ## The invariant is kept by every operation -/

theorem mem_addrs_iff {objs : List Object} {a : Ref} :
    a ∈ addrs objs ↔ ∃ o ∈ objs, o.addr = a := by
  simp [addrs]

theorem ordered_closed : ∀ {objs : List Object}, Ordered objs → Closed objs := by
  intro objs
  induction objs with
  | nil => intro _ o ho; cases ho
  | cons p rest ih =>
    intro h o ho hty
    rcases List.mem_cons.mp ho with h1 | h1
    · subst h1
      obtain ⟨hh, ht⟩ := h.1 hty
      exact ⟨mem_addrs_cons.mpr (Or.inr hh), mem_addrs_cons.mpr (Or.inr ht)⟩
    · obtain ⟨hh, ht⟩ := ih h.2 o h1 hty
      exact ⟨mem_addrs_cons.mpr (Or.inr hh), mem_addrs_cons.mpr (Or.inr ht)⟩

theorem deref_of_mem_nodup : ∀ {objs : List Object}, (addrs objs).Nodup →
    ∀ {o : Object}, o ∈ objs → deref objs o.addr = some o := by
  intro objs
  induction objs with
  | nil => intro _ o ho; cases ho
  | cons p rest ih =>
    intro hnd o ho
    have hnd1 : p.addr ∉ addrs rest ∧ (addrs rest).Nodup := by
      simpa [addrs] using hnd
    rw [deref_cons]
    rcases List.mem_cons.mp ho with h1 | h1
    · subst h1; simp
    · have hne : p.addr ≠ o.addr := by
        intro he
        exact hnd1.1 (mem_addrs_iff.mpr ⟨o, h1, he.symm⟩)
      simp [hne, ih hnd1.2 h1]

theorem mem_addrs_filter {objs : List Object} {T : List Ref} {a : Ref}
    (ha : a ∈ addrs objs) (hT : a ∈ T) :
    a ∈ addrs (objs.filter (fun o => decide (o.addr ∈ T))) := by
  obtain ⟨o, ho, rfl⟩ := mem_addrs_iff.mp ha
  exact mem_addrs_iff.mpr ⟨o, List.mem_filter.mpr ⟨ho, by simpa using hT⟩, rfl⟩

theorem ordered_filter {T : List Ref} : ∀ {objs : List Object}, Ordered objs →
    (∀ o ∈ objs, o.type = .OBJ_PAIR → o.addr ∈ T → o.head ∈ T ∧ o.tail ∈ T) →
    Ordered (objs.filter (fun o => decide (o.addr ∈ T))) := by
  intro objs
  induction objs with
  | nil => intro _ _; trivial
  | cons p rest ih =>
    intro h hT
    have hrest := ih h.2 (fun o ho => hT o (List.mem_cons_of_mem _ ho))
    rw [List.filter_cons]
    by_cases hp : p.addr ∈ T
    · simp only [hp, decide_True, if_true]
      refine ⟨fun hty => ?_, hrest⟩
      obtain ⟨hh, ht⟩ := h.1 hty
      obtain ⟨hhT, htT⟩ := hT p (List.mem_cons_self _ _) hty hp
      exact ⟨mem_addrs_filter hh hhT, mem_addrs_filter ht htT⟩
    · simpa [hp] using hrest

theorem length_filter_add_unvisited (objs : List Object) (T : List Ref) :
    (objs.filter (fun o => decide (o.addr ∈ T))).length + unvisited objs T = objs.length := by
  induction objs with
  | nil => simp [unvisited]
  | cons p rest ih =>
    rw [unvisited_cons, List.filter_cons]
    by_cases hp : p.addr ∈ T
    · simp only [hp, decide_True, if_true, List.length_cons]
      omega
    · simp only [hp, decide_False, if_false, List.length_cons, Bool.false_eq_true]
      omega

theorem fromStack_child {vm : VM} {a b : Ref} (h : FromStack vm a)
    (hc : Child vm.first a b) : FromStack vm b := by
  obtain ⟨r, hr, hreach⟩ := h
  exact ⟨r, hr, reach_trans hreach (Reach.step hc (Reach.refl b))⟩

/-- A collection in a state that satisfies the invariant returns, keeps the
invariant, and touches neither the stack nor the halt flag. -/
theorem gc_inv {vm : VM} (h : Inv vm) :
    ∃ vm1, gc vm = some vm1 ∧ Inv vm1 ∧ vm1.stack = vm.stack ∧
      vm1.has_halted = vm.has_halted ∧ vm1.first.Sublist vm.first ∧
      vm1.max_objects = vm1.num_objects * 2 := by
  obtain ⟨T, hT, hgc⟩ := gc_spec vm h.clear (ordered_closed h.ordered) h.roots
  refine ⟨_, hgc, ?_, rfl, rfl, List.filter_sublist _, rfl⟩
  refine ⟨?_, allClear_filter h.clear _, ?_, ?_, ?_, h.size⟩
  · exact List.Nodup.sublist (List.Sublist.map _ (List.filter_sublist _)) h.nodup
  · intro r hr
    exact mem_addrs_filter (h.roots r hr) ((hT r).mpr ⟨r, hr, Reach.refl r⟩)
  · apply ordered_filter h.ordered
    intro o ho hty hoT
    have hd := deref_of_mem_nodup h.nodup ho
    obtain ⟨c1, c2⟩ := child_of_deref hd hty
    exact ⟨(hT _).mpr (fromStack_child ((hT _).mp hoT) c1), (hT _).mpr (fromStack_child ((hT _).mp hoT) c2)⟩
  · have := length_filter_add_unvisited vm.first T
    have hc := h.count
    simp only
    omega

theorem store_fresh {objs : List Object} {a : Ref} (f : Object → Object)
    (ha : a ∉ addrs objs) : store objs a f = objs := by
  unfold store
  conv_rhs => rw [← List.map_id objs]
  apply List.map_congr_left
  intro o ho
  have : o.addr ≠ a := fun he => ha (mem_addrs_iff.mpr ⟨o, ho, he⟩)
  simp [this]

theorem store_cons_fresh {o : Object} {objs : List Object} (f : Object → Object)
    (ha : o.addr ∉ addrs objs) : store (o :: objs) o.addr f = f o :: objs := by
  have h := store_fresh f ha
  unfold store at h ⊢
  rw [List.map_cons, h]
  simp

theorem afterTrigger_inv {vm : VM} (h : Inv vm) :
    ∃ vmg, afterTrigger vm = some vmg ∧ Inv vmg ∧ vmg.stack = vm.stack ∧
      vmg.has_halted = vm.has_halted ∧ vmg.first.Sublist vm.first := by
  unfold afterTrigger
  by_cases hc : vm.num_objects = vm.max_objects
  · obtain ⟨vm1, h1, h2, h3, h4, h5, _⟩ := gc_inv h
    exact ⟨vm1, by simp [hc, h1], h2, h3, h4, h5⟩
  · exact ⟨vm, by simp [hc], h, rfl, rfl, List.Sublist.refl _⟩

theorem newObject_eq (malloc : List Ref → Ref) (vm : VM) (ty : ObjType) :
    newObject malloc vm ty =
      (afterTrigger vm).map (fun vmg =>
        ({ vmg with
            first := { addr := malloc (vmg.first.map Object.addr), type := ty,
                       is_marked := false, value := 0, head := 0, tail := 0 } :: vmg.first,
            num_objects := vmg.num_objects + 1 }, malloc (vmg.first.map Object.addr))) := by
  unfold newObject afterTrigger
  split <;> simp_all

theorem inv_alloc {vmg : VM} (h : Inv vmg) {a : Ref} (ha : a ∉ addrs vmg.first)
    (ty : ObjType) (v : Int) (hd tl : Ref)
    (hkids : ty = .OBJ_PAIR → hd ∈ addrs vmg.first ∧ tl ∈ addrs vmg.first)
    (stk : List Ref) (hstk : ∀ r ∈ stk, r = a ∨ r ∈ vmg.stack)
    (hsize : stk.length ≤ STACK_MAX) (mx : Int) (hh : Bool) :
    Inv { stack := stk,
          first := { addr := a, type := ty, is_marked := false, value := v,
                     head := hd, tail := tl } :: vmg.first,
          num_objects := vmg.num_objects + 1, max_objects := mx, has_halted := hh } := by
  refine ⟨?_, ?_, ?_, ⟨hkids, h.ordered⟩, ?_, hsize⟩
  · simp only [addrs, List.map_cons, List.nodup_cons]
    exact ⟨ha, h.nodup⟩
  · intro o ho
    rcases List.mem_cons.mp ho with h1 | h1
    · rw [h1]
    · exact h.clear o h1
  · intro r hr
    rcases hstk r hr with h1 | h1
    · exact mem_addrs_cons.mpr (Or.inl h1.symm)
    · exact mem_addrs_cons.mpr (Or.inr (h.roots r h1))
  · have := h.count
    simp only [List.length_cons]
    push_cast
    omega

/-- The effect of `pushInt`: fatal exactly on a full stack; otherwise the new
integer object is prepended to the chain of the state in which `newObject`
allocates, and its address is pushed. -/
theorem pushInt_spec {malloc : List Ref → Ref} (hm : FreshAlloc malloc) {vm : VM}
    (h : Inv vm) (v : Int) :
    ∃ vmg, afterTrigger vm = some vmg ∧ Inv vmg ∧ vmg.stack = vm.stack ∧
      vmg.has_halted = vm.has_halted ∧ vmg.first.Sublist vm.first ∧
      malloc (addrs vmg.first) ∉ addrs vmg.first ∧
      pushInt malloc vm v =
        if vm.stack.length < STACK_MAX then
          .ok { stack := malloc (addrs vmg.first) :: vm.stack,
                first := { addr := malloc (addrs vmg.first), type := .OBJ_INT,
                           is_marked := false, value := v, head := 0, tail := 0 } :: vmg.first,
                num_objects := vmg.num_objects + 1, max_objects := vmg.max_objects,
                has_halted := vm.has_halted }
        else .error .fatal := by
  obtain ⟨vmg, h1, h2, h3, h4, h5⟩ := afterTrigger_inv h
  have hfresh : malloc (addrs vmg.first) ∉ addrs vmg.first := hm _
  refine ⟨vmg, h1, h2, h3, h4, h5, hfresh, ?_⟩
  unfold pushInt
  rw [newObject_eq, h1]
  simp only [Option.map_some']
  have hs := @store_cons_fresh (Object.mk (malloc (addrs vmg.first)) .OBJ_INT false 0 0 0)
    vmg.first (fun o => { o with value := v }) hfresh
  simp only [addrs] at hs hfresh ⊢
  rw [hs]
  simp only [push, h3, h4]

theorem pushInt_inv {malloc : List Ref → Ref} (hm : FreshAlloc malloc) {vm vm1 : VM}
    (h : Inv vm) {v : Int} (hok : pushInt malloc vm v = .ok vm1) : Inv vm1 := by
  obtain ⟨vmg, _, h2, h3, _, _, hfresh, heq⟩ := pushInt_spec hm h v
  rw [heq] at hok
  split at hok
  · rename_i hlt
    cases hok
    apply inv_alloc h2 hfresh
    · intro hty; cases hty
    · intro r hr
      rcases List.mem_cons.mp hr with h1 | h1
      · exact Or.inl h1
      · exact Or.inr (h3 ▸ h1)
    · simp only [List.length_cons]; omega
  · cases hok

theorem store_cons_eq {o : Object} {objs : List Object} {a : Ref} (f : Object → Object)
    (hoa : o.addr = a) (ha : a ∉ addrs objs) : store (o :: objs) a f = f o :: objs := by
  subst hoa
  exact store_cons_fresh f ha

/-- The effect of `pushPair`: fatal exactly when the stack holds fewer than two
references; otherwise the new pair is prepended to the chain of the state in
which `newObject` allocates, its tail is the former top, its head the slot
below, and its address replaces the two. -/
theorem pushPair_spec {malloc : List Ref → Ref} (hm : FreshAlloc malloc) {vm : VM}
    (h : Inv vm) :
    ∃ vmg, afterTrigger vm = some vmg ∧ Inv vmg ∧ vmg.stack = vm.stack ∧
      vmg.has_halted = vm.has_halted ∧ vmg.first.Sublist vm.first ∧
      malloc (addrs vmg.first) ∉ addrs vmg.first ∧
      pushPair malloc vm =
        match vm.stack with
        | b :: a :: rest =>
          .ok ({ stack := malloc (addrs vmg.first) :: rest,
                 first := { addr := malloc (addrs vmg.first), type := .OBJ_PAIR,
                            is_marked := false, value := 0, head := a, tail := b } :: vmg.first,
                 num_objects := vmg.num_objects + 1, max_objects := vmg.max_objects,
                 has_halted := vm.has_halted }, malloc (addrs vmg.first))
        | _ => .error .fatal := by
  obtain ⟨vmg, h1, h2, h3, h4, h5⟩ := afterTrigger_inv h
  have hfresh : malloc (addrs vmg.first) ∉ addrs vmg.first := hm _
  refine ⟨vmg, h1, h2, h3, h4, h5, hfresh, ?_⟩
  have hsize := h.size
  unfold pushPair
  rw [newObject_eq, h1]
  simp only [Option.map_some', pop, h3, h4]
  cases hs : vm.stack with
  | nil => rfl
  | cons b tl =>
    cases tl with
    | nil => rfl
    | cons a rest =>
      have hlen : rest.length < STACK_MAX := by
        rw [hs] at hsize
        simp only [List.length_cons] at hsize
        omega
      have hfresh1 : malloc (List.map Object.addr vmg.first) ∉ addrs vmg.first := hfresh
      simp only [push, hlen, if_true, addrs]
      rw [store_cons_eq _ rfl hfresh1, store_cons_eq _ rfl hfresh1]

theorem pushPair_inv {malloc : List Ref → Ref} (hm : FreshAlloc malloc) {vm vm1 : VM}
    {p : Ref} (h : Inv vm) (hok : pushPair malloc vm = .ok (vm1, p)) : Inv vm1 := by
  obtain ⟨vmg, _, h2, h3, _, _, hfresh, heq⟩ := pushPair_spec hm h
  rw [heq] at hok
  have hsize := h.size
  split at hok
  · rename_i b a rest hs
    cases hok
    have hroots : ∀ r ∈ vm.stack, r ∈ addrs vmg.first := fun r hr => h2.roots r (h3 ▸ hr)
    apply inv_alloc h2 hfresh
    · intro _
      exact ⟨hroots a (by simp [hs]), hroots b (by simp [hs])⟩
    · intro r hr
      rcases List.mem_cons.mp hr with h1 | h1
      · exact Or.inl h1
      · exact Or.inr (by rw [h3, hs]; simp [h1])
    · rw [hs] at hsize
      simp only [List.length_cons] at hsize ⊢
      omega
  · cases hok

theorem swap_eq (vm : VM) (hsize : vm.stack.length ≤ STACK_MAX) :
    swap vm =
      match vm.stack with
      | b :: a :: rest => .ok { vm with stack := a :: b :: rest }
      | _ => .error .fatal := by
  unfold swap pop
  cases hs : vm.stack with
  | nil => rfl
  | cons b tl =>
    cases tl with
    | nil => rfl
    | cons a rest =>
      have hlen : rest.length < STACK_MAX ∧ rest.length + 1 < STACK_MAX := by
        rw [hs] at hsize
        simp only [List.length_cons] at hsize
        omega
      simp [push, hlen.1, hlen.2]

/-! ## Printing -/

theorem leaves_unique {objs : List Object} {r : Ref} {l1 l2 : List Int}
    (h1 : Leaves objs r l1) (h2 : Leaves objs r l2) : l1 = l2 := by
  induction h1 generalizing l2 with
  | int hd hty =>
    cases h2 with
    | int hd2 _ => rw [hd] at hd2; cases hd2; rfl
    | pair hd2 hty2 _ _ => rw [hd] at hd2; cases hd2; rw [hty] at hty2; cases hty2
  | pair hd hty _ _ ih1 ih2 =>
    cases h2 with
    | int hd2 hty2 => rw [hd] at hd2; cases hd2; rw [hty] at hty2; cases hty2
    | pair hd2 _ ha hb =>
      rw [hd] at hd2
      cases hd2
      rw [ih1 ha, ih2 hb]

/-- On a chain in allocation order `objPrint` returns within a call depth of
the number of objects from the printed one to the end of the chain, and
writes the leaves from left to right, one byte each. -/
theorem objPrint_ordered (objs : List Object) (hnd : (addrs objs).Nodup) :
    ∀ (suf pre : List Object), objs = pre ++ suf → Ordered suf → ∀ r ∈ addrs suf,
      ∀ fuel, suf.length ≤ fuel →
        ∃ ls, Leaves objs r ls ∧ objPrint fuel objs r = some (ls.map putchar) := by
  intro suf
  induction suf with
  | nil => intro pre _ _ r hr; simp [addrs] at hr
  | cons o rest ih =>
    intro pre hobjs hord r hr fuel hfuel
    have hobjs1 : objs = (pre ++ [o]) ++ rest := by simp [hobjs]
    by_cases hrest : r ∈ addrs rest
    · exact ih (pre ++ [o]) hobjs1 hord.2 r hrest fuel
        (by simp only [List.length_cons] at hfuel; omega)
    · have hro : o.addr = r := by
        rcases mem_addrs_cons.mp hr with h | h
        · exact h
        · exact absurd h hrest
      have hmem : o ∈ objs := by rw [hobjs]; simp
      have hd : deref objs r = some o := hro ▸ deref_of_mem_nodup hnd hmem
      cases fuel with
      | zero => simp at hfuel
      | succ n =>
        have hn : rest.length ≤ n := by simp only [List.length_cons] at hfuel; omega
        cases hty : o.type with
        | OBJ_INT =>
          exact ⟨[o.value], Leaves.int hd hty, by simp [objPrint, hd, hty]⟩
        | OBJ_PAIR =>
          obtain ⟨hh, ht⟩ := hord.1 hty
          obtain ⟨l1, hl1, hp1⟩ := ih (pre ++ [o]) hobjs1 hord.2 o.head hh n hn
          obtain ⟨l2, hl2, hp2⟩ := ih (pre ++ [o]) hobjs1 hord.2 o.tail ht n hn
          exact ⟨l1 ++ l2, Leaves.pair hd hty hl1 hl2, by simp [objPrint, hd, hty, hp1, hp2]⟩

theorem objPrint_inv {vm : VM} (h : Inv vm) {r : Ref} (hr : r ∈ addrs vm.first) :
    ∃ ls, Leaves vm.first r ls ∧
      objPrint (callDepth vm.first) vm.first r = some (ls.map putchar) :=
  objPrint_ordered vm.first h.nodup vm.first [] rfl h.ordered r hr _
    (by unfold callDepth; omega)

/-! ## One instruction -/

theorem inv_of_stack {vm : VM} (h : Inv vm) (stk : List Ref)
    (hsub : ∀ r ∈ stk, r ∈ vm.stack) (hsize : stk.length ≤ STACK_MAX) (hh : Bool) :
    Inv { vm with stack := stk, has_halted := hh } :=
  ⟨h.nodup, h.clear, fun r hr => h.roots r (hsub r hr), h.ordered, h.count, hsize⟩

/-- Every instruction, interpreted in a state that satisfies the invariant,
either meets its fault condition and is fatal, or does not meet it and returns
a state that satisfies the invariant. -/
theorem interpret_cases {malloc : List Ref → Ref} (hm : FreshAlloc malloc) {m : Machine}
    (h : Inv m.vm) (i : Instruction) :
    (FaultCondition m.vm i ∧ interpret malloc m i = .error .fatal) ∨
    (¬ FaultCondition m.vm i ∧ ∃ m1, interpret malloc m i = .ok m1 ∧ Inv m1.vm) := by
  have hsize := h.size
  cases i with
  | I_DIE msg => exact Or.inl ⟨trivial, rfl⟩
  | I_HALT =>
    refine Or.inr ⟨fun hf => hf, _, rfl, ?_⟩
    exact inv_of_stack h m.vm.stack (fun r hr => hr) hsize true
  | I_POP =>
    cases hs : m.vm.stack with
    | nil =>
      refine Or.inl ⟨by simp [FaultCondition, VM.stack_size, hs], ?_⟩
      simp [interpret, pop, hs]
    | cons top rest =>
      refine Or.inr ⟨by simp [FaultCondition, VM.stack_size, hs], ?_⟩
      refine ⟨{ m with vm := { m.vm with stack := rest } }, by simp [interpret, pop, hs], ?_⟩
      have := inv_of_stack h rest (fun r hr => by rw [hs]; exact List.mem_cons_of_mem _ hr)
        (by rw [hs] at hsize; simp only [List.length_cons] at hsize; omega) m.vm.has_halted
      exact this
  | I_PRINT =>
    cases hs : m.vm.stack with
    | nil =>
      refine Or.inl ⟨by simp [FaultCondition, VM.stack_size, hs], ?_⟩
      simp [interpret, pop, hs]
    | cons top rest =>
      refine Or.inr ⟨by simp [FaultCondition, VM.stack_size, hs], ?_⟩
      have htop : top ∈ addrs m.vm.first := h.roots top (by simp [hs])
      obtain ⟨ls, _, hp⟩ := objPrint_inv h htop
      have hlen : rest.length < STACK_MAX := by
        rw [hs] at hsize; simp only [List.length_cons] at hsize; omega
      refine ⟨{ m with vm := { m.vm with stack := top :: rest },
                       stdout := m.stdout ++ ls.map putchar }, ?_, ?_⟩
      · simp [interpret, pop, hs, hp, push, hlen]
      · exact inv_of_stack h (top :: rest) (fun r hr => by rw [hs]; exact hr)
          (by rw [hs] at hsize; exact hsize) m.vm.has_halted
  | I_READ_I32 =>
    obtain ⟨vmg, _, _, _, _, _, _, heq⟩ := pushInt_spec hm h (getchar m.stdin).1
    by_cases hlt : m.vm.stack.length < STACK_MAX
    · refine Or.inr ⟨by simp [FaultCondition, VM.stack_size]; unfold STACK_MAX at hlt; omega, ?_⟩
      rw [if_pos hlt] at heq
      obtain ⟨vm1, hvm1⟩ : ∃ vm1, pushInt malloc m.vm (getchar m.stdin).1 = .ok vm1 := ⟨_, heq⟩
      exact ⟨{ m with vm := vm1, stdin := (getchar m.stdin).2 },
        by simp only [interpret, hvm1], pushInt_inv hm h hvm1⟩
    · refine Or.inl ⟨by simp [FaultCondition, VM.stack_size]; unfold STACK_MAX at hlt hsize; omega, ?_⟩
      rw [if_neg hlt] at heq
      simp only [interpret, heq]
  | I_PSH_I32 v =>
    obtain ⟨vmg, _, _, _, _, _, _, heq⟩ := pushInt_spec hm h v
    by_cases hlt : m.vm.stack.length < STACK_MAX
    · refine Or.inr ⟨by simp [FaultCondition, VM.stack_size]; unfold STACK_MAX at hlt; omega, ?_⟩
      rw [if_pos hlt] at heq
      obtain ⟨vm1, hvm1⟩ : ∃ vm1, pushInt malloc m.vm v = .ok vm1 := ⟨_, heq⟩
      exact ⟨{ m with vm := vm1 }, by simp only [interpret, hvm1], pushInt_inv hm h hvm1⟩
    · refine Or.inl ⟨by simp [FaultCondition, VM.stack_size]; unfold STACK_MAX at hlt hsize; omega, ?_⟩
      rw [if_neg hlt] at heq
      simp only [interpret, heq]
  | I_PAIR =>
    obtain ⟨vmg, _, _, _, _, _, _, heq⟩ := pushPair_spec hm h
    cases hs : m.vm.stack with
    | nil =>
      rw [hs] at heq
      exact Or.inl ⟨by simp [FaultCondition, VM.stack_size, hs], by simp only [interpret, heq]⟩
    | cons b tl =>
      cases tl with
      | nil =>
        rw [hs] at heq
        exact Or.inl ⟨by simp [FaultCondition, VM.stack_size, hs], by simp only [interpret, heq]⟩
      | cons a rest =>
        rw [hs] at heq
        obtain ⟨vm1, p, hvm1⟩ : ∃ vm1 p, pushPair malloc m.vm = .ok (vm1, p) := ⟨_, _, heq⟩
        exact Or.inr ⟨by simp [FaultCondition, VM.stack_size, hs],
          { m with vm := vm1 }, by simp only [interpret, hvm1], pushPair_inv hm h hvm1⟩
  | I_SWP =>
    have heq := swap_eq m.vm hsize
    cases hs : m.vm.stack with
    | nil =>
      rw [hs] at heq
      exact Or.inl ⟨by simp [FaultCondition, VM.stack_size, hs], by simp only [interpret, heq]⟩
    | cons b tl =>
      cases tl with
      | nil =>
        rw [hs] at heq
        exact Or.inl ⟨by simp [FaultCondition, VM.stack_size, hs], by simp only [interpret, heq]⟩
      | cons a rest =>
        rw [hs] at heq
        refine Or.inr ⟨by simp [FaultCondition, VM.stack_size, hs],
          { m with vm := { m.vm with stack := a :: b :: rest } },
          by simp only [interpret, heq], ?_⟩
        exact inv_of_stack h (a :: b :: rest)
          (fun r hr => by
            rw [hs]
            simp only [List.mem_cons] at hr ⊢
            tauto)
          (by rw [hs] at hsize; exact hsize) m.vm.has_halted
  | I_GC =>
    obtain ⟨vm1, h1, h2, _⟩ := gc_inv h
    exact Or.inr ⟨fun hf => hf, { m with vm := vm1 }, by simp only [interpret, h1], h2⟩
  | I_ASSERT n msg =>
    by_cases hn : m.vm.num_objects = n
    · exact Or.inr ⟨by simp [FaultCondition, hn], m, by simp [interpret, hn], h⟩
    · exact Or.inl ⟨by simp [FaultCondition, hn], by simp [interpret, hn]⟩

theorem newVM_inv : Inv newVM :=
  ⟨List.nodup_nil, fun _ ho => absurd ho (List.not_mem_nil _),
    fun _ hr => absurd hr (List.not_mem_nil _), trivial, rfl, Nat.zero_le _⟩

theorem reachable_inv {malloc : List Ref → Ref} (hm : FreshAlloc malloc) {m : Machine}
    (h : Reachable malloc m) : Inv m.vm := by
  induction h with
  | init input => exact newVM_inv
  | step i _ hstep ih =>
    rcases interpret_cases hm ih i with ⟨_, hf⟩ | ⟨_, m2, hok, hinv⟩
    · rw [hf] at hstep; cases hstep
    · rw [hok] at hstep; cases hstep; exact hinv

theorem bumpAlloc_fresh : FreshAlloc bumpAlloc := by
  intro live hmem
  have hle : ∀ (l : List Ref) (a : Ref), a ∈ l → a ≤ l.foldr max 0 := by
    intro l
    induction l with
    | nil => intro a ha; cases ha
    | cons x xs ih =>
      intro a ha
      simp only [List.foldr_cons]
      rcases List.mem_cons.mp ha with h | h
      · subst h; exact le_max_left _ _
      · exact le_trans (ih a h) (le_max_right _ _)
  have := hle live (bumpAlloc live) hmem
  simp [bumpAlloc] at this

theorem reachable_of_interpretAll {malloc : List Ref → Ref} :
    ∀ (prog : List Instruction) {m m1 : Machine}, Reachable malloc m →
      interpretAll malloc m prog = .ok m1 → Reachable malloc m1 := by
  intro prog
  induction prog with
  | nil => intro m m1 h hrun; simp only [interpretAll] at hrun; cases hrun; exact h
  | cons i rest ih =>
    intro m m1 h hrun
    unfold interpretAll at hrun
    split at hrun
    · cases hrun
    · rename_i m2 hstep
      exact ih (Reachable.step i h hstep) hrun

theorem twoIntsMachine_reachable : Reachable bumpAlloc twoIntsMachine :=
  reachable_of_interpretAll [.I_PSH_I32 72, .I_PSH_I32 105] (Reachable.init []) (by decide)

theorem onePairMachine_reachable : Reachable bumpAlloc onePairMachine :=
  reachable_of_interpretAll [.I_PSH_I32 72, .I_PSH_I32 105, .I_PAIR] (Reachable.init [])
    (by decide)

/-! ## C1: the collector keeps exactly the reachable objects -/

/-- C1. On every state with clear mark bits and no dangling reference (the pair
graph is otherwise arbitrary, cycles included), `gc` returns; the all-objects
chain it leaves is the former chain filtered by "reachable from a stack slot
through head/tail links", so it holds exactly the reachable objects in their
former order (a sublist with that membership); every mark bit is clear again;
the stack is untouched and `num_objects` went down by the number of objects
removed. -/
theorem gc_keeps_exactly_reachable (vm : VM) (hclear : AllClear vm.first)
    (hclosed : Closed vm.first) (hroots : RootsLive vm) :
    ∃ vm1, gc vm = some vm1 ∧
      (∃ keep : Ref → Bool, (∀ a, keep a = true ↔ FromStack vm a) ∧
        vm1.first = vm.first.filter (fun o => keep o.addr)) ∧
      vm1.first.Sublist vm.first ∧
      (∀ o, o ∈ vm1.first ↔ o ∈ vm.first ∧ FromStack vm o.addr) ∧
      AllClear vm1.first ∧ vm1.stack = vm.stack ∧
      vm1.num_objects = vm.num_objects - ((vm.first.length : Int) - (vm1.first.length : Int)) := by
  obtain ⟨T, hT, hgc⟩ := gc_spec vm hclear hclosed hroots
  refine ⟨_, hgc, ⟨fun a => decide (a ∈ T), fun a => by simp [hT a], rfl⟩,
    List.filter_sublist _, ?_, allClear_filter hclear _, rfl, ?_⟩
  · intro o
    simp only [List.mem_filter, decide_eq_true_eq, hT]
  · have := length_filter_add_unvisited vm.first T
    simp only
    omega

/-- C1, witness: the state of `test4` (a cycle through the tails of two pairs
that are both on the stack) satisfies the hypotheses, and the collection keeps
4 of its 6 objects; the state of `test3` keeps all 7. -/
theorem gc_keeps_exactly_reachable_witness :
    (∃ vm1, gc test4VM = some vm1 ∧
      (∃ keep : Ref → Bool, (∀ a, keep a = true ↔ FromStack test4VM a) ∧
        vm1.first = test4VM.first.filter (fun o => keep o.addr)) ∧
      vm1.first.Sublist test4VM.first ∧
      (∀ o, o ∈ vm1.first ↔ o ∈ test4VM.first ∧ FromStack test4VM o.addr) ∧
      AllClear vm1.first ∧ vm1.stack = test4VM.stack ∧
      vm1.num_objects =
        test4VM.num_objects - ((test4VM.first.length : Int) - (vm1.first.length : Int))) ∧
    (gc test4VM).map VM.num_objects = some 4 ∧
    (gc test3VM).map VM.num_objects = some 7 :=
  ⟨gc_keeps_exactly_reachable test4VM (by decide) (by decide) (by decide),
    by decide, by decide⟩

/-- The states of `test3` and `test4` are the ones the tests build: the pushes
of the test, then for `test4` the two assignments `a->tail = b; b->tail = a`. -/
theorem test_states_built :
    (interpretAll bumpAlloc startMachine
      [.I_PSH_I32 1, .I_PSH_I32 2, .I_PAIR, .I_PSH_I32 3, .I_PSH_I32 4, .I_PAIR, .I_PAIR]).map
        Machine.vm = .ok test3VM ∧
    (interpretAll bumpAlloc startMachine
      [.I_PSH_I32 1, .I_PSH_I32 2, .I_PAIR, .I_PSH_I32 3, .I_PSH_I32 4, .I_PAIR]).map
        (fun m => { m.vm with
          first := store (store m.vm.first 3 (fun o => { o with tail := 6 })) 6
            (fun o => { o with tail := 3 }) }) = .ok test4VM := by
  decide

/-! ## C4: `num_objects` is the length of the all-objects chain -/

theorem pushInt_count {malloc : List Ref → Ref} {vm vm1 : VM} {v : Int}
    (h : pushInt malloc vm v = .ok vm1) (hc : vm.num_objects = (vm.first.length : Int)) :
    vm1.num_objects = (vm1.first.length : Int) := by
  unfold pushInt at h
  split at h
  · cases h
  · rename_i vm2 a hnew
    obtain ⟨h1, _⟩ := newObject_count hnew hc
    obtain ⟨h2, h3, _⟩ := push_first h
    rw [h2, h3]
    simpa [store_length] using h1

theorem pushPair_count {malloc : List Ref → Ref} {vm vm1 : VM} {p : Ref}
    (h : pushPair malloc vm = .ok (vm1, p)) (hc : vm.num_objects = (vm.first.length : Int)) :
    vm1.num_objects = (vm1.first.length : Int) := by
  unfold pushPair at h
  split at h
  · cases h
  · rename_i vm2 a hnew
    obtain ⟨h1, _⟩ := newObject_count hnew hc
    split at h
    · cases h
    · rename_i vm3 t hpop1
      obtain ⟨p1, p2, _⟩ := pop_first hpop1
      simp only at h
      split at h
      · cases h
      · rename_i vm4 hd hpop2
        obtain ⟨q1, q2, _⟩ := pop_first hpop2
        split at h
        · cases h
        · rename_i vm5 hpush
          obtain ⟨r1, r2, _⟩ := push_first hpush
          cases h
          rw [r1, r2]
          simp only [store_length] at q1 q2 ⊢
          rw [q1, q2, p1, p2]
          simpa [store_length] using h1

theorem interpret_count {malloc : List Ref → Ref} {m m1 : Machine} {i : Instruction}
    (h : interpret malloc m i = .ok m1) (hc : m.vm.num_objects = (m.vm.first.length : Int)) :
    m1.vm.num_objects = (m1.vm.first.length : Int) := by
  cases i with
  | I_DIE msg => simp [interpret] at h
  | I_HALT => simp only [interpret] at h; cases h; exact hc
  | I_POP =>
    simp only [interpret] at h
    split at h
    · cases h
    · rename_i vm1 _ hpop
      obtain ⟨p1, p2, _⟩ := pop_first hpop
      cases h
      simp only [p1, p2, hc]
  | I_PRINT =>
    simp only [interpret] at h
    split at h
    · cases h
    · rename_i vm1 o hpop
      obtain ⟨p1, p2, _⟩ := pop_first hpop
      split at h
      · cases h
      · split at h
        · cases h
        · rename_i vm2 hpush
          obtain ⟨r1, r2, _⟩ := push_first hpush
          cases h
          simp only [r1, r2, p1, p2, hc]
  | I_READ_I32 =>
    simp only [interpret] at h
    split at h
    · cases h
    · rename_i vm1 hp
      cases h
      exact pushInt_count hp hc
  | I_PSH_I32 v =>
    simp only [interpret] at h
    split at h
    · cases h
    · rename_i vm1 hp
      cases h
      exact pushInt_count hp hc
  | I_PAIR =>
    simp only [interpret] at h
    split at h
    · cases h
    · rename_i vm1 p hp
      cases h
      exact pushPair_count hp hc
  | I_SWP =>
    simp only [interpret] at h
    split at h
    · cases h
    · rename_i vm1 hsw
      cases h
      unfold swap at hsw
      split at hsw
      · cases hsw
      · rename_i vm2 o1 hpop1
        obtain ⟨p1, p2, _⟩ := pop_first hpop1
        split at hsw
        · cases hsw
        · rename_i vm3 o2 hpop2
          obtain ⟨q1, q2, _⟩ := pop_first hpop2
          split at hsw
          · cases hsw
          · rename_i vm4 hpush1
            obtain ⟨r1, r2, _⟩ := push_first hpush1
            obtain ⟨t1, t2, _⟩ := push_first hsw
            simp only [t1, t2, r1, r2, q1, q2, p1, p2, hc]
  | I_GC =>
    simp only [interpret] at h
    split at h
    · cases h
    · rename_i vm1 hg
      cases h
      exact gc_count hg hc
  | I_ASSERT n msg =>
    simp only [interpret] at h
    split at h
    · cases h; exact hc
    · cases h

/-- C4. In every state reached from `newVM` by instructions that returned,
`num_objects` equals the length of the all-objects chain; this needs no
assumption on the allocator and covers allocations that collect first. -/
theorem num_objects_eq_length (malloc : List Ref → Ref) (m : Machine)
    (h : Reachable malloc m) : m.vm.num_objects = (m.vm.first.length : Int) := by
  induction h with
  | init input => rfl
  | step i _ hstep ih => exact interpret_count hstep ih

set_option maxRecDepth 100000 in
theorem churnMachine_run : interpretAll bumpAlloc startMachine churnProgram = .ok churnMachine := by
  decide

theorem churnMachine_reachable : Reachable bumpAlloc churnMachine :=
  reachable_of_interpretAll churnProgram (Reachable.init []) churnMachine_run

/-- C4, witness: the machine after a run whose 101st allocation collected
first is reachable, and its counter is the length of its chain. -/
theorem num_objects_eq_length_witness :
    Reachable bumpAlloc churnMachine ∧
      churnMachine.vm.num_objects = (churnMachine.vm.first.length : Int) :=
  ⟨churnMachine_reachable, num_objects_eq_length bumpAlloc churnMachine churnMachine_reachable⟩

/-! ## C7: the fatal conditions of the interpreter -/

/-- C7. From every reachable state, one instruction is fatal exactly under the
listed conditions (POP, PRINT on an empty stack; SWAP, PAIR on fewer than two
slots; PUSH_I32, READ_I32 on 256 slots; ASSERT_ALLOC with another count; DIE);
in every other case it returns a state; a passing ASSERT_ALLOC returns the
state it was given. -/
theorem interpret_fatal_iff (malloc : List Ref → Ref) (hm : FreshAlloc malloc)
    (m : Machine) (h : Reachable malloc m) (i : Instruction) :
    (interpret malloc m i = .error .fatal ↔ FaultCondition m.vm i) ∧
    (¬ FaultCondition m.vm i → ∃ m1, interpret malloc m i = .ok m1) ∧
    (∀ n msg, m.vm.num_objects = n → interpret malloc m (.I_ASSERT n msg) = .ok m) := by
  refine ⟨?_, ?_, ?_⟩
  · rcases interpret_cases hm (reachable_inv hm h) i with ⟨hf, he⟩ | ⟨hf, m1, hok, _⟩
    · exact ⟨fun _ => hf, fun _ => he⟩
    · constructor
      · intro he; rw [hok] at he; cases he
      · intro hc; exact absurd hc hf
  · intro hf
    rcases interpret_cases hm (reachable_inv hm h) i with ⟨hf1, _⟩ | ⟨_, m1, hok, _⟩
    · exact absurd hf1 hf
    · exact ⟨m1, hok⟩
  · intro n msg hn
    simp [interpret, hn]

/-- C7, witness: in the reachable state after two pushes, SWAP is not fatal
and returns, and the theorem applies with the bump allocator. -/
theorem interpret_fatal_iff_witness :
    FreshAlloc bumpAlloc ∧ Reachable bumpAlloc twoIntsMachine ∧
    ((interpret bumpAlloc twoIntsMachine .I_SWP = .error .fatal ↔
        FaultCondition twoIntsMachine.vm .I_SWP) ∧
      (¬ FaultCondition twoIntsMachine.vm .I_SWP →
        ∃ m1, interpret bumpAlloc twoIntsMachine .I_SWP = .ok m1) ∧
      (∀ n msg, twoIntsMachine.vm.num_objects = n →
        interpret bumpAlloc twoIntsMachine (.I_ASSERT n msg) = .ok twoIntsMachine)) :=
  ⟨bumpAlloc_fresh, twoIntsMachine_reachable,
    interpret_fatal_iff bumpAlloc bumpAlloc_fresh twoIntsMachine twoIntsMachine_reachable .I_SWP⟩

/-! ## C8: PAIR -/

theorem deref_sublist {l1 l2 : List Object} (hsub : l1.Sublist l2) (hnd : (addrs l2).Nodup)
    {a : Ref} (ha : a ∈ addrs l1) : deref l1 a = deref l2 a := by
  obtain ⟨o, ho, rfl⟩ := mem_addrs_iff.mp ha
  have hnd1 : (addrs l1).Nodup := List.Nodup.sublist (List.Sublist.map _ hsub) hnd
  rw [deref_of_mem_nodup hnd1 ho, deref_of_mem_nodup hnd (hsub.subset ho)]

/-- C8. From every reachable state whose stack is `[..., a, b]`, PAIR returns;
the stack becomes `[..., p]` with the slots below unchanged; `p` is the address
of a new object, the first of the chain, a pair with head `a` and tail `b` and
a clear mark bit; the rest of the chain is a sublist of the former chain (the
survivors of the collection, if one ran) that does not contain `p`; `a` and `b`
are still in the chain and are the same objects as before. -/
theorem pair_spec (malloc : List Ref → Ref) (hm : FreshAlloc malloc)
    (m : Machine) (h : Reachable malloc m) (a b : Ref) (rest : List Ref)
    (hs : m.vm.stack = b :: a :: rest) :
    ∃ m1 p survivors, interpret malloc m .I_PAIR = .ok m1 ∧
      m1.vm.stack = p :: rest ∧
      m1.vm.first = { addr := p, type := .OBJ_PAIR, is_marked := false, value := 0,
                      head := a, tail := b } :: survivors ∧
      survivors.Sublist m.vm.first ∧ p ∉ addrs survivors ∧
      a ∈ addrs m1.vm.first ∧ b ∈ addrs m1.vm.first ∧
      deref m1.vm.first a = deref m.vm.first a ∧
      deref m1.vm.first b = deref m.vm.first b ∧
      m1.vm.stack.length + 1 = m.vm.stack.length := by
  have hinv := reachable_inv hm h
  obtain ⟨vmg, _, h2, h3, _, h5, hfresh, heq⟩ := pushPair_spec hm hinv
  rw [hs] at heq
  have hroots : ∀ r ∈ m.vm.stack, r ∈ addrs vmg.first := fun r hr => h2.roots r (h3 ▸ hr)
  have ha : a ∈ addrs vmg.first := hroots a (by simp [hs])
  have hb : b ∈ addrs vmg.first := hroots b (by simp [hs])
  have hne : ∀ x ∈ addrs vmg.first, malloc (addrs vmg.first) ≠ x :=
    fun x hx he => hfresh (he ▸ hx)
  refine ⟨{ m with vm :=
      { stack := malloc (addrs vmg.first) :: rest,
        first := { addr := malloc (addrs vmg.first), type := .OBJ_PAIR, is_marked := false,
                   value := 0, head := a, tail := b } :: vmg.first,
        num_objects := vmg.num_objects + 1, max_objects := vmg.max_objects,
        has_halted := m.vm.has_halted } }, malloc (addrs vmg.first), vmg.first,
    by simp only [interpret, heq], rfl, rfl, h5, hfresh,
    mem_addrs_cons.mpr (Or.inr ha), mem_addrs_cons.mpr (Or.inr hb), ?_, ?_, ?_⟩
  · simp only [deref_cons, hne a ha, if_false]
    exact deref_sublist h5 hinv.nodup ha
  · simp only [deref_cons, hne b hb, if_false]
    exact deref_sublist h5 hinv.nodup hb
  · simp [hs]

/-- C8, witness: PAIR in the reachable state after `PUSH 72; PUSH 105`. -/
theorem pair_spec_witness :
    FreshAlloc bumpAlloc ∧ Reachable bumpAlloc twoIntsMachine ∧
    twoIntsMachine.vm.stack = 2 :: 1 :: [] ∧
    ∃ m1 p survivors, interpret bumpAlloc twoIntsMachine .I_PAIR = .ok m1 ∧
      m1.vm.stack = p :: [] ∧
      m1.vm.first = { addr := p, type := .OBJ_PAIR, is_marked := false, value := 0,
                      head := 1, tail := 2 } :: survivors ∧
      survivors.Sublist twoIntsMachine.vm.first ∧ p ∉ addrs survivors ∧
      1 ∈ addrs m1.vm.first ∧ 2 ∈ addrs m1.vm.first ∧
      deref m1.vm.first 1 = deref twoIntsMachine.vm.first 1 ∧
      deref m1.vm.first 2 = deref twoIntsMachine.vm.first 2 ∧
      m1.vm.stack.length + 1 = twoIntsMachine.vm.stack.length :=
  ⟨bumpAlloc_fresh, twoIntsMachine_reachable, rfl,
    pair_spec bumpAlloc bumpAlloc_fresh twoIntsMachine twoIntsMachine_reachable 1 2 [] rfl⟩

/-! ## C9: PRINT -/

/-- C9. From every reachable state with a non-empty stack, PRINT returns; it
appends to stdout the leaves of the top object from left to right, each
integer `n` as the one byte `n mod 256`; the VM (stack, chain, `num_objects`,
threshold, halt flag) and stdin are exactly as before. -/
theorem print_spec (malloc : List Ref → Ref) (hm : FreshAlloc malloc)
    (m : Machine) (h : Reachable malloc m) (top : Ref) (rest : List Ref)
    (hs : m.vm.stack = top :: rest) :
    ∃ ls, Leaves m.vm.first top ls ∧
      interpret malloc m .I_PRINT =
        .ok { m with stdout := m.stdout ++ ls.map (fun n => (n % 256).toNat) } := by
  have hinv := reachable_inv hm h
  have htop : top ∈ addrs m.vm.first := hinv.roots top (by simp [hs])
  obtain ⟨ls, hl, hp⟩ := objPrint_inv hinv htop
  have hlen : rest.length < STACK_MAX := by
    have := hinv.size
    rw [hs] at this
    simp only [List.length_cons] at this
    omega
  refine ⟨ls, hl, ?_⟩
  have hvm : ({ m.vm with stack := top :: rest } : VM) = m.vm := by
    rw [← hs]
  simp only [interpret, pop, hs, hp, push, hlen, if_true]
  rw [hvm]
  rfl

/-- C9, witness: PRINT in the reachable state after `PUSH 72; PUSH 105; PAIR`
writes the two bytes 72, 105 and returns the same VM. -/
theorem print_spec_witness :
    FreshAlloc bumpAlloc ∧ Reachable bumpAlloc onePairMachine ∧
    onePairMachine.vm.stack = 3 :: [] ∧
    (∃ ls, Leaves onePairMachine.vm.first 3 ls ∧
      interpret bumpAlloc onePairMachine .I_PRINT =
        .ok { onePairMachine with
              stdout := onePairMachine.stdout ++ ls.map (fun n => (n % 256).toNat) }) ∧
    interpret bumpAlloc onePairMachine .I_PRINT =
      .ok { onePairMachine with stdout := [72, 105] } :=
  ⟨bumpAlloc_fresh, onePairMachine_reachable, rfl,
    print_spec bumpAlloc bumpAlloc_fresh onePairMachine onePairMachine_reachable 3 [] rfl,
    by decide⟩

/-! ## C10: SWAP -/

/-- C10. On every state whose stack is `[..., a, b]` (within the capacity of
256 slots), SWAP returns the same machine with the stack `[..., b, a]`:
`stack_size`, the slots below, the chain, `num_objects`, the threshold, the
halt flag and both streams are unchanged; SWAP followed by SWAP returns the
machine it started from. -/
theorem swap_spec (malloc : List Ref → Ref) (m : Machine) (a b : Ref) (rest : List Ref)
    (hs : m.vm.stack = b :: a :: rest) (hsize : m.vm.stack.length ≤ STACK_MAX) :
    interpret malloc m .I_SWP = .ok { m with vm := { m.vm with stack := a :: b :: rest } } ∧
    interpretAll malloc m [.I_SWP, .I_SWP] = .ok m := by
  have h1 : interpret malloc m .I_SWP =
      .ok { m with vm := { m.vm with stack := a :: b :: rest } } := by
    have heq := swap_eq m.vm hsize
    rw [hs] at heq
    simp only [interpret, heq]
  have hsize2 : (a :: b :: rest).length ≤ STACK_MAX := by
    rw [hs] at hsize
    simpa using hsize
  have h2 : interpret malloc { m with vm := { m.vm with stack := a :: b :: rest } } .I_SWP =
      .ok m := by
    have heq := swap_eq { m.vm with stack := a :: b :: rest } hsize2
    simp only [interpret, heq]
    rw [← hs]
  exact ⟨h1, by simp only [interpretAll, h1, h2]⟩

/-- C10, witness: SWAP on the state after two pushes. -/
theorem swap_spec_witness :
    twoIntsMachine.vm.stack = 2 :: 1 :: [] ∧ twoIntsMachine.vm.stack.length ≤ STACK_MAX ∧
    interpret bumpAlloc twoIntsMachine .I_SWP =
      .ok { twoIntsMachine with vm := { twoIntsMachine.vm with stack := 1 :: 2 :: [] } } ∧
    interpretAll bumpAlloc twoIntsMachine [.I_SWP, .I_SWP] = .ok twoIntsMachine :=
  ⟨rfl, by decide, swap_spec bumpAlloc twoIntsMachine 1 2 [] rfl (by decide)⟩

/-! ## C3: the wire format of emission -/

theorem le32_length (n : Int) : (le32 n).length = 4 := rfl

theorem le32_lt (n : Int) : ∀ b ∈ le32 n, b < 256 := by
  intro b hb
  simp only [le32, List.mem_cons, List.mem_singleton, List.not_mem_nil, or_false] at hb
  rcases hb with h | h | h | h <;> omega

theorem out_val_eq_le32 (n : Int) : Asm.out_val n = le32 n := rfl

theorem fread_i32_le32 (n : Int) (hn : IsI32 n) (rest : List Nat) :
    fread_i32 (le32 n ++ rest) = some (n, rest) := by
  obtain ⟨h1, h2⟩ := hn
  simp only [le32, List.cons_append, List.nil_append, fread_i32, i32_of_bytes, Option.some.injEq,
    Prod.mk.injEq, and_true]
  split <;> omega

theorem takeWhile_quote (s tail : List Nat) (hs : 34 ∉ s) :
    (s ++ 34 :: tail).takeWhile (fun c => decide (c ≠ 34)) = s := by
  induction s with
  | nil => simp
  | cons c rest ih =>
    have hc : c ≠ 34 := fun h => hs (h ▸ List.mem_cons_self _ _)
    have hrest : 34 ∉ rest := fun h => hs (List.mem_cons_of_mem _ h)
    rw [List.cons_append, List.takeWhile_cons]
    simp only [ne_eq, hc, not_false_eq_true, decide_True, if_true]
    rw [ih hrest]

theorem out_str_quote (s tail : List Nat) (hs : 34 ∉ s) :
    Asm.out_str (s ++ 34 :: tail) = s ++ [0] := by
  unfold Asm.out_str
  rw [takeWhile_quote s tail hs]

/-- C3. The bytes `process_op` writes for each mnemonic but `print`: one opcode
byte of the table for the instructions without payload; for `push n` the byte
0x02 and four bytes, each below 256, that are the little-endian digits of
`n mod 2^32`; for `die` and `assert_allocated`, whose string argument arrives
as the text `s` followed by its closing quote, the opcode 0x07 or 0x12, (for
the assert the four bytes of `n`,) the bytes of `s`, and 0x00. -/
theorem emission_wire_format (n : Int) (s tail str : List Nat) (hs : 34 ∉ s) :
    Asm.process_op ⟨.MNEM_OUT, str, n⟩ = .ok [0x00] ∧
    Asm.process_op ⟨.MNEM_IN, str, n⟩ = .ok [0x01] ∧
    Asm.process_op ⟨.MNEM_PAIR, str, n⟩ = .ok [0x03] ∧
    Asm.process_op ⟨.MNEM_SWP, str, n⟩ = .ok [0x04] ∧
    Asm.process_op ⟨.MNEM_POP, str, n⟩ = .ok [0x05] ∧
    Asm.process_op ⟨.MNEM_HALT, str, n⟩ = .ok [0x06] ∧
    Asm.process_op ⟨.MNEM_GC, str, n⟩ = .ok [0x10] ∧
    (∃ b0 b1 b2 b3 : Nat, Asm.process_op ⟨.MNEM_PUSH, str, n⟩ = .ok [0x02, b0, b1, b2, b3] ∧
      b0 < 256 ∧ b1 < 256 ∧ b2 < 256 ∧ b3 < 256 ∧
      ((b0 + 256 * b1 + 65536 * b2 + 16777216 * b3 : Nat) : Int) = n % 4294967296) ∧
    Asm.process_op ⟨.MNEM_PUSH, str, n⟩ = .ok (encode (.I_PSH_I32 n)) ∧
    Asm.process_op ⟨.MNEM_DIE, s ++ 34 :: tail, n⟩ = .ok (0x07 :: (s ++ [0])) ∧
    Asm.process_op ⟨.MNEM_DIE, s ++ 34 :: tail, n⟩ = .ok (encode (.I_DIE s)) ∧
    Asm.process_op ⟨.MNEM_ASSERT, s ++ 34 :: tail, n⟩ = .ok (0x12 :: (le32 n ++ (s ++ [0]))) ∧
    Asm.process_op ⟨.MNEM_ASSERT, s ++ 34 :: tail, n⟩ = .ok (encode (.I_ASSERT n s)) := by
  have hd : Asm.process_op ⟨.MNEM_DIE, s ++ 34 :: tail, n⟩ = .ok (0x07 :: (s ++ [0])) := by
    simp only [Asm.process_op, Asm.out_die, out_str_quote s tail hs]
    rfl
  have ha : Asm.process_op ⟨.MNEM_ASSERT, s ++ 34 :: tail, n⟩ =
      .ok (0x12 :: (le32 n ++ (s ++ [0]))) := by
    simp only [Asm.process_op, Asm.out_assert, out_str_quote s tail hs, out_val_eq_le32]
    rfl
  refine ⟨rfl, rfl, rfl, rfl, rfl, rfl, rfl, ?_, rfl, hd, hd, ha, ha⟩
  refine ⟨(n % 4294967296).toNat % 256, (n % 4294967296).toNat / 256 % 256,
    (n % 4294967296).toNat / 65536 % 256, (n % 4294967296).toNat / 16777216 % 256,
    rfl, ?_, ?_, ?_, ?_, ?_⟩
  · omega
  · omega
  · omega
  · omega
  · have h0 : 0 ≤ n % 4294967296 := Int.emod_nonneg _ (by decide)
    have h1 : n % 4294967296 < 4294967296 := Int.emod_lt_of_pos _ (by decide)
    have h2 : ((n % 4294967296).toNat : Int) = n % 4294967296 := Int.toNat_of_nonneg h0
    generalize (n % 4294967296).toNat = u at h2 ⊢
    rw [← h2]
    have : u < 4294967296 := by omega
    norm_cast
    omega

/-- C3, witness: `die "Hi"` and `assert_allocated 2 "Hi"`, whose string
argument arrives as `Hi"`, and `push -2`. -/
theorem emission_wire_format_witness :
    34 ∉ [72, 105] ∧
    Asm.process_op ⟨.MNEM_DIE, [72, 105] ++ 34 :: [], -2⟩ = .ok [0x07, 72, 105, 0] ∧
    Asm.process_op ⟨.MNEM_ASSERT, [72, 105] ++ 34 :: [], 2⟩ = .ok [0x12, 2, 0, 0, 0, 72, 105, 0] ∧
    Asm.process_op ⟨.MNEM_PUSH, [], -2⟩ = .ok [0x02, 254, 255, 255, 255] :=
  ⟨by decide, (emission_wire_format (-2) [72, 105] [] [] (by decide)).2.2.2.2.2.2.2.2.2.1,
    by decide, by decide⟩

/-! ## C2: decoding the assembler's bytes gives the instructions back -/

theorem read_raw_str_loop_spec (s rest : List Nat) (hs : 0 ∉ s) :
    ∀ (b : Nat) (buf : List Nat),
      read_raw_str_loop (s ++ 0 :: rest) b buf = (0, buf ++ s, rest) := by
  induction s with
  | nil => intro b buf; simp [read_raw_str_loop]
  | cons c more ih =>
    intro b buf
    have hc : c ≠ 0 := fun h => hs (h ▸ List.mem_cons_self _ _)
    have hmore : 0 ∉ more := fun h => hs (List.mem_cons_of_mem _ h)
    rw [List.cons_append, read_raw_str_loop]
    simp only [ne_eq, hc, not_false_eq_true, if_true]
    rw [ih hmore]
    simp

theorem read_raw_str_spec (s rest : List Nat) (hs : 0 ∉ s) :
    read_raw_str (s ++ 0 :: rest) = .ok (s, rest) := by
  unfold read_raw_str
  rw [read_raw_str_loop_spec s rest hs]
  simp

theorem fetchInstruction_encode (i : Instruction) (hi : i.Encodable) (rest : List Nat) :
    fetchInstruction (encode i ++ rest) = .ok (some (i, rest)) := by
  cases i with
  | I_PSH_I32 n =>
    have := fread_i32_le32 n hi rest
    simp only [encode, List.cons_append, fetchInstruction, this]
    simp
  | I_DIE msg =>
    have := read_raw_str_spec msg rest hi.1
    simp only [encode, List.cons_append, List.append_assoc, List.singleton_append,
      fetchInstruction]
    simp [this]
  | I_ASSERT n msg =>
    have h1 := fread_i32_le32 n hi.1 (msg ++ 0 :: rest)
    have h2 := read_raw_str_spec msg rest hi.2.1
    simp only [encode, List.cons_append, List.append_assoc, List.singleton_append,
      fetchInstruction]
    simp [h1, h2]
  | I_PRINT => simp [encode, Instruction.type, fetchInstruction]
  | I_READ_I32 => simp [encode, Instruction.type, fetchInstruction]
  | I_PAIR => simp [encode, Instruction.type, fetchInstruction]
  | I_SWP => simp [encode, Instruction.type, fetchInstruction]
  | I_POP => simp [encode, Instruction.type, fetchInstruction]
  | I_HALT => simp [encode, Instruction.type, fetchInstruction]
  | I_GC => simp [encode, Instruction.type, fetchInstruction]

theorem process_op_asmOp (i : Instruction) (hi : i.Encodable) :
    Asm.process_op (Asm.asmOp i) = .ok (encode i) := by
  cases i with
  | I_DIE msg =>
    have h := out_str_quote msg [] hi.2
    simp only [Asm.asmOp, Asm.process_op, Asm.out_die, h]
    rfl
  | I_ASSERT n msg =>
    have h := out_str_quote msg [] hi.2.2
    simp only [Asm.asmOp, Asm.process_op, Asm.out_assert, h, out_val_eq_le32]
    rfl
  | I_PSH_I32 n => rfl
  | I_PRINT => rfl
  | I_READ_I32 => rfl
  | I_PAIR => rfl
  | I_SWP => rfl
  | I_POP => rfl
  | I_HALT => rfl
  | I_GC => rfl

theorem emitAll_eq (is : List Instruction) (h : ∀ i ∈ is, i.Encodable) :
    Asm.emitAll is = .ok (is.flatMap encode) := by
  induction is with
  | nil => rfl
  | cons i rest ih =>
    have hi := h i (List.mem_cons_self _ _)
    have hrest := ih (fun j hj => h j (List.mem_cons_of_mem _ hj))
    simp only [Asm.emitAll, process_op_asmOp i hi, hrest, List.flatMap_cons]

theorem fetchAll_flatMap_encode (is : List Instruction) (h : ∀ i ∈ is, i.Encodable) :
    ∀ fuel, is.length < fuel → fetchAll fuel (is.flatMap encode) = .ok is := by
  induction is with
  | nil =>
    intro fuel hf
    cases fuel with
    | zero => omega
    | succ k => simp [fetchAll, fetchInstruction]
  | cons i rest ih =>
    intro fuel hf
    cases fuel with
    | zero => omega
    | succ k =>
      have hi := h i (List.mem_cons_self _ _)
      have hrest := ih (fun j hj => h j (List.mem_cons_of_mem _ hj)) k
        (by simp only [List.length_cons] at hf; omega)
      simp only [List.flatMap_cons, fetchAll, fetchInstruction_encode i hi, hrest]

/-- C2. For every list of instructions whose numbers are `i32` values and
whose strings hold neither a NUL nor a double quote, the assembler's emission
returns bytes; the calls of `fetchInstruction` on these bytes, repeated until
it returns NULL, give exactly the instructions in order; one call on the bytes
of one instruction followed by anything returns that instruction and leaves
exactly what followed; on the empty stream it returns NULL. -/
theorem codec_round_trip (is : List Instruction) (h : ∀ i ∈ is, i.Encodable) :
    ∃ bytes, Asm.emitAll is = .ok bytes ∧
      (∀ fuel, is.length < fuel → fetchAll fuel bytes = .ok is) ∧
      (∀ i ∈ is, ∀ rest, ∃ b, Asm.process_op (Asm.asmOp i) = .ok b ∧
        fetchInstruction (b ++ rest) = .ok (some (i, rest))) ∧
      fetchInstruction [] = .ok none :=
  ⟨is.flatMap encode, emitAll_eq is h, fetchAll_flatMap_encode is h,
    fun i hi rest => ⟨encode i, process_op_asmOp i (h i hi),
      fetchInstruction_encode i (h i hi) rest⟩, rfl⟩

/-- C2, witness: `push -2; die "Hi"; assert_allocated 2 "Hi"; gc`. -/
theorem codec_round_trip_witness :
    (∀ i ∈ [Instruction.I_PSH_I32 (-2), .I_DIE [72, 105], .I_ASSERT 2 [72, 105], .I_GC],
      i.Encodable) ∧
    ∃ bytes, Asm.emitAll [.I_PSH_I32 (-2), .I_DIE [72, 105], .I_ASSERT 2 [72, 105], .I_GC]
        = .ok bytes ∧
      (∀ fuel, [Instruction.I_PSH_I32 (-2), .I_DIE [72, 105], .I_ASSERT 2 [72, 105],
          .I_GC].length < fuel →
        fetchAll fuel bytes
          = .ok [.I_PSH_I32 (-2), .I_DIE [72, 105], .I_ASSERT 2 [72, 105], .I_GC]) ∧
      (∀ i ∈ [Instruction.I_PSH_I32 (-2), .I_DIE [72, 105], .I_ASSERT 2 [72, 105], .I_GC],
        ∀ rest, ∃ b, Asm.process_op (Asm.asmOp i) = .ok b ∧
          fetchInstruction (b ++ rest) = .ok (some (i, rest))) ∧
      fetchInstruction [] = .ok none :=
  ⟨by decide,
    codec_round_trip [.I_PSH_I32 (-2), .I_DIE [72, 105], .I_ASSERT 2 [72, 105], .I_GC]
      (by decide)⟩

/-! ## C5: expansion of `%repeat` -/

theorem set_constant_twice (constants : List Asm.Binding) (name : List Nat) (a b : Asm.Constant) :
    Asm.set_constant (Asm.set_constant constants name a) name b =
      Asm.set_constant constants name b := by
  induction constants with
  | nil => simp [Asm.set_constant]
  | cons c rest ih =>
    by_cases h : name = c.name
    · simp [Asm.set_constant, h]
    · simp [Asm.set_constant, h, ih]

theorem bindLoopVar_twice (constants : List Asm.Binding) (v : Option (List Nat)) (i j : Nat) :
    Asm.bindLoopVar (Asm.bindLoopVar constants v i) v j = Asm.bindLoopVar constants v j := by
  cases v with
  | none => rfl
  | some name => exact set_constant_twice constants name _ _

theorem repeat_loop_eq (body : List Asm.Binding → Except Failure (List Nat))
    (v : Option (List Nat)) (constants : List Asm.Binding) :
    ∀ (remaining value : Nat) (current : List Asm.Binding),
      (∀ j, Asm.bindLoopVar current v j = Asm.bindLoopVar constants v j) →
      Asm.repeat_loop body v remaining value current =
        Asm.concatAll ((List.range' value remaining).map
          (fun i => body (Asm.bindLoopVar constants v i))) := by
  intro remaining
  induction remaining with
  | zero => intro value current _; rfl
  | succ k ih =>
    intro value current hcur
    have h1 := hcur value
    have h2 : ∀ j, Asm.bindLoopVar (Asm.bindLoopVar constants v value) v j =
        Asm.bindLoopVar constants v j := fun j => bindLoopVar_twice constants v value j
    simp only [Asm.repeat_loop, h1, List.range'_succ, List.map_cons, Asm.concatAll]
    rw [ih (value + 1) _ h2]

theorem flatten_scope_normal (next : List (List Asm.Binding)) (dl : Nat) (out : List Asm.Output)
    (constants : List Asm.Binding) (n : Nat) (v : Option (List Nat)) :
    Asm.flatten_scope next (.mk .SCOPE_NORMAL dl out constants n v) =
      Asm.flatten_normal_scope (constants :: next) out := by
  simp [Asm.flatten_scope]

theorem flatten_scope_repeat (next : List (List Asm.Binding)) (dl : Nat) (out : List Asm.Output)
    (constants : List Asm.Binding) (n : Nat) (v : Option (List Nat)) :
    Asm.flatten_scope next (.mk .SCOPE_REPEAT dl out constants n v) =
      Asm.repeat_loop (fun cs => Asm.flatten_normal_scope (cs :: next) out) v n 0 constants := by
  simp [Asm.flatten_scope]

/-- C5. The bytes emitted for a Repeat scope with count `N`, loop variable `v`
(or none) and any body of token lines and nested scopes are the bytes emitted,
for `i = 0, 1, ..., N-1` in that order, for the same body as a Normal scope in
which `v` is bound to the number `i`, one after the other; the first
iteration that fails is the failure of the whole; with `N = 0` nothing is
emitted. The source `%repeat 3 i / push i / %end` emits PUSH 0; PUSH 1; PUSH 2.
(A `print` string shorter than two characters makes both sides the undefined
result of the embedding.) -/
theorem repeat_expansion (next : List (List Asm.Binding)) (dl : Nat) (out : List Asm.Output)
    (constants : List Asm.Binding) (N : Nat) (v : Option (List Nat)) :
    Asm.flatten_scope next (.mk .SCOPE_REPEAT dl out constants N v) =
      Asm.concatAll ((List.range N).map (fun i =>
        Asm.flatten_scope next (.mk .SCOPE_NORMAL dl out (Asm.bindLoopVar constants v i) 0 none))) ∧
    Asm.flatten_scope next (.mk .SCOPE_REPEAT dl out constants 0 v) = .ok [] ∧
    Asm.flatten_scope [] Asm.repeat3Program =
      .ok [0x02, 0, 0, 0, 0, 0x02, 1, 0, 0, 0, 0x02, 2, 0, 0, 0] := by
  refine ⟨?_, ?_, by decide⟩
  · rw [flatten_scope_repeat, repeat_loop_eq _ v constants N 0 constants (fun _ => rfl)]
    simp only [List.range_eq_range', flatten_scope_normal]
  · rw [flatten_scope_repeat, Asm.repeat_loop]

/-! ## The desugaring of `print` on its token line -/

theorem parse_printLine (s : List Nat) (line_no : Nat) (chain : List (List Asm.Binding)) :
    Asm.parse (Asm.printLine s line_no) chain = .ok ⟨.MNEM_PRINT, s ++ [34], 0⟩ := by
  rfl

theorem print_loop_eq (rest : List Nat) :
    Asm.print_loop rest =
      (rest.flatMap (fun c => [Instruction.I_PSH_I32 (Asm.charValue c), .I_PAIR])).flatMap
        encode := by
  induction rest with
  | nil => rfl
  | cons c more ih =>
    simp only [Asm.print_loop, ih, List.flatMap_cons, List.flatMap_append, List.flatMap_nil]
    simp [encode, Asm.push, Asm.pair, Asm.opcode, Asm.opcodes, out_val_eq_le32,
      Instruction.type]

theorem length_flatMap_push_pair (rest : List Nat) :
    ((rest.flatMap (fun c => [Instruction.I_PSH_I32 (Asm.charValue c), .I_PAIR])).flatMap
      encode).length = 6 * rest.length := by
  induction rest with
  | nil => rfl
  | cons c more ih =>
    simp only [List.flatMap_cons, List.flatMap_append, List.length_append, ih]
    simp [encode, le32, Instruction.type]
    omega

/-- The token line of `print "s"`, for a string `s = c0 c1 ... c(k-1)` with
`k >= 2`, no NUL and no double quote, is emitted as exactly the encodings of
PUSH c0; PUSH c1; PAIR; then PUSH ci; PAIR for `i = 2 .. k-1`; then PUSH 10;
PAIR; PRINT; POP; GC, in that order: `6k + 8` bytes. A character is pushed with
the value it has as a C `char`, which is the byte itself below 128. -/
theorem printLine_emission (c0 c1 : Nat) (rest : List Nat)
    (hs : PlainString (c0 :: c1 :: rest)) (chain : List (List Asm.Binding)) (line_no : Nat) :
    Asm.flatten_output chain (.OUT_SINGLE (Asm.printLine (c0 :: c1 :: rest) line_no)) =
      .ok ((Asm.printInstructions c0 c1 rest).flatMap encode) ∧
    ((Asm.printInstructions c0 c1 rest).flatMap encode).length = 6 * (rest.length + 2) + 8 ∧
    (∀ c, c < 128 → Asm.charValue c = (c : Int)) := by
  have h0 : c0 ≠ 34 := fun h => hs.2 (by simp [h])
  have h1 : c1 ≠ 34 := fun h => hs.2 (by simp [h])
  have hrest : 34 ∉ c0 :: c1 :: rest := hs.2
  have htake := takeWhile_quote (c0 :: c1 :: rest) [] hrest
  refine ⟨?_, ?_, ?_⟩
  · simp only [Asm.flatten_output, parse_printLine, Asm.process_op, List.cons_append, h0, h1,
      or_self, if_false]
    simp only [List.cons_append] at htake
    rw [htake]
    simp only [List.drop_succ_cons, List.drop_zero, print_loop_eq, Asm.printInstructions,
      List.flatMap_append, List.flatMap_cons, List.flatMap_nil]
    simp [encode, Asm.push, Asm.pair, Asm.pout, Asm.pop, Asm.gc, Asm.opcode, Asm.opcodes,
      out_val_eq_le32, Instruction.type]
  · simp only [Asm.printInstructions, List.flatMap_append, List.length_append,
      length_flatMap_push_pair]
    simp [encode, le32, Instruction.type]
    omega
  · intro c hc
    simp [Asm.charValue, hc]

/-- The token line of `print "Hi"` gives PUSH 'H'; PUSH 'i'; PAIR; PUSH '\n';
PAIR; PRINT; POP; GC, 20 bytes. -/
theorem printLine_emission_hi :
    PlainString [72, 105] ∧
    (Asm.flatten_output [] (.OUT_SINGLE (Asm.printLine (72 :: 105 :: []) 1)) =
        .ok ((Asm.printInstructions 72 105 []).flatMap encode) ∧
      ((Asm.printInstructions 72 105 []).flatMap encode).length = 6 * (([] : List Nat).length + 2) + 8 ∧
      (∀ c, c < 128 → Asm.charValue c = (c : Int))) ∧
    Asm.flatten_output [] (.OUT_SINGLE (Asm.printLine [72, 105] 1)) =
      .ok [0x02, 72, 0, 0, 0, 0x02, 105, 0, 0, 0, 0x03, 0x02, 10, 0, 0, 0, 0x03,
           0x00, 0x05, 0x10] ∧
    Asm.printInstructions 72 105 [] =
      [.I_PSH_I32 72, .I_PSH_I32 105, .I_PAIR, .I_PSH_I32 10, .I_PAIR, .I_PRINT, .I_POP, .I_GC] :=
  ⟨by decide, printLine_emission 72 105 [] (by decide) [] 1, by decide, by decide⟩

/-! ## C11: what follows a HALT -/

theorem gc_halted {vm vm1 : VM} (h : gc vm = some vm1) : vm1.has_halted = vm.has_halted := by
  unfold gc at h
  split at h
  · cases h
  · cases h; rfl

theorem newObject_halted {malloc : List Ref → Ref} {vm vm1 : VM} {ty : ObjType} {a : Ref}
    (h : newObject malloc vm ty = some (vm1, a)) : vm1.has_halted = vm.has_halted := by
  unfold newObject at h
  split at h
  · cases h
  · rename_i vm2 hg
    cases h
    show vm2.has_halted = vm.has_halted
    split at hg
    · exact gc_halted hg
    · cases hg; rfl

theorem pushInt_halted {malloc : List Ref → Ref} {vm vm1 : VM} {v : Int}
    (h : pushInt malloc vm v = .ok vm1) : vm1.has_halted = vm.has_halted := by
  unfold pushInt at h
  split at h
  · cases h
  · rename_i vm2 a hnew
    obtain ⟨_, _, _, h4, _⟩ := push_first h
    rw [h4]
    show vm2.has_halted = vm.has_halted
    exact newObject_halted hnew

theorem pushPair_halted {malloc : List Ref → Ref} {vm vm1 : VM} {p : Ref}
    (h : pushPair malloc vm = .ok (vm1, p)) : vm1.has_halted = vm.has_halted := by
  unfold pushPair at h
  split at h
  · cases h
  · rename_i vm2 a hnew
    split at h
    · cases h
    · rename_i vm3 t hpop1
      obtain ⟨_, _, _, p4, _⟩ := pop_first hpop1
      simp only at h
      split at h
      · cases h
      · rename_i vm4 hd hpop2
        obtain ⟨_, _, _, q4, _⟩ := pop_first hpop2
        split at h
        · cases h
        · rename_i vm5 hpush
          obtain ⟨_, _, _, r4, _⟩ := push_first hpush
          cases h
          rw [r4]
          show vm4.has_halted = vm.has_halted
          rw [q4]
          show vm3.has_halted = vm.has_halted
          rw [p4]
          exact newObject_halted hnew

theorem swap_halted {vm vm1 : VM} (h : swap vm = .ok vm1) :
    vm1.has_halted = vm.has_halted := by
  unfold swap at h
  split at h
  · cases h
  · rename_i vm2 o1 hpop1
    obtain ⟨_, _, _, p4, _⟩ := pop_first hpop1
    split at h
    · cases h
    · rename_i vm3 o2 hpop2
      obtain ⟨_, _, _, q4, _⟩ := pop_first hpop2
      split at h
      · cases h
      · rename_i vm4 hpush1
        obtain ⟨_, _, _, r4, _⟩ := push_first hpush1
        obtain ⟨_, _, _, t4, _⟩ := push_first h
        rw [t4, r4, q4, p4]

/-- No instruction but HALT touches the halt flag. -/
theorem interpret_halted {malloc : List Ref → Ref} {m m1 : Machine} {i : Instruction}
    (h : interpret malloc m i = .ok m1) (hi : i ≠ .I_HALT) :
    m1.vm.has_halted = m.vm.has_halted := by
  cases i with
  | I_DIE msg => simp [interpret] at h
  | I_HALT => exact absurd rfl hi
  | I_POP =>
    simp only [interpret] at h
    split at h
    · cases h
    · rename_i vm1 _ hpop
      obtain ⟨_, _, _, p4, _⟩ := pop_first hpop
      cases h
      exact p4
  | I_PRINT =>
    simp only [interpret] at h
    split at h
    · cases h
    · rename_i vm1 o hpop
      obtain ⟨_, _, _, p4, _⟩ := pop_first hpop
      split at h
      · cases h
      · split at h
        · cases h
        · rename_i vm2 hpush
          obtain ⟨_, _, _, r4, _⟩ := push_first hpush
          cases h
          simp only [r4, p4]
  | I_READ_I32 =>
    simp only [interpret] at h
    split at h
    · cases h
    · rename_i vm1 hp
      cases h
      exact pushInt_halted hp
  | I_PSH_I32 v =>
    simp only [interpret] at h
    split at h
    · cases h
    · rename_i vm1 hp
      cases h
      exact pushInt_halted hp
  | I_PAIR =>
    simp only [interpret] at h
    split at h
    · cases h
    · rename_i vm1 p hp
      cases h
      exact pushPair_halted hp
  | I_SWP =>
    simp only [interpret] at h
    split at h
    · cases h
    · rename_i vm1 hsw
      cases h
      exact swap_halted hsw
  | I_GC =>
    simp only [interpret] at h
    split at h
    · cases h
    · rename_i vm1 hg
      cases h
      exact gc_halted hg
  | I_ASSERT n msg =>
    simp only [interpret] at h
    split at h
    · cases h; rfl
    · cases h

/-- What `_run` does on the encoding of a program `P` without HALT that runs
without failure, followed by a HALT and any bytes `R`: it interprets `P` and
the HALT, then fetches once more from `R`; the run ends in the halted state
when that fetch returns (an instruction, which is dropped, or NULL), and fails
when that fetch fails. -/
theorem run_through_halt (malloc : List Ref → Ref) (R : List Nat) :
    ∀ (P : List Instruction) (m m1 : Machine) (fuel : Nat),
      (∀ i ∈ P, i.Encodable ∧ i ≠ .I_HALT) → m.vm.has_halted = false →
      interpretAll malloc m P = .ok m1 → P.length + 2 ≤ fuel →
      _run malloc fuel m (P.flatMap encode ++ 6 :: R) =
        match fetchInstruction R with
        | .error e => .error e
        | .ok _ => .ok { m1 with vm := { m1.vm with has_halted := true } } := by
  intro P
  induction P with
  | nil =>
    intro m m1 fuel _ hm hrun hf
    simp only [interpretAll] at hrun
    cases hrun
    obtain ⟨k, rfl⟩ : ∃ k, fuel = k + 2 := ⟨fuel - 2, by simp only [List.length_nil] at hf; omega⟩
    have h6 : fetchInstruction (6 :: R) = .ok (some (.I_HALT, R)) := by
      simp [fetchInstruction]
    simp only [List.flatMap_nil, List.nil_append, _run, h6, hm, interpret]
    cases hR : fetchInstruction R with
    | error e => simp
    | ok r =>
      cases r with
      | none => simp
      | some ir => simp
  | cons i P ih =>
    intro m m1 fuel hP hm hrun hf
    obtain ⟨k, rfl⟩ : ∃ k, fuel = k + 1 := ⟨fuel - 1, by simp only [List.length_cons] at hf; omega⟩
    obtain ⟨hi, hne⟩ := hP i (List.mem_cons_self _ _)
    have hfetch := fetchInstruction_encode i hi (P.flatMap encode ++ 6 :: R)
    unfold interpretAll at hrun
    split at hrun
    · cases hrun
    · rename_i m2 hstep
      have hm2 : m2.vm.has_halted = false := by rw [interpret_halted hstep hne, hm]
      have := ih m2 m1 k (fun j hj => hP j (List.mem_cons_of_mem _ hj)) hm2 hrun
        (by simp only [List.length_cons] at hf; omega)
      simp only [List.flatMap_cons, List.append_assoc, _run, hfetch, hm, hstep]
      simpa using this

/-- C11. The code at the failing input: the file `06 ff` (HALT, then a byte
that is no opcode) makes `_run` fail, because the loop fetches the next
instruction before it tests the halt flag; the file `06` alone ends in the
halted state, and so does `06 03`, whose PAIR is fetched and dropped, not
interpreted. In general, on the encoding of a program without HALT that runs
without failure, then a HALT, then any bytes `R`, the run is the halted state
of the program when one more fetch from `R` returns, and the failure of that
fetch otherwise. -/
theorem run_after_halt_fetches :
    runBytes bumpAlloc [] [0x06, 0xff] = .error .fatal ∧
    runBytes bumpAlloc [] [0x06] =
      .ok { vm := { newVM with has_halted := true }, stdin := [], stdout := [] } ∧
    runBytes bumpAlloc [] [0x06, 0x03] =
      .ok { vm := { newVM with has_halted := true }, stdin := [], stdout := [] } ∧
    runBytes bumpAlloc [] [0x02, 1, 0, 0, 0, 0x06, 0x02, 1] = .error .fatal ∧
    (∀ (malloc : List Ref → Ref) (R : List Nat) (P : List Instruction) (m m1 : Machine)
        (fuel : Nat),
      (∀ i ∈ P, i.Encodable ∧ i ≠ .I_HALT) → m.vm.has_halted = false →
      interpretAll malloc m P = .ok m1 → P.length + 2 ≤ fuel →
      _run malloc fuel m (P.flatMap encode ++ 6 :: R) =
        match fetchInstruction R with
        | .error e => .error e
        | .ok _ => .ok { m1 with vm := { m1.vm with has_halted := true } }) :=
  ⟨by decide, by decide, by decide, by decide, run_through_halt⟩

/-! ## C12: decode dispatch -/

theorem type_mem_knownOpcodes (i : Instruction) : i.type ∈ knownOpcodes := by
  cases i <;> simp [Instruction.type, knownOpcodes]

/-- An instruction that `fetchInstruction` returns has the first byte of the
input as its type. -/
theorem fetchInstruction_type {first : Nat} {rest rest1 : List Nat} {i : Instruction}
    (h : fetchInstruction (first :: rest) = .ok (some (i, rest1))) : i.type = first := by
  unfold fetchInstruction at h
  simp only at h
  repeat' split at h
  all_goals first
    | (cases h; simp only [Instruction.type]; omega)
    | cases h

/-- C12. Decode dispatch: `fetchInstruction` returns NULL exactly at end of
stream; a first byte outside the ten opcodes is a fatal error; and an
instruction that is returned has the first byte of the stream as its type,
which is one of the ten opcodes. -/
theorem fetch_dispatch (fp : List Nat) :
    (fetchInstruction fp = .ok none ↔ fp = []) ∧
    (∀ first rest, fp = first :: rest → first ∉ knownOpcodes →
      fetchInstruction fp = .error .fatal) ∧
    (∀ i rest1, fetchInstruction fp = .ok (some (i, rest1)) →
      (∃ rest, fp = i.type :: rest) ∧ i.type ∈ knownOpcodes) := by
  refine ⟨?_, ?_, ?_⟩
  · constructor
    · intro h
      cases fp with
      | nil => rfl
      | cons first rest =>
        exfalso
        unfold fetchInstruction at h
        simp only at h
        repeat' split at h
        all_goals cases h
    · rintro rfl
      rfl
  · rintro first rest rfl hk
    simp only [knownOpcodes, List.mem_cons, List.mem_singleton, List.not_mem_nil, or_false,
      not_or] at hk
    obtain ⟨h0, h1, h2, h3, h4, h5, h6, h7, h10, h12⟩ := hk
    simp only [fetchInstruction, h0, h1, h2, h3, h4, h5, h6, h7, h10, h12, if_false]
  · intro i rest1 h
    refine ⟨?_, type_mem_knownOpcodes i⟩
    cases fp with
    | nil => simp [fetchInstruction] at h
    | cons first rest => exact ⟨rest, by rw [fetchInstruction_type h]⟩

/-! ## C13: short reads -/

/-- On a stream without a zero byte the loop of `read_raw_str` ends at end of
stream with the last byte read in `b`, or with the initial `b` when nothing
was read. -/
theorem read_raw_str_loop_unterminated :
    ∀ (s : List Nat) (b : Nat) (buf : List Nat), 0 ∉ s → (s ≠ [] ∨ b ≠ 0) →
      (read_raw_str_loop s b buf).1 ≠ 0 := by
  intro s
  induction s with
  | nil =>
    intro b buf _ h
    rcases h with h | h
    · exact absurd rfl h
    · simpa [read_raw_str_loop] using h
  | cons c rest ih =>
    intro b buf h0 _
    have hc : c ≠ 0 := fun e => h0 (by simp [e])
    have hr : 0 ∉ rest := fun e => h0 (List.mem_cons_of_mem _ e)
    simp only [read_raw_str_loop, hc, ne_eq, not_false_eq_true, if_true]
    exact ih c (buf ++ [c]) hr (Or.inr hc)

theorem read_raw_str_unterminated {s : List Nat} (hs : s ≠ []) (h0 : 0 ∉ s) :
    read_raw_str s = .error .fatal := by
  have := read_raw_str_loop_unterminated s 0 [] h0 (Or.inl hs)
  simp only [read_raw_str, this, if_false]

theorem fread_i32_short {payload : List Nat} (h : payload.length < 4) :
    fread_i32 payload = none := by
  match payload, h with
  | [], _ => rfl
  | [_], _ => rfl
  | [_, _], _ => rfl
  | [_, _, _], _ => rfl
  | _ :: _ :: _ :: _ :: _, h => simp only [List.length_cons] at h; omega

/-- C13. The code at the failing inputs: on the stream `07` (DIE, then end of
stream) and on `12 01 00 00 00` (ASSERT with its count, then end of stream)
`fetchInstruction` returns an instruction with the empty string, because
`read_raw_str` starts with `b = 0` and tests `b == 0` after a loop that read
nothing. The other short reads are fatal: fewer than 4 bytes after `02` or
`12`, and a string of at least one byte that ends without its NUL. -/
theorem short_read_cases :
    fetchInstruction [0x07] = .ok (some (.I_DIE [], [])) ∧
    fetchInstruction [0x12, 1, 0, 0, 0] = .ok (some (.I_ASSERT 1 [], [])) ∧
    (∀ payload : List Nat, payload.length < 4 →
      fetchInstruction (0x02 :: payload) = .error .fatal ∧
      fetchInstruction (0x12 :: payload) = .error .fatal) ∧
    (∀ s : List Nat, s ≠ [] → 0 ∉ s →
      fetchInstruction (0x07 :: s) = .error .fatal ∧
      ∀ b0 b1 b2 b3 : Nat,
        fetchInstruction (0x12 :: b0 :: b1 :: b2 :: b3 :: s) = .error .fatal) := by
  refine ⟨by decide, by decide, ?_, ?_⟩
  · intro payload h
    simp [fetchInstruction, fread_i32_short h]
  · intro s hs h0
    simp [fetchInstruction, fread_i32, read_raw_str_unterminated hs h0]

/-! ## C14: the classification of numbers -/


theorem matchesDecimal_skipSign (t : List Nat) :
    Asm.matchesDecimal t = Asm.decimalBody (Asm.skipSign t) := by
  cases t with
  | nil => simp [Asm.matchesDecimal, Asm.optSign, Asm.skipSign, Asm.decimalBody]
  | cons c rest =>
    by_cases h45 : c = 45
    · subst h45
      simp [Asm.matchesDecimal, Asm.optSign, Asm.skipSign, Asm.decimalBody, Asm.inClass]
    · by_cases h43 : c = 43
      · subst h43
        simp [Asm.matchesDecimal, Asm.optSign, Asm.skipSign, Asm.decimalBody, Asm.inClass]
      · simp [Asm.matchesDecimal, Asm.optSign, Asm.skipSign, h45, h43]

theorem matchesHex_skipSign (t : List Nat) :
    Asm.matchesHex t = Asm.hexBody (Asm.skipSign t) := by
  cases t with
  | nil => simp [Asm.matchesHex, Asm.optSign, Asm.skipSign, Asm.hexBody]
  | cons c rest =>
    by_cases h45 : c = 45
    · subst h45
      cases rest with
      | nil => simp [Asm.matchesHex, Asm.optSign, Asm.skipSign, Asm.hexBody]
      | cons d r => simp [Asm.matchesHex, Asm.optSign, Asm.skipSign, Asm.hexBody]
    · by_cases h43 : c = 43
      · subst h43
        cases rest with
        | nil => simp [Asm.matchesHex, Asm.optSign, Asm.skipSign, Asm.hexBody]
        | cons d r => simp [Asm.matchesHex, Asm.optSign, Asm.skipSign, Asm.hexBody]
      · simp [Asm.matchesHex, Asm.optSign, Asm.skipSign, h45, h43]

theorem all_isdigit_cons (c : Nat) (rest : List Nat) (hc : c ≠ 48) :
    (c :: rest).all Asm.isdigit = (Asm.inClass 49 57 c && rest.all (Asm.inClass 48 57)) := by
  have h1 : Asm.isdigit = Asm.inClass 48 57 := by
    funext x; simp [Asm.isdigit, Asm.inClass]
  have h2 : Asm.isdigit c = Asm.inClass 49 57 c := by
    simp only [Asm.isdigit, Asm.inClass, decide_eq_decide]
    omega
  rw [List.all_cons, h2, h1]

/-- The token texts that `num_type` takes for decimal numbers: the decimal
numbers of the grammar, and a text that is nothing after the sign has been
skipped. -/
theorem num_type_dec_iff (t : List Nat) :
    Asm.num_type t = .NUM_DEC ↔ (Asm.matchesDecimal t = true ∨ Asm.skipSign t = []) := by
  rw [matchesDecimal_skipSign]
  unfold Asm.num_type
  generalize Asm.skipSign t = s
  cases s with
  | nil => simp
  | cons c s1 =>
    by_cases hc : c = 48
    · subst hc
      cases s1 with
      | nil => simp [Asm.decimalBody]
      | cons d s2 =>
        by_cases hd : d = 120
        · subst hd
          by_cases hx : s2.all Asm.ishexdig = true
          · simp [Asm.decimalBody, Asm.inClass, hx]
          · simp [Asm.decimalBody, Asm.inClass, hx]
        · simp [Asm.decimalBody, Asm.inClass, hd]
    · simp only [hc, if_false, Asm.decimalBody, decide_False, Bool.false_and, Bool.false_or,
        all_isdigit_cons c s1 hc]
      by_cases hall : (Asm.inClass 49 57 c && s1.all (Asm.inClass 48 57)) = true
      · simp [hall]
      · simp [hall]

/-- The token texts that `num_type` takes for hexadecimal numbers: the
hexadecimal numbers of the grammar, and `0x` without a digit. -/
theorem num_type_hex_iff (t : List Nat) :
    Asm.num_type t = .NUM_HEX ↔ (Asm.matchesHex t = true ∨ Asm.skipSign t = [48, 120]) := by
  rw [matchesHex_skipSign]
  unfold Asm.num_type
  generalize Asm.skipSign t = s
  have hx : Asm.ishexdig =
      (fun h => Asm.inClass 48 57 h || Asm.inClass 65 70 h || Asm.inClass 97 102 h) := by
    funext x
    simp [Asm.ishexdig, Asm.inClass, Bool.or_assoc]
  cases s with
  | nil => simp [Asm.hexBody]
  | cons c s1 =>
    by_cases hc : c = 48
    · subst hc
      cases s1 with
      | nil => simp [Asm.hexBody]
      | cons d s2 =>
        by_cases hd : d = 120
        · subst hd
          simp only [if_true, Asm.hexBody, decide_True, Bool.true_and, ← hx]
          cases s2 with
          | nil => simp
          | cons e s3 =>
            by_cases hall : (e :: s3).all Asm.ishexdig = true
            · simp [hall]
            · simp [hall]
        · simp [Asm.hexBody, hd]
    · cases s1 with
      | nil =>
        by_cases hall : [c].all Asm.isdigit = true
        · simp [Asm.hexBody, hc, hall]
        · simp [Asm.hexBody, hc, hall]
      | cons d s2 =>
        by_cases hall : (c :: d :: s2).all Asm.isdigit = true
        · simp [Asm.hexBody, hc, hall]
        · simp [Asm.hexBody, hc, hall]

/-- C14. The code at the failing inputs: the tokens `-` and `+` are classified
as decimal numbers and `0x` as a hexadecimal number, though none of them
matches the grammar, and `identify` makes each a number constant. For every
token text, `num_type` returns decimal exactly when the text matches the
decimal grammar or is nothing but a sign, and hexadecimal exactly when it
matches the hexadecimal grammar or is `0x` without digits after an optional
sign. -/
theorem num_type_accepts_empty_digits :
    (Asm.num_type (Asm.bytes "-") = .NUM_DEC ∧ Asm.matchesDecimal (Asm.bytes "-") = false) ∧
    (Asm.num_type (Asm.bytes "+") = .NUM_DEC ∧ Asm.matchesDecimal (Asm.bytes "+") = false) ∧
    (Asm.num_type (Asm.bytes "0x") = .NUM_HEX ∧ Asm.matchesHex (Asm.bytes "0x") = false) ∧
    Asm.identify (some (Asm.bytes "-")) 1 0 =
      .ok (Asm.numberToken (Asm.bytes "-") .NUM_DEC 1 0) ∧
    (∀ t : List Nat, t ≠ [] →
      (Asm.num_type t = .NUM_DEC ↔
        (Asm.matchesDecimal t = true ∨ t = Asm.bytes "-" ∨ t = Asm.bytes "+")) ∧
      (Asm.num_type t = .NUM_HEX ↔
        (Asm.matchesHex t = true ∨ t = Asm.bytes "0x" ∨ t = Asm.bytes "-0x" ∨
          t = Asm.bytes "+0x"))) := by
  refine ⟨by decide, by decide, by decide, by decide, ?_⟩
  intro t ht
  rw [num_type_dec_iff, num_type_hex_iff]
  have hb : Asm.bytes "-" = [45] ∧ Asm.bytes "+" = [43] ∧ Asm.bytes "0x" = [48, 120] ∧
      Asm.bytes "-0x" = [45, 48, 120] ∧ Asm.bytes "+0x" = [43, 48, 120] := by decide
  obtain ⟨b1, b2, b3, b4, b5⟩ := hb
  rw [b1, b2, b3, b4, b5]
  cases t with
  | nil => exact absurd rfl ht
  | cons c rest =>
    by_cases h45 : c = 45
    · subst h45
      simp [Asm.skipSign]
    · by_cases h43 : c = 43
      · subst h43
        simp [Asm.skipSign]
      · simp [Asm.skipSign, h45, h43]

/-! ## C15: parsing numbers -/


theorem decimal_foldl_le (ds : List Nat) (val : Nat) :
    val ≤ ds.foldl (fun acc c => acc * 10 + (c - 48)) val := by
  induction ds generalizing val with
  | nil => exact Nat.le_refl _
  | cons c rest ih =>
    simp only [List.foldl_cons]
    exact Nat.le_trans (by omega) (ih (val * 10 + (c - 48)))

theorem hex_foldl_le (ds : List Nat) (val : Nat) :
    val ≤ ds.foldl (fun acc c => acc * 16 + Asm.decode_hex c) val := by
  induction ds generalizing val with
  | nil => exact Nat.le_refl _
  | cons c rest ih =>
    simp only [List.foldl_cons]
    exact Nat.le_trans (by omega) (ih (val * 16 + Asm.decode_hex c))

/-- The decimal loop on digits whose value with the accumulator stays below
`2^31` returns that value. -/
theorem parse_dec_loop_in_range (ds : List Nat) (val : Nat)
    (hd : ds.all Asm.isdigit = true)
    (hr : ds.foldl (fun acc c => acc * 10 + (c - 48)) val < 2147483648) :
    Asm.parse_dec_loop ds val = .ok (ds.foldl (fun acc c => acc * 10 + (c - 48)) val) := by
  induction ds generalizing val with
  | nil => rfl
  | cons c rest ih =>
    simp only [List.all_cons, Bool.and_eq_true] at hd
    obtain ⟨hc, hrest⟩ := hd
    simp only [Asm.isdigit, decide_eq_true_eq] at hc
    simp only [List.foldl_cons] at hr ⊢
    have hle := decimal_foldl_le rest (val * 10 + (c - 48))
    have hdig : ((Asm.charValue c - 48) % 4294967296).toNat = c - 48 := by
      have h1 : Asm.charValue c = (c : Int) := by
        simp only [Asm.charValue]
        rw [if_pos (by omega)]
      rw [h1]
      omega
    have hnext : (val * 10 + (c - 48)) % 4294967296 = val * 10 + (c - 48) :=
      Nat.mod_eq_of_lt (by omega)
    simp only [Asm.parse_dec_loop, hdig, hnext]
    rw [if_neg (by omega)]
    exact ih _ hrest hr

/-- The hexadecimal loop on digits whose value with the accumulator stays
below `2^31` returns that value. -/
theorem parse_hex_loop_in_range (ds : List Nat) (val : Nat)
    (hr : ds.foldl (fun acc c => acc * 16 + Asm.decode_hex c) val < 2147483648) :
    Asm.parse_hex_loop ds val =
      .ok (ds.foldl (fun acc c => acc * 16 + Asm.decode_hex c) val) := by
  induction ds generalizing val with
  | nil => rfl
  | cons c rest ih =>
    simp only [List.foldl_cons] at hr ⊢
    have hle := hex_foldl_le rest (val * 16 + Asm.decode_hex c)
    have hnext : (val * 16 + Asm.decode_hex c) % 4294967296 = val * 16 + Asm.decode_hex c :=
      Nat.mod_eq_of_lt (by omega)
    simp only [Asm.parse_hex_loop, hnext]
    rw [if_neg (by omega)]
    exact ih _ hr

/-- A string of decimal digits of value at most `2^31 - 1` is parsed to its
value. -/
theorem parse_num_digits (digits : List Nat) (hd : digits.all Asm.isdigit = true)
    (hr : Asm.decimalValue digits ≤ 2147483647) :
    Asm.parse_num digits .NUM_DEC = .ok (Asm.decimalValue digits) := by
  have hloop := parse_dec_loop_in_range digits 0 hd
    (by simp only [Asm.decimalValue] at hr; omega)
  have hhead : digits.head? ≠ some 43 ∧ digits.head? ≠ some 45 := by
    cases digits with
    | nil => simp
    | cons c rest =>
      simp only [List.all_cons, Bool.and_eq_true, Asm.isdigit, decide_eq_true_eq] at hd
      simp only [List.head?_cons, ne_eq, Option.some.injEq]
      omega
  simp [Asm.parse_num, hhead.1, hhead.2, hloop, Asm.decimalValue]

/-- C15. The code at the failing inputs: `5000000000` is classified as a
decimal number and parsed to 705032704, and `0x123456789` is parsed to
591751049, because the accumulator wraps modulo `2^32` to a value that is
neither below the previous one nor has its top bit set; `2147483648` is
rejected. Digit strings whose magnitude is at most `2^31 - 1` are parsed to
the magnitude with the sign of the literal. -/
theorem parse_num_wraps :
    (Asm.num_type (Asm.bytes "5000000000") = .NUM_DEC ∧
      Asm.parse_num (Asm.bytes "5000000000") .NUM_DEC = .ok 705032704) ∧
    (Asm.num_type (Asm.bytes "0x123456789") = .NUM_HEX ∧
      Asm.parse_num (Asm.bytes "0x123456789") .NUM_HEX = .ok 591751049) ∧
    Asm.parse_num (Asm.bytes "-5000000000") .NUM_DEC = .ok (-705032704) ∧
    Asm.parse_num (Asm.bytes "2147483648") .NUM_DEC = .error .fatal ∧
    Asm.parse_num (Asm.bytes "2147483647") .NUM_DEC = .ok 2147483647 ∧
    (∀ digits : List Nat, digits.all Asm.isdigit = true →
      Asm.decimalValue digits ≤ 2147483647 →
      Asm.parse_num digits .NUM_DEC = .ok (Asm.decimalValue digits) ∧
      Asm.parse_num (43 :: digits) .NUM_DEC = .ok (Asm.decimalValue digits) ∧
      Asm.parse_num (45 :: digits) .NUM_DEC = .ok (-(Asm.decimalValue digits : Int))) ∧
    (∀ digits : List Nat, Asm.hexValue digits ≤ 2147483647 →
      Asm.parse_num (48 :: 120 :: digits) .NUM_HEX = .ok (Asm.hexValue digits) ∧
      Asm.parse_num (43 :: 48 :: 120 :: digits) .NUM_HEX = .ok (Asm.hexValue digits) ∧
      Asm.parse_num (45 :: 48 :: 120 :: digits) .NUM_HEX =
        .ok (-(Asm.hexValue digits : Int))) := by
  refine ⟨by decide, by decide, by decide, by decide, by decide, ?_, ?_⟩
  · intro digits hd hr
    have hloop := parse_dec_loop_in_range digits 0 hd
      (by simp only [Asm.decimalValue] at hr; omega)
    refine ⟨parse_num_digits digits hd hr, ?_, ?_⟩
    · simp [Asm.parse_num, hloop, Asm.decimalValue]
    · simp [Asm.parse_num, hloop, Asm.decimalValue]
  · intro digits hr
    have hloop := parse_hex_loop_in_range digits 0
      (by simp only [Asm.hexValue] at hr; omega)
    refine ⟨?_, ?_, ?_⟩
    · simp [Asm.parse_num, hloop, Asm.hexValue]
    · simp [Asm.parse_num, hloop, Asm.hexValue]
    · simp [Asm.parse_num, hloop, Asm.hexValue]

/-! ## C16: the priority of the classification -/


/-- The names that `mnem_type` and `dir_type` compare with are in lower case. -/
theorem names_lower :
    (Asm.bytes "out").map Asm.tolower = Asm.bytes "out" ∧
    (Asm.bytes "in").map Asm.tolower = Asm.bytes "in" ∧
    (Asm.bytes "halt").map Asm.tolower = Asm.bytes "halt" ∧
    (Asm.bytes "die").map Asm.tolower = Asm.bytes "die" ∧
    (Asm.bytes "push").map Asm.tolower = Asm.bytes "push" ∧
    (Asm.bytes "pair").map Asm.tolower = Asm.bytes "pair" ∧
    (Asm.bytes "swap").map Asm.tolower = Asm.bytes "swap" ∧
    (Asm.bytes "assert_allocated").map Asm.tolower = Asm.bytes "assert_allocated" ∧
    (Asm.bytes "gc").map Asm.tolower = Asm.bytes "gc" ∧
    (Asm.bytes "print").map Asm.tolower = Asm.bytes "print" ∧
    (Asm.bytes "pop").map Asm.tolower = Asm.bytes "pop" ∧
    (Asm.bytes "repeat").map Asm.tolower = Asm.bytes "repeat" ∧
    (Asm.bytes "end").map Asm.tolower = Asm.bytes "end" := by
  decide

/-- The chain of comparisons of `mnem_type` finds the mnemonic of the name that
equals the text when case is ignored, in whichever order the names are
tried. -/
theorem mnem_type_eq_named (t : List Nat) :
    Asm.mnem_type t = (Asm.mnemonicNamed t).getD .MNEM_UNK ∧
      Asm.mnemonicNamed t ≠ some .MNEM_UNK := by
  obtain ⟨n1, n2, n3, n4, n5, n6, n7, n8, n9, n10, n11, _, _⟩ := names_lower
  unfold Asm.mnem_type Asm.mnemonicNamed Asm.mnemonicNames
  simp only [Asm.strcasecmp_eq, n1, n2, n3, n4, n5, n6, n7, n8, n9, n10, n11]
  generalize t.map Asm.tolower = l
  by_cases h1 : l = Asm.bytes "out"
  · subst h1; decide
  by_cases h2 : l = Asm.bytes "in"
  · subst h2; decide
  by_cases h3 : l = Asm.bytes "halt"
  · subst h3; decide
  by_cases h4 : l = Asm.bytes "die"
  · subst h4; decide
  by_cases h5 : l = Asm.bytes "push"
  · subst h5; decide
  by_cases h6 : l = Asm.bytes "pair"
  · subst h6; decide
  by_cases h7 : l = Asm.bytes "swap"
  · subst h7; decide
  by_cases h8 : l = Asm.bytes "assert_allocated"
  · subst h8; decide
  by_cases h9 : l = Asm.bytes "gc"
  · subst h9; decide
  by_cases h10 : l = Asm.bytes "print"
  · subst h10; decide
  by_cases h11 : l = Asm.bytes "pop"
  · subst h11; decide
  simp [h1, h2, h3, h4, h5, h6, h7, h8, h9, h10, h11, List.find?]

theorem dir_type_eq (s : List Nat) :
    Asm.dir_type s =
      if s.map Asm.tolower = Asm.bytes "repeat" then .DIRECTIVE_REPEAT
      else if s.map Asm.tolower = Asm.bytes "end" then .DIRECTIVE_END
      else .DIRECTIVE_UNK := by
  obtain ⟨_, _, _, _, _, _, _, _, _, _, _, n12, n13⟩ := names_lower
  simp only [Asm.dir_type, Asm.strcasecmp_eq, n12, n13, decide_eq_true_eq]

theorem identShape_eq (t : List Nat) : Asm.identShape t = Asm.matchesIdentifier t := by
  have h1 : ∀ c, (Asm.isalpha c || decide (c = 95)) =
      (Asm.inClass 65 90 c || Asm.inClass 97 122 c || decide (c = 95)) := by
    intro c
    simp [Asm.isalpha, Asm.inClass, Bool.decide_or]
  have h2 : (fun d => Asm.isalnum d || decide (d = 95)) =
      (fun d => Asm.inClass 65 90 d || Asm.inClass 97 122 d || Asm.inClass 48 57 d ||
        decide (d = 95)) := by
    funext d
    simp [Asm.isalnum, Asm.isalpha, Asm.isdigit, Asm.inClass, Bool.decide_or]
  cases t with
  | nil => rfl
  | cons c rest => simp only [Asm.identShape, Asm.matchesIdentifier, h1, h2]

/-- C16. The priority of the classification: for every token text, what
`identify` returns (with `TOK_UNK` counted as the fatal error that
`tokenize_line` makes of it) is the class that the rules give in their order:
directive, string, number, mnemonic, identifier, else fatal. A text that
equals a mnemonic name in any letter case is never an identifier. -/
theorem identify_priority (t : List Nat) (line col : Nat) :
    Asm.classOf (Asm.identify (some t) line col) = Asm.classifySpec t ∧
    (∀ m, Asm.mnemonicNamed t = some m →
      ∀ tok, Asm.identify (some t) line col = .ok tok → tok.type ≠ .TOK_IDENT) := by
  obtain ⟨hm1, hm2⟩ := mnem_type_eq_named t
  have key : Asm.classOf (Asm.identify (some t) line col) = Asm.classifySpec t := by
    unfold Asm.identify Asm.classifySpec
    simp only
    by_cases h37 : t.head? = some 37
    · simp only [h37, if_true, dir_type_eq]
      by_cases hr : t.tail.map Asm.tolower = Asm.bytes "repeat"
      · simp only [hr, if_true, reduceCtorEq, if_false, Asm.classOf, Asm.directiveToken]
      · by_cases he : t.tail.map Asm.tolower = Asm.bytes "end"
        · have hne : ¬ (Asm.bytes "end" = Asm.bytes "repeat") := by decide
          simp only [he, hne, if_true, reduceCtorEq, if_false, Asm.classOf, Asm.directiveToken]
        · simp only [hr, he, if_true, reduceCtorEq, if_false, Asm.classOf]
    · simp only [h37, if_false]
      by_cases h34 : t.head? = some 34
      · simp [h34, Asm.classOf, Asm.quotedToken]
      · simp only [h34, if_false]
        by_cases hn : Asm.num_type t = .NUM_UNK
        · simp only [hn, ne_eq, not_true_eq_false, if_false]
          rw [hm1]
          cases hnamed : Asm.mnemonicNamed t with
          | none =>
            simp only [Option.getD_none, ne_eq, not_true_eq_false, if_false, identShape_eq]
            by_cases hid : Asm.matchesIdentifier t = true
            · simp [hid, Asm.classOf, Asm.identToken]
            · simp [hid, Asm.classOf, Asm.unknownToken]
          | some m =>
            have hne : m ≠ .MNEM_UNK := fun e => hm2 (by rw [hnamed, e])
            simp [hne, Asm.classOf, Asm.mnemToken]
        · simp [hn, Asm.classOf, Asm.numberToken]
  refine ⟨key, ?_⟩
  intro m hnamed tok htok hty
  rw [htok] at key
  have hcls : Asm.classOf (.ok tok) = .identifier := by
    simp [Asm.classOf, hty]
  rw [hcls] at key
  unfold Asm.classifySpec at key
  simp only [hnamed] at key
  repeat' split at key
  all_goals cases key

/-! ## C17: tokenization -/
theorem takeWhile_append_stop {p : Nat → Bool} (t : List Nat) (w : Nat) (r : List Nat)
    (ht : ∀ c ∈ t, p c = true) (hw : p w = false) : (t ++ w :: r).takeWhile p = t := by
  induction t with
  | nil => simp [List.takeWhile_cons, hw]
  | cons c rest ih =>
    have hc := ht c (List.mem_cons_self _ _)
    simp [List.takeWhile_cons, hc, ih (fun d hd => ht d (List.mem_cons_of_mem _ hd))]

theorem takeWhile_all {p : Nat → Bool} (t : List Nat) (ht : ∀ c ∈ t, p c = true) :
    t.takeWhile p = t := by
  induction t with
  | nil => rfl
  | cons c rest ih =>
    have hc := ht c (List.mem_cons_self _ _)
    simp [List.takeWhile_cons, hc, ih (fun d hd => ht d (List.mem_cons_of_mem _ hd))]

theorem dropWhile_append_stop {p : Nat → Bool} (ws : List Nat) (c : Nat) (r : List Nat)
    (hws : ∀ d ∈ ws, p d = true) (hc : p c = false) : (ws ++ c :: r).dropWhile p = c :: r := by
  induction ws with
  | nil => simp [List.dropWhile_cons, hc]
  | cons d rest ih =>
    have hd := hws d (List.mem_cons_self _ _)
    simp [List.dropWhile_cons, hd, ih (fun e he => hws e (List.mem_cons_of_mem _ he))]

theorem drop_length_append (t x : List Nat) : (t ++ x).drop t.length = x := by
  induction t with
  | nil => rfl
  | cons c rest ih => simp

/-- A line that is token texts and white space between them starts with a byte
that is not white space. -/
theorem lexes_head {l : List Nat} {ts : List (List Nat)} (h : Asm.Lexes l ts) :
    ∃ c r, l = c :: r ∧ Asm.isspace c = false := by
  have key : ∀ t : List Nat, Asm.IsWord t ∨ Asm.IsQuoted t →
      ∃ c r, t = c :: r ∧ Asm.isspace c = false := by
    intro t ht
    rcases ht with ⟨hne, _, hns⟩ | ⟨body, rfl, _⟩
    · cases t with
      | nil => exact absurd rfl hne
      | cons c r => exact ⟨c, r, rfl, hns c (List.mem_cons_self _ _)⟩
    · exact ⟨34, body ++ [34], rfl, by decide⟩
  cases h with
  | last ht => exact key _ ht
  | more ht _ _ _ =>
    obtain ⟨c, r, rfl, hc⟩ := key _ ht
    exact ⟨c, _, rfl, hc⟩

theorem lexes_length {l : List Nat} {ts : List (List Nat)} (h : Asm.Lexes l ts) :
    ts.length ≤ l.length := by
  have key : ∀ t : List Nat, Asm.IsWord t ∨ Asm.IsQuoted t → 1 ≤ t.length := by
    intro t ht
    rcases ht with ⟨hne, _, _⟩ | ⟨body, rfl, _⟩
    · cases t with
      | nil => exact absurd rfl hne
      | cons c r => simp
    · simp
  induction h with
  | last ht => simpa using key _ ht
  | more ht _ _ _ ih =>
    have := key _ ht
    simp only [List.length_cons, List.length_append]
    omega

/-- The step of `lex_space` at a token text that white space follows: the
text is returned and the cursor stands behind the white space. -/
theorem lex_space_more (beyond : List Nat) {t : List Nat} (ht : Asm.IsWord t ∨ Asm.IsQuoted t)
    (w : Nat) (ws : List Nat) (hw : Asm.isspace w = true)
    (hws : ∀ c ∈ ws, Asm.isspace c = true) (c : Nat) (r : List Nat)
    (hc : Asm.isspace c = false) :
    Asm.lex_space beyond (.inside (t ++ (w :: (ws ++ c :: r)))) =
      .ok (some (t, .inside (c :: r))) := by
  have hskip : Asm.skip_inside (ws ++ c :: r) = .inside (c :: r) := by
    simp only [Asm.skip_inside, dropWhile_append_stop ws c r hws hc]
  rcases ht with ⟨hne, hq, hns⟩ | ⟨body, rfl, hbody⟩
  · cases t with
    | nil => exact absurd rfl hne
    | cons d t1 =>
      have hd : d ≠ 34 := fun e => hq (by rw [e]; rfl)
      have htk : (d :: (t1 ++ w :: (ws ++ c :: r))).takeWhile (fun x => !Asm.isspace x) =
          d :: t1 :=
        takeWhile_append_stop (d :: t1) w _ (fun x hx => by simp [hns x hx]) (by simp [hw])
      have hdrop : (d :: (t1 ++ w :: (ws ++ c :: r))).drop (d :: t1).length =
          w :: (ws ++ c :: r) := drop_length_append (d :: t1) _
      simp only [List.cons_append, Asm.lex_space, hd, if_false, htk, hdrop, hskip]
  · have htk : ((body ++ [34]) ++ (w :: (ws ++ c :: r))).takeWhile (fun x => decide (x ≠ 34)) =
        body := by
      rw [List.append_assoc]
      exact takeWhile_quote body _ hbody
    have hdrop : ((body ++ [34]) ++ (w :: (ws ++ c :: r))).drop body.length =
        34 :: w :: (ws ++ c :: r) := by
      rw [List.append_assoc]
      exact drop_length_append body _
    simp only [List.cons_append, Asm.lex_space, if_true, htk, hdrop, hskip]

/-- The step of `lex_space` at the last token text of the line, with a NUL
behind the buffer. -/
theorem lex_space_last (b : List Nat) {t : List Nat} (ht : Asm.IsWord t ∨ Asm.IsQuoted t) :
    Asm.lex_space (0 :: b) (.inside t) = .ok (some (t, .outside (0 :: b))) := by
  have hskip : Asm.skip_outside (0 :: b) = .ok (.outside (0 :: b)) := by
    simp [Asm.skip_outside]
  rcases ht with ⟨hne, hq, hns⟩ | ⟨body, rfl, hbody⟩
  · cases t with
    | nil => exact absurd rfl hne
    | cons d t1 =>
      have hd : d ≠ 34 := fun e => hq (by rw [e]; rfl)
      have htk : (d :: t1).takeWhile (fun x => !Asm.isspace x) = d :: t1 :=
        takeWhile_all (d :: t1) (fun x hx => by simp [hns x hx])
      have hdrop : (d :: t1).drop (d :: t1).length = [] := List.drop_length _
      simp only [Asm.lex_space, hd, if_false, htk, hdrop, hskip]
  · have htk : (body ++ [34]).takeWhile (fun x => decide (x ≠ 34)) = body :=
      takeWhile_quote body [] hbody
    have hdrop : (body ++ [34]).drop body.length = [34] := drop_length_append body _
    simp only [Asm.lex_space, if_true, htk, hdrop, hskip]

/-- The function `identify` gives the end-of-line type to the NULL text only. -/
theorem identify_some_not_eol {t : List Nat} {line col : Nat} {tok : Asm.Token}
    (h : Asm.identify (some t) line col = .ok tok) : tok.type ≠ .TOK_EOL := by
  unfold Asm.identify at h
  simp only at h
  repeat' split at h
  all_goals first
    | (cases h
       simp [Asm.directiveToken, Asm.quotedToken, Asm.numberToken, Asm.mnemToken,
         Asm.identToken, Asm.unknownToken])
    | cases h

theorem tokenize_loop_lexes (b : List Nat) (no : Nat) {l : List Nat} {ts : List (List Nat)}
    (h : Asm.Lexes l ts) :
    ∀ fuel, ts.length + 1 ≤ fuel →
      Asm.tokenize_loop (0 :: b) no fuel (.inside l) 0 =
        match Asm.identifyAll no ts with
        | .error e => .error e
        | .ok toks => .ok (toks ++ [Asm.eolToken no 0]) := by
  induction h with
  | @last t ht =>
    intro fuel hf
    obtain ⟨k, rfl⟩ : ∃ k, fuel = k + 2 :=
      ⟨fuel - 2, by simp only [List.length_cons, List.length_nil] at hf; omega⟩
    have hlex := lex_space_last b ht
    simp only [Asm.tokenize_loop, Asm.next_tok, hlex, Asm.identifyAll]
    cases hid : Asm.identify (some t) no 0 with
    | error e => rfl
    | ok tok =>
      have hneol := identify_some_not_eol hid
      by_cases hunk : tok.type = .TOK_UNK
      · simp [hunk]
      · simp [hunk, hneol, Asm.lex_space, Asm.identify, Asm.eolToken]
  | @more t ws rest ts1 ht hne hws hrest ih =>
    intro fuel hf
    obtain ⟨k, rfl⟩ : ∃ k, fuel = k + 1 :=
      ⟨fuel - 1, by simp only [List.length_cons] at hf; omega⟩
    obtain ⟨c, r, rfl, hc⟩ := lexes_head hrest
    cases ws with
    | nil => exact absurd rfl hne
    | cons w ws1 =>
      have hlex := lex_space_more (0 :: b) ht w ws1 (hws w (List.mem_cons_self _ _))
        (fun d hd => hws d (List.mem_cons_of_mem _ hd)) c r hc
      have hrec := ih k (by simp only [List.length_cons] at hf; omega)
      simp only [List.cons_append, Asm.tokenize_loop, Asm.next_tok, hlex, Asm.identifyAll]
      cases hid : Asm.identify (some t) no 0 with
      | error e => rfl
      | ok tok =>
        have hneol := identify_some_not_eol hid
        by_cases hunk : tok.type = .TOK_UNK
        · simp [hunk]
        · simp only [hunk, hneol, if_false, Nat.add_zero, hrec]
          cases Asm.identifyAll no ts1 with
          | error e => rfl
          | ok more => rfl

/-- A token text in double quotes becomes a string constant that starts behind
the opening quote, and `out_str` writes of it the bytes before the closing
quote, then a NUL. -/
theorem identify_quoted (body : List Nat) (hbody : 34 ∉ body) (line col : Nat) :
    Asm.identify (some (34 :: (body ++ [34]))) line col =
      .ok (Asm.stringToken body line col) ∧
    Asm.out_str (body ++ [34]) = body ++ [0] := by
  refine ⟨?_, out_str_quote body [] hbody⟩
  simp [Asm.identify, Asm.quotedToken, Asm.stringToken]

/-! ## C18: comments and blank lines -/
theorem takeWhile_append_of_exists {p : Nat → Bool} :
    ∀ (x y : List Nat), (∃ c ∈ x, p c = false) → (x ++ y).takeWhile p = x.takeWhile p := by
  intro x
  induction x with
  | nil => rintro y ⟨c, hc, _⟩; cases hc
  | cons a rest ih =>
    rintro y ⟨c, hc, hpc⟩
    by_cases ha : p a = true
    · have hrest : ∃ c ∈ rest, p c = false := by
        rcases List.mem_cons.mp hc with rfl | hin
        · rw [ha] at hpc; cases hpc
        · exact ⟨c, hin, hpc⟩
      simp [List.takeWhile_cons, ha, ih y hrest]
    · simp [List.takeWhile_cons, ha]

theorem takeWhile_length_le {p : Nat → Bool} (x : List Nat) :
    (x.takeWhile p).length ≤ x.length := by
  induction x with
  | nil => simp
  | cons a rest ih =>
    by_cases ha : p a = true
    · simp [List.takeWhile_cons, ha, ih]
    · simp [List.takeWhile_cons, ha]

theorem drop_takeWhile_length {p : Nat → Bool} (x : List Nat) :
    x.drop (x.takeWhile p).length = x.dropWhile p := by
  induction x with
  | nil => rfl
  | cons a rest ih =>
    by_cases ha : p a = true
    · simp [List.takeWhile_cons, List.dropWhile_cons, ha, ih]
    · simp [List.takeWhile_cons, List.dropWhile_cons, ha]

theorem dropWhile_head_false {p : Nat → Bool} :
    ∀ (l : List Nat) (c : Nat) (r : List Nat), l.dropWhile p = c :: r → p c = false := by
  intro l
  induction l with
  | nil => intro c r h; cases h
  | cons a rest ih =>
    intro c r h
    by_cases ha : p a = true
    · simp only [List.dropWhile_cons, ha, if_true] at h
      exact ih c r h
    · simp only [List.dropWhile_cons, ha] at h
      cases h
      simpa using ha

/-- The text that the trim-right loop of `trim_line` keeps: it is the start of
the line, and when it is not empty it ends in a byte that is not white
space. -/
theorem trim_right_kept (line : List Nat) :
    ∃ tail, line =
      ((line.takeWhile (fun c => decide (c ≠ 59))).reverse.dropWhile Asm.isspace).reverse ++ tail ∧
    (((line.takeWhile (fun c => decide (c ≠ 59))).reverse.dropWhile Asm.isspace).reverse ≠ [] →
      ∃ c ∈ ((line.takeWhile (fun c => decide (c ≠ 59))).reverse.dropWhile Asm.isspace).reverse,
        Asm.isspace c = false) := by
  generalize hpre : line.takeWhile (fun c => decide (c ≠ 59)) = pre
  have hline : line = pre ++ line.dropWhile (fun c => decide (c ≠ 59)) := by
    rw [← hpre, List.takeWhile_append_dropWhile]
  obtain ⟨s, hs⟩ : ∃ s, s ++ pre.reverse.dropWhile Asm.isspace = pre.reverse :=
    List.dropWhile_suffix Asm.isspace
  have hpre2 : pre = (pre.reverse.dropWhile Asm.isspace).reverse ++ s.reverse := by
    rw [← List.reverse_append, hs, List.reverse_reverse]
  refine ⟨s.reverse ++ line.dropWhile (fun c => decide (c ≠ 59)), ?_, ?_⟩
  · rw [← List.append_assoc, ← hpre2]
    exact hline
  · intro hne
    cases hk : pre.reverse.dropWhile Asm.isspace with
    | nil => rw [hk] at hne; exact absurd rfl hne
    | cons c r =>
      exact ⟨c, by simp, dropWhile_head_false _ c r hk⟩

/-- On a line that has a byte other than white space before its first `;`,
`trim_line` returns the text before that `;` without the white space at its
two ends. -/
theorem trim_line_text (before : Nat) (line : List Nat)
    (h : ∃ c ∈ line.takeWhile (fun c => decide (c ≠ 59)), Asm.isspace c = false) :
    Asm.trim_line before line =
      .ok (((line.takeWhile (fun c => decide (c ≠ 59))).reverse.dropWhile
        Asm.isspace).reverse.dropWhile Asm.isspace) := by
  obtain ⟨tail, hline, hex⟩ := trim_right_kept line
  have hne : ((line.takeWhile (fun c => decide (c ≠ 59))).reverse.dropWhile
      Asm.isspace).reverse ≠ [] := by
    intro hnil
    obtain ⟨c, hc, hsp⟩ := h
    have hrev : (line.takeWhile (fun c => decide (c ≠ 59))).reverse.dropWhile Asm.isspace = [] := by
      simpa using hnil
    rw [List.dropWhile_eq_nil_iff] at hrev
    have := hrev c (by simpa using hc)
    rw [hsp] at this
    cases this
  unfold Asm.trim_line
  simp only
  generalize hk : ((line.takeWhile (fun c => decide (c ≠ 59))).reverse.dropWhile
      Asm.isspace).reverse = kept at hline hex hne ⊢
  have hstart : (line.takeWhile Asm.isspace) = kept.takeWhile Asm.isspace := by
    conv_lhs => rw [hline]
    exact takeWhile_append_of_exists kept tail (hex hne)
  rw [if_neg (fun hc => hne hc.1), hstart, if_pos (takeWhile_length_le _),
    drop_takeWhile_length]

/-- On a line that is white space and then a comment, `trim_line` (with a NUL
in front of the line buffer) returns the comment with its `;`: the NUL that
ends the result is written at the start of the line, in front of the pointer
that is returned. -/
theorem trim_line_indented_comment (ws rest : List Nat) (hne : ws ≠ [])
    (hws : ∀ c ∈ ws, Asm.isspace c = true) :
    Asm.trim_line 0 (ws ++ 59 :: rest) = .ok (59 :: rest) := by
  have h59 : ∀ c ∈ ws, decide (c ≠ 59) = true := by
    intro c hc
    have := hws c hc
    simp only [Asm.isspace, decide_eq_true_eq] at this
    simp only [ne_eq, decide_eq_true_eq]
    omega
  have hpre : (ws ++ 59 :: rest).takeWhile (fun c => decide (c ≠ 59)) = ws :=
    takeWhile_append_stop ws 59 rest h59 (by simp)
  have hkept : (ws.reverse.dropWhile Asm.isspace).reverse = [] := by
    rw [List.reverse_eq_nil_iff, List.dropWhile_eq_nil_iff]
    intro c hc
    exact hws c (by simpa using hc)
  have hstart : (ws ++ 59 :: rest).takeWhile Asm.isspace = ws :=
    takeWhile_append_stop ws 59 rest hws (by decide)
  have hlen : ¬ ws.length ≤ 0 := by
    cases ws with
    | nil => exact absurd rfl hne
    | cons c r => simp
  unfold Asm.trim_line
  simp only [hpre, hkept, hstart, List.length_nil, hlen, if_false, drop_length_append,
    ne_eq, not_true_eq_false, false_and, and_false]

/-- C18. The code at the failing input: for the source line that is two
blanks, then `; c` and a newline, `trim_line` returns `; c` with the newline
and not the empty text, so the line is not skipped, and its tokenization is
fatal. The same holds for every comment line that starts with white space.
A comment line that starts with `;`, a blank line, and an instruction with
white space around it and a comment behind it are trimmed as the claim says:
on every line that has a byte other than white space before its first `;`,
the result is the text before that `;` without the white space at its two
ends. -/
theorem trim_line_cases :
    Asm.trim_line 0 (Asm.bytes "  ; c" ++ [10]) = .ok (Asm.bytes "; c" ++ [10]) ∧
    Asm.tokenize_line (Asm.bytes "; c" ++ [10]) 1 [0] = .error .fatal ∧
    (∀ ws rest : List Nat, ws ≠ [] → (∀ c ∈ ws, Asm.isspace c = true) →
      Asm.trim_line 0 (ws ++ 59 :: rest) = .ok (59 :: rest)) ∧
    Asm.trim_line 0 (Asm.bytes "; c" ++ [10]) = .ok [] ∧
    Asm.trim_line 0 (Asm.bytes "  " ++ [10]) = .ok [] ∧
    Asm.trim_line 0 (Asm.bytes "  push 1  ; c" ++ [10]) = .ok (Asm.bytes "push 1") ∧
    (∀ (before : Nat) (line : List Nat),
      (∃ c ∈ line.takeWhile (fun c => decide (c ≠ 59)), Asm.isspace c = false) →
      Asm.trim_line before line =
        .ok (((line.takeWhile (fun c => decide (c ≠ 59))).reverse.dropWhile
          Asm.isspace).reverse.dropWhile Asm.isspace)) :=
  ⟨by decide, by decide, trim_line_indented_comment, by decide, by decide, by decide,
    trim_line_text⟩

/-! ## C19: the acceptance of `parse` -/

/-- C19. The code at the failing input: the line `push 5000000000` is
tokenized to the mnemonic, a decimal number and the end of line, and `parse`
returns the `Op` of `push` with the number 705032704, though the literal is
out of range; this is the wrapped accumulator of `parse_num`. The line
`push 2147483648` is rejected, and so are a missing argument, a token too
many, an identifier that no scope binds and a constant of the wrong kind.
A line `push` with a string of decimal digits of value at most `2^31 - 1` is
parsed to the `Op` with that value. -/
theorem parse_out_of_range_literal :
    Asm.tokenize_line (Asm.bytes "push 5000000000") 1 [0] =
      .ok { tokens := [Asm.mnemToken (Asm.bytes "push") .MNEM_PUSH 1 0,
                       Asm.numberToken (Asm.bytes "5000000000") .NUM_DEC 1 0,
                       Asm.eolToken 1 0],
            line_no := 1 } ∧
    Asm.parse { tokens := [Asm.mnemToken (Asm.bytes "push") .MNEM_PUSH 1 0,
                           Asm.numberToken (Asm.bytes "5000000000") .NUM_DEC 1 0,
                           Asm.eolToken 1 0],
                line_no := 1 } [] =
      .ok { opcode := .MNEM_PUSH, str := [], num := 705032704 } ∧
    Asm.parse { tokens := [Asm.mnemToken (Asm.bytes "push") .MNEM_PUSH 1 0,
                           Asm.numberToken (Asm.bytes "2147483648") .NUM_DEC 1 0,
                           Asm.eolToken 1 0],
                line_no := 1 } [] = .error .fatal ∧
    Asm.parse { tokens := [Asm.mnemToken (Asm.bytes "push") .MNEM_PUSH 1 0,
                           Asm.numberToken (Asm.bytes "7") .NUM_DEC 1 0,
                           Asm.eolToken 1 0],
                line_no := 1 } [] = .ok { opcode := .MNEM_PUSH, str := [], num := 7 } ∧
    Asm.parse { tokens := [Asm.mnemToken (Asm.bytes "push") .MNEM_PUSH 1 0,
                           Asm.eolToken 1 0],
                line_no := 1 } [] = .error .fatal ∧
    Asm.parse { tokens := [Asm.mnemToken (Asm.bytes "halt") .MNEM_HALT 1 0,
                           Asm.numberToken (Asm.bytes "1") .NUM_DEC 1 0,
                           Asm.eolToken 1 0],
                line_no := 1 } [] = .error .fatal ∧
    Asm.parse (Asm.pushIdentLine (Asm.bytes "x") 1) [] = .error .fatal ∧
    Asm.parse { tokens := [Asm.mnemToken (Asm.bytes "push") .MNEM_PUSH 1 0,
                           Asm.stringToken (Asm.bytes "a") 1 0,
                           Asm.eolToken 1 0],
                line_no := 1 } [] = .error .fatal ∧
    (∀ (digits : List Nat) (line_no : Nat) (scope : List (List Asm.Binding)),
      digits.all Asm.isdigit = true → Asm.decimalValue digits ≤ 2147483647 →
      Asm.parse { tokens := [Asm.mnemToken (Asm.bytes "push") .MNEM_PUSH line_no 0,
                             Asm.numberToken digits .NUM_DEC line_no 0,
                             Asm.eolToken line_no 0],
                  line_no := line_no } scope =
        .ok { opcode := .MNEM_PUSH, str := [], num := (Asm.decimalValue digits : Int) }) := by
  refine ⟨by decide, by decide, by decide, by decide, by decide, by decide, by decide,
    by decide, ?_⟩
  intro digits line_no scope hd hr
  have hnum := parse_num_digits digits hd hr
  simp [Asm.parse, Asm.expect_tok, Asm.please_tok, Asm.mnemToken, Asm.numberToken,
    Asm.eolToken, Asm.specs, Asm.parse_args, Asm.opcode_insert, Asm.expect_constant_kind,
    Asm.expect_constant, Asm.resolve_constant, hnum, Asm.Constant.c_type]

/-! ## C20: identifier resolution -/

theorem scope_find_bindLoopVar (v : Option (List Nat)) (i : Nat) (x : List Nat) :
    Asm.scope_find (Asm.bindLoopVar [] v i) x =
      if v = some x then some (.num { value := (i : Int), type := .NUM_DEC }) else none := by
  cases v with
  | none => simp [Asm.bindLoopVar, Asm.scope_find]
  | some name =>
    by_cases hx : x = name
    · subst hx
      simp [Asm.bindLoopVar, Asm.set_constant, Asm.scope_find]
    · have hx2 : ¬ name = x := fun e => hx e.symm
      simp [Asm.bindLoopVar, Asm.set_constant, Asm.scope_find, hx, hx2]

/-- The walk of `find_constant` along the chain of the enclosing scopes stops
at the innermost one that declares the name. -/
theorem find_constant_loopChain (encl : List (Option (List Nat) × Nat)) (x : List Nat) :
    Asm.find_constant (Asm.loopChain encl) x =
      (Asm.innermostIndex encl x).map
        (fun (i : Nat) => Asm.Constant.num { value := (i : Int), type := .NUM_DEC }) := by
  induction encl with
  | nil => rfl
  | cons e rest ih =>
    obtain ⟨v, i⟩ := e
    simp only [Asm.loopChain, List.map_cons, Asm.find_constant, scope_find_bindLoopVar,
      Asm.innermostIndex]
    by_cases hv : v = some x
    · simp [hv]
    · simp only [hv, if_false]
      exact ih

/-- C20. Identifier resolution on the chain of scopes that a line sees during
emission (for each enclosing scope, innermost first, its loop variable at the
current index): the name `x` resolves to the index of the innermost enclosing
repeat whose variable is `x`, and to nothing when no enclosing repeat declares
it; the lookup returns within its depth bound. So `push x` becomes the `Op`
with that index, and is fatal without a declaration. The programs of the
claim: two nested repeats of 2 with variables `i` and `j` around `push i` emit
PUSH 0, 0, 1, 1; with both variables named `i` they emit PUSH 0, 1, 0, 1;
`push x` at top level is fatal. -/
theorem identifier_resolution :
    (∀ (encl : List (Option (List Nat) × Nat)) (x : List Nat),
      Asm.resolve_const (Asm.resolveFuel (Asm.loopChain encl)) (Asm.loopChain encl) x =
        .ok ((Asm.innermostIndex encl x).map
          (fun (i : Nat) => Asm.Constant.num { value := (i : Int), type := .NUM_DEC })) ∧
      ∀ line_no : Nat, Asm.parse (Asm.pushIdentLine x line_no) (Asm.loopChain encl) =
        match Asm.innermostIndex encl x with
        | some i => .ok { opcode := .MNEM_PUSH, str := [], num := (i : Int) }
        | none => .error .fatal) ∧
    Asm.flatten_scope [] Asm.nestedIJProgram =
      .ok (Asm.push 0 ++ Asm.push 0 ++ Asm.push 1 ++ Asm.push 1) ∧
    Asm.flatten_scope [] Asm.nestedIIProgram =
      .ok (Asm.push 0 ++ Asm.push 1 ++ Asm.push 0 ++ Asm.push 1) ∧
    Asm.flatten_scope [] Asm.pushXProgram = .error .fatal := by
  refine ⟨?_, by decide, by decide, by decide⟩
  intro encl x
  have hres : Asm.resolve_const (Asm.resolveFuel (Asm.loopChain encl)) (Asm.loopChain encl) x =
      .ok ((Asm.innermostIndex encl x).map
        (fun (i : Nat) => Asm.Constant.num { value := (i : Int), type := .NUM_DEC })) := by
    simp only [Asm.resolveFuel, Asm.resolve_const, find_constant_loopChain]
    cases Asm.innermostIndex encl x with
    | none => rfl
    | some i => rfl
  refine ⟨hres, ?_⟩
  intro line_no
  cases hidx : Asm.innermostIndex encl x with
  | none =>
    rw [hidx] at hres
    simp [Asm.parse, Asm.expect_tok, Asm.please_tok, Asm.pushIdentLine, Asm.mnemToken,
      Asm.identToken, Asm.eolToken, Asm.specs, Asm.parse_args, Asm.opcode_insert,
      Asm.expect_constant_kind, Asm.expect_constant, Asm.resolve_constant, hres]
  | some i =>
    rw [hidx] at hres
    simp [Asm.parse, Asm.expect_tok, Asm.please_tok, Asm.pushIdentLine, Asm.mnemToken,
      Asm.identToken, Asm.eolToken, Asm.specs, Asm.parse_args, Asm.opcode_insert,
      Asm.expect_constant_kind, Asm.expect_constant, Asm.resolve_constant, hres,
      Asm.Constant.c_type]


/-! ## C24: no dangling pair fields -/

/-- C24. In every state reached from `newVM` by instructions that returned,
head and tail of every pair of the all-objects chain are addresses of objects
of the chain; a collection in such a state returns and leaves a chain with the
same property, so it frees no object that a surviving pair references. -/
theorem no_dangling_pair_fields (malloc : List Ref → Ref) (hm : FreshAlloc malloc)
    (m : Machine) (h : Reachable malloc m) :
    (∀ o ∈ m.vm.first, o.type = .OBJ_PAIR →
      o.head ∈ addrs m.vm.first ∧ o.tail ∈ addrs m.vm.first) ∧
    ∃ vm1, gc m.vm = some vm1 ∧
      ∀ o ∈ vm1.first, o.type = .OBJ_PAIR →
        o.head ∈ addrs vm1.first ∧ o.tail ∈ addrs vm1.first := by
  have hinv := reachable_inv hm h
  obtain ⟨vm1, hgc, hinv1, _⟩ := gc_inv hinv
  exact ⟨ordered_closed hinv.ordered, vm1, hgc, ordered_closed hinv1.ordered⟩

/-- C24, witness: the state after `PUSH 72; PUSH 105; PAIR` is reachable; its
pair has head 1 and tail 2, both in the chain. -/
theorem no_dangling_pair_fields_witness :
    FreshAlloc bumpAlloc ∧ Reachable bumpAlloc onePairMachine ∧
    ((∀ o ∈ onePairMachine.vm.first, o.type = .OBJ_PAIR →
      o.head ∈ addrs onePairMachine.vm.first ∧ o.tail ∈ addrs onePairMachine.vm.first) ∧
    ∃ vm1, gc onePairMachine.vm = some vm1 ∧
      ∀ o ∈ vm1.first, o.type = .OBJ_PAIR →
        o.head ∈ addrs vm1.first ∧ o.tail ∈ addrs vm1.first) :=
  ⟨bumpAlloc_fresh, onePairMachine_reachable,
    no_dangling_pair_fields bumpAlloc bumpAlloc_fresh onePairMachine onePairMachine_reachable⟩

/-! ## C25: cycles -/

/-- On a chain with clear mark bits and no dangling pair field, `mark` returns
within the call depth the embedding allows, whatever the pair graph. -/
theorem mark_returns (objs : List Object) (hclear : AllClear objs) (hclosed : Closed objs)
    (r : Ref) (hr : r ∈ addrs objs) : ∃ objs1, mark (callDepth objs) objs r = some objs1 := by
  have hfuel : unvisited objs [] < callDepth objs := by
    have := unvisited_le_length objs []
    unfold callDepth
    omega
  obtain ⟨T, hT, _⟩ := mark_withMarks objs hclosed (callDepth objs) [] r hr hfuel
  rw [withMarks_nil_of_clear hclear] at hT
  exact ⟨_, hT⟩

theorem not_mem_addrs_filter {objs : List Object} {T : List Ref} {a : Ref} (ha : a ∉ T) :
    a ∉ addrs (objs.filter (fun o => decide (o.addr ∈ T))) := by
  intro hmem
  obtain ⟨o, ho, rfl⟩ := mem_addrs_iff.mp hmem
  have := (List.mem_filter.mp ho).2
  simp only [decide_eq_true_eq] at this
  exact ha this

/-- C25. On every heap with clear mark bits and no dangling reference, the pair
graph being arbitrary (cycles included), `mark` returns from every object and
`gc` returns. If two pairs `a` and `b` with `a.tail = b` and `b.tail = a` are
both unreachable from the stack, neither is in the chain afterwards; with an
empty stack the chain is empty afterwards and `num_objects`, if it was the
length of the chain, is 0. -/
theorem gc_tolerates_cycles (vm : VM) (hclear : AllClear vm.first)
    (hclosed : Closed vm.first) (hroots : RootsLive vm) :
    (∀ r ∈ addrs vm.first, ∃ objs1, mark (callDepth vm.first) vm.first r = some objs1) ∧
    ∃ vm1, gc vm = some vm1 ∧
      (∀ a b oa ob, deref vm.first a = some oa → deref vm.first b = some ob →
        oa.type = .OBJ_PAIR → ob.type = .OBJ_PAIR → oa.tail = b → ob.tail = a →
        ¬ FromStack vm a → ¬ FromStack vm b →
        a ∉ addrs vm1.first ∧ b ∉ addrs vm1.first) ∧
      (vm.stack = [] → vm.num_objects = (vm.first.length : Int) →
        vm1.first = [] ∧ vm1.num_objects = 0) := by
  refine ⟨fun r hr => mark_returns vm.first hclear hclosed r hr, ?_⟩
  obtain ⟨T, hT, hgc⟩ := gc_spec vm hclear hclosed hroots
  refine ⟨_, hgc, ?_, ?_⟩
  · intro a b _ _ _ _ _ _ _ _ hna hnb
    exact ⟨not_mem_addrs_filter (fun h => hna ((hT a).mp h)),
      not_mem_addrs_filter (fun h => hnb ((hT b).mp h))⟩
  · intro hs hcount
    have hempty : ∀ a, a ∉ T := by
      intro a ha
      obtain ⟨r, hr, _⟩ := (hT a).mp ha
      rw [hs] at hr
      cases hr
    have hfil : vm.first.filter (fun o => decide (o.addr ∈ T)) = [] := by
      rw [List.filter_eq_nil_iff]
      intro o _
      simp [hempty o.addr]
    have hlen := length_filter_add_unvisited vm.first T
    rw [hfil] at hlen
    simp only [List.length_nil, Nat.zero_add] at hlen
    refine ⟨hfil, ?_⟩
    simp only
    rw [hcount, hlen]
    omega

/-- C25, witness: the heap of `test4` with an empty stack satisfies the
hypotheses; the collection returns and leaves no object. The heap of `test4`
itself, with the two pairs of the cycle on the stack, keeps 4 objects. -/
theorem gc_tolerates_cycles_witness :
    ((∀ r ∈ addrs test4Dropped.first,
        ∃ objs1, mark (callDepth test4Dropped.first) test4Dropped.first r = some objs1) ∧
      ∃ vm1, gc test4Dropped = some vm1 ∧
        (∀ a b oa ob, deref test4Dropped.first a = some oa →
          deref test4Dropped.first b = some ob →
          oa.type = .OBJ_PAIR → ob.type = .OBJ_PAIR → oa.tail = b → ob.tail = a →
          ¬ FromStack test4Dropped a → ¬ FromStack test4Dropped b →
          a ∉ addrs vm1.first ∧ b ∉ addrs vm1.first) ∧
        (test4Dropped.stack = [] →
          test4Dropped.num_objects = (test4Dropped.first.length : Int) →
          vm1.first = [] ∧ vm1.num_objects = 0)) ∧
    (gc test4Dropped).map (fun vm => (vm.first, vm.num_objects)) = some ([], 0) ∧
    (gc test4VM).map (fun vm => addrs vm.first) = some [6, 4, 3, 1] :=
  ⟨gc_tolerates_cycles test4Dropped (by decide) (by decide) (by decide), by decide, by decide⟩

/-! ## C27: tear-down -/

/-- C27. In every state reached from `newVM` by instructions that returned,
the collection that `freeVM` runs on the emptied stack returns and removes
every object: the all-objects chain is empty and `num_objects` is 0 when the
VM structure is released. -/
theorem freeVM_frees_everything (malloc : List Ref → Ref) (hm : FreshAlloc malloc)
    (m : Machine) (h : Reachable malloc m) :
    ∃ vm1, freeVM m.vm = some vm1 ∧ vm1.first = [] ∧ vm1.num_objects = 0 ∧
      vm1.stack = [] := by
  have hinv := reachable_inv hm h
  obtain ⟨T, hT, hgc⟩ := gc_spec { m.vm with stack := [] } hinv.clear
    (ordered_closed hinv.ordered) (fun r hr => by cases hr)
  have hempty : ∀ a, a ∉ T := by
    intro a ha
    obtain ⟨r, hr, _⟩ := (hT a).mp ha
    cases hr
  have hfil : m.vm.first.filter (fun o => decide (o.addr ∈ T)) = [] := by
    rw [List.filter_eq_nil_iff]
    intro o _
    simp [hempty o.addr]
  have hlen := length_filter_add_unvisited m.vm.first T
  rw [hfil] at hlen
  simp only [List.length_nil, Nat.zero_add] at hlen
  refine ⟨_, hgc, hfil, ?_, rfl⟩
  simp only
  rw [hinv.count, hlen]
  omega

/-- C27, witness: tear-down of the reachable state after
`PUSH 72; PUSH 105; PAIR`, which holds three objects. -/
theorem freeVM_frees_everything_witness :
    FreshAlloc bumpAlloc ∧ Reachable bumpAlloc onePairMachine ∧
    (∃ vm1, freeVM onePairMachine.vm = some vm1 ∧ vm1.first = [] ∧ vm1.num_objects = 0 ∧
      vm1.stack = []) ∧
    onePairMachine.vm.first.length = 3 :=
  ⟨bumpAlloc_fresh, onePairMachine_reachable,
    freeVM_frees_everything bumpAlloc bumpAlloc_fresh onePairMachine onePairMachine_reachable,
    rfl⟩


/-! ## C29: the allocation policy -/

theorem gc_threshold {vm vmg : VM} (h : gc vm = some vmg) :
    vmg.max_objects = vmg.num_objects * 2 := by
  unfold gc at h
  split at h
  · cases h
  · cases h; rfl

set_option maxRecDepth 100000 in
/-- On a fresh VM one hundred allocations run no collection: the hundred
objects, each unreachable, are all still in the chain and the threshold is
still 100. The 101st allocation collects first: the hundred are gone. -/
theorem fresh_vm_allocations :
    (interpretAll bumpAlloc startMachine hundredAllocations).map
      (fun m => (m.vm.first.length, m.vm.num_objects, m.vm.max_objects, m.vm.stack)) =
        .ok (100, 100, 100, []) ∧
    (interpretAll bumpAlloc startMachine (hundredAllocations ++ [.I_PSH_I32 7])).map
      (fun m => (m.vm.first.length, m.vm.num_objects, m.vm.max_objects, m.vm.stack)) =
        .ok (1, 1, 0, [1]) := by
  decide

/-- C29. The allocation policy of `newObject`, on every state. When
`num_objects` differs from `max_objects` no collection runs: the new object,
with a clear mark bit, is prepended to the chain as it was, `num_objects` is
one more and the threshold is unchanged. When they are equal the collection
runs first, and the object is prepended to the chain the collection left, with
`num_objects` one more than the count after the collection. A collection sets
the threshold to twice the count it leaves, and in a state that satisfies the
invariant of the VM it returns and that count is the number of survivors. On a
fresh VM, with threshold 100, the first 100 allocations run no collection and
the 101st does. -/
theorem newObject_policy (malloc : List Ref → Ref) (vm : VM) (type : ObjType) :
    (vm.num_objects ≠ vm.max_objects →
      newObject malloc vm type =
        some ({ vm with
                  first := { addr := malloc (addrs vm.first), type := type, is_marked := false,
                             value := 0, head := 0, tail := 0 } :: vm.first,
                  num_objects := vm.num_objects + 1 }, malloc (addrs vm.first))) ∧
    (vm.num_objects = vm.max_objects →
      newObject malloc vm type =
        (gc vm).map (fun vmg =>
          ({ vmg with
               first := { addr := malloc (addrs vmg.first), type := type, is_marked := false,
                          value := 0, head := 0, tail := 0 } :: vmg.first,
               num_objects := vmg.num_objects + 1 }, malloc (addrs vmg.first)))) ∧
    (∀ vmg, gc vm = some vmg → vmg.max_objects = vmg.num_objects * 2) ∧
    (Inv vm → ∃ vmg, gc vm = some vmg ∧ vmg.num_objects = (vmg.first.length : Int) ∧
      vmg.first.Sublist vm.first) ∧
    newVM.max_objects = 100 ∧
    (interpretAll bumpAlloc startMachine hundredAllocations).map
      (fun m => (m.vm.first.length, m.vm.num_objects, m.vm.max_objects, m.vm.stack)) =
        .ok (100, 100, 100, []) ∧
    (interpretAll bumpAlloc startMachine (hundredAllocations ++ [.I_PSH_I32 7])).map
      (fun m => (m.vm.first.length, m.vm.num_objects, m.vm.max_objects, m.vm.stack)) =
        .ok (1, 1, 0, [1]) := by
  refine ⟨?_, ?_, fun vmg h => gc_threshold h, ?_, rfl, fresh_vm_allocations.1,
    fresh_vm_allocations.2⟩
  · intro hne
    rw [newObject_eq]
    simp [afterTrigger, hne, addrs]
  · intro heq
    rw [newObject_eq]
    simp only [afterTrigger, heq, if_true, addrs]
  · intro hinv
    obtain ⟨vmg, hgc, hinv1, _, _, hsub, _⟩ := gc_inv hinv
    exact ⟨vmg, hgc, hinv1.count, hsub⟩


/-! ## C30: token columns -/

theorem identify_col {src : Option (List Nat)} {line col : Nat} {tok : Asm.Token}
    (h : Asm.identify src line col = .ok tok) : tok.col = col := by
  unfold Asm.identify at h
  cases src with
  | none =>
    simp only at h
    cases h
    rfl
  | some s =>
    simp only at h
    repeat' split at h
    all_goals first
      | (cases h
         simp [Asm.directiveToken, Asm.quotedToken, Asm.numberToken, Asm.mnemToken,
           Asm.identToken, Asm.unknownToken])
      | cases h

theorem next_tok_zero {beyond : List Nat} {cur cur1 : Asm.Cursor} {lexed : Nat}
    {src : Option (List Nat)} (h : Asm.next_tok beyond cur = .ok (lexed, src, cur1)) :
    lexed = 0 := by
  unfold Asm.next_tok at h
  repeat' split at h
  all_goals first
    | (cases h; rfl)
    | cases h

/-- The column that `tokenize_line` starts with is the column of every token:
`next_tok` returns the difference of the start of the token and the place
where the lexer stood, which is 0. -/
theorem tokenize_loop_col (beyond : List Nat) (line_no : Nat) :
    ∀ (fuel : Nat) (cur : Asm.Cursor) (col : Nat) (tokens : List Asm.Token),
      Asm.tokenize_loop beyond line_no fuel cur col = .ok tokens →
      ∀ tok ∈ tokens, tok.col = col := by
  intro fuel
  induction fuel with
  | zero => intro cur col tokens h; simp [Asm.tokenize_loop] at h
  | succ n ih =>
    intro cur col tokens h
    unfold Asm.tokenize_loop at h
    split at h
    · cases h
    · rename_i lexed src cur1 hnext
      have hz := next_tok_zero hnext
      subst hz
      split at h
      · cases h
      · rename_i current hid
        have hcol := identify_col hid
        split at h
        · cases h
        · split at h
          · cases h
            intro tok htok
            rcases List.mem_singleton.mp htok with rfl
            exact hcol
          · split at h
            · cases h
            · rename_i more hmore
              cases h
              intro tok htok
              rcases List.mem_cons.mp htok with rfl | hin
              · exact hcol
              · exact ih cur1 (col + 0) more hmore tok hin

/-- C30. The code at the failing input: for the line `push 1` the token `1`,
whose first character stands at offset 5, is recorded at column 0, and for
`assert_allocated 3 "a b"` every token is recorded at column 0. In general
every token that `tokenize_line` returns has column 0: the count that
`next_tok` adds to the column is the distance from the place where the lexer
stood to the start of the token, not to its end. -/
theorem token_columns_all_zero :
    (Asm.tokenize_line (Asm.bytes "push 1") 1 [0]).map
      (fun l => l.tokens.map (fun tok => (tok.src, tok.col))) =
        .ok [(Asm.bytes "push", 0), (Asm.bytes "1", 0), ([], 0)] ∧
    (Asm.tokenize_line (Asm.bytes "assert_allocated 3 " ++ 34 :: (Asm.bytes "a b" ++ [34])) 1
      [0]).map (fun l => l.tokens.map Asm.Token.col) = .ok [0, 0, 0, 0] ∧
    (∀ (line_ : List Nat) (line_no : Nat) (beyond : List Nat) (l : Asm.TokLine),
      Asm.tokenize_line line_ line_no beyond = .ok l → ∀ tok ∈ l.tokens, tok.col = 0) := by
  refine ⟨by decide, by decide, ?_⟩
  intro line_ line_no beyond l h
  unfold Asm.tokenize_line at h
  split at h
  · cases h
  · rename_i tokens hloop
    cases h
    exact tokenize_loop_col beyond line_no _ _ 0 tokens hloop


/-! ## C21: the arguments of `%repeat` -/

theorem parse_dec_loop_error : ∀ (ds : List Nat) (val : Nat) (e : Failure),
    Asm.parse_dec_loop ds val = .error e → e = .fatal := by
  intro ds
  induction ds with
  | nil => intro val e h; simp [Asm.parse_dec_loop] at h
  | cons c rest ih =>
    intro val e h
    simp only [Asm.parse_dec_loop] at h
    split at h
    · cases h; rfl
    · exact ih _ e h

theorem parse_hex_loop_error : ∀ (ds : List Nat) (val : Nat) (e : Failure),
    Asm.parse_hex_loop ds val = .error e → e = .fatal := by
  intro ds
  induction ds with
  | nil => intro val e h; simp [Asm.parse_hex_loop] at h
  | cons c rest ih =>
    intro val e h
    simp only [Asm.parse_hex_loop] at h
    split at h
    · cases h; rfl
    · exact ih _ e h

/-- The only failure of `parse_num` is the fatal overflow assertion. -/
theorem parse_num_error {src : List Nat} {t : Asm.NType} {e : Failure}
    (h : Asm.parse_num src t = .error e) : e = .fatal := by
  unfold Asm.parse_num at h
  simp only at h
  split at h
  · split at h
    · rename_i e1 hloop
      cases h
      exact parse_dec_loop_error _ _ _ hloop
    · cases h
  · split at h
    · rename_i e1 hloop
      cases h
      exact parse_hex_loop_error _ _ _ hloop
    · cases h

/-- While the lines are read no scope has a binding, and no name is found. -/
theorem find_constant_unbound : ∀ (s : List (List Asm.Binding)), (∀ bs ∈ s, bs = []) →
    ∀ name, Asm.find_constant s name = none := by
  intro s
  induction s with
  | nil => intro _ name; rfl
  | cons bs rest ih =>
    intro hs name
    have hbs : bs = [] := hs bs (List.mem_cons_self _ _)
    subst hbs
    simp only [Asm.find_constant, Asm.scope_find]
    exact ih (fun b hb => hs b (List.mem_cons_of_mem _ hb)) name

theorem resolve_const_unbound (s : List (List Asm.Binding)) (hs : ∀ bs ∈ s, bs = [])
    (name : List Nat) : Asm.resolve_const (Asm.resolveFuel s) s name = .ok none := by
  simp only [Asm.resolveFuel, Asm.resolve_const, find_constant_unbound s hs name]

/-- The count that `expect_number` reads from a token while no scope has a
binding: the parsed value of a number token; every other token is fatal. -/
theorem expect_number_at (l : Asm.TokLine) (i : Nat) (tok : Asm.Token)
    (hget : l.tokens.get? i = some tok) (s : List (List Asm.Binding))
    (hs : ∀ bs ∈ s, bs = []) :
    Asm.expect_number l i s =
      if tok.type = .TOK_CTANT then
        match tok.constant with
        | .num num =>
          match Asm.parse_num tok.src num.type with
          | .ok v => .ok v
          | .error _ => .error .fatal
        | _ => .error .fatal
      else .error .fatal := by
  have hres := resolve_const_unbound s hs tok.src
  have hget1 : l.tokens[i]? = some tok := by simpa using hget
  by_cases hty : tok.type = .TOK_CTANT
  · simp only [Asm.expect_number, Asm.expect_constant_kind, Asm.expect_constant,
      Asm.please_tok, hget, hty, if_true, Asm.resolve_constant]
    cases hc : tok.constant with
    | num num =>
      simp only
      cases hp : Asm.parse_num tok.src num.type with
      | error e =>
        have := parse_num_error hp
        subst this
        rfl
      | ok v => simp [Asm.Constant.c_type]
    | str str => simp [Asm.Constant.c_type]
    | ident x => simp [hres]
  · by_cases hid : tok.type = .TOK_IDENT
    · simp [Asm.expect_number, Asm.expect_constant_kind, Asm.expect_constant,
        Asm.please_tok, hget1, hid, Asm.resolve_constant, hres]
    · simp [Asm.expect_number, Asm.expect_constant_kind, Asm.expect_constant,
        Asm.please_tok, hget1, hty, hid]

/-- The tokens that `tokenize_line` returns: the last has the end-of-line
type and no other has it. -/
theorem tokenize_loop_shape (beyond : List Nat) (line_no : Nat) :
    ∀ (fuel : Nat) (cur : Asm.Cursor) (col : Nat) (tokens : List Asm.Token),
      Asm.tokenize_loop beyond line_no fuel cur col = .ok tokens →
      ∃ toks eol, tokens = toks ++ [eol] ∧ eol.type = .TOK_EOL ∧
        ∀ t ∈ toks, t.type ≠ .TOK_EOL := by
  intro fuel
  induction fuel with
  | zero => intro cur col tokens h; simp [Asm.tokenize_loop] at h
  | succ n ih =>
    intro cur col tokens h
    unfold Asm.tokenize_loop at h
    split at h
    · cases h
    · rename_i lexed src cur1 hnext
      split at h
      · cases h
      · rename_i current hid
        split at h
        · cases h
        · split at h
          · rename_i heol
            cases h
            exact ⟨[], current, rfl, heol, fun t ht => by cases ht⟩
          · rename_i hne
            split at h
            · cases h
            · rename_i more hmore
              cases h
              obtain ⟨toks, eol, rfl, heol, hall⟩ := ih cur1 _ more hmore
              refine ⟨current :: toks, eol, rfl, heol, ?_⟩
              intro t ht
              rcases List.mem_cons.mp ht with rfl | hin
              · exact hne
              · exact hall t hin

theorem tokenize_line_shape {line_ : List Nat} {line_no : Nat} {beyond : List Nat}
    {l : Asm.TokLine} (h : Asm.tokenize_line line_ line_no beyond = .ok l) :
    l.line_no = line_no ∧ ∃ toks eol, l.tokens = toks ++ [eol] ∧ eol.type = .TOK_EOL ∧
      ∀ t ∈ toks, t.type ≠ .TOK_EOL := by
  unfold Asm.tokenize_line at h
  split at h
  · cases h
  · rename_i tokens hloop
    cases h
    exact ⟨rfl, tokenize_loop_shape beyond line_no _ _ 0 tokens hloop⟩

/-- The code of a line whose first token is the directive `%repeat`. -/
theorem get_code_repeat (l : Asm.TokLine) (first : Asm.Token) (rest : List Asm.Token)
    (hl : l.tokens = first :: rest) (hfirst : first.type = .TOK_DIRECTIVE)
    (hdir : first.directive = .DIRECTIVE_REPEAT) (s : List (List Asm.Binding)) :
    Asm.get_code l s = Asm.parse_repeat l s := by
  simp [Asm.get_code, Asm.please_tok, hl, hfirst, hdir, Asm.parse_directive]

/-- The code of a `%repeat` line that `tokenize_line` returned, read while no
scope has a binding. With the arguments the specification allows it begins the
repeat scope. With any other arguments it is fatal, but for one case: a count
that is a number not below 0, an identifier, and at least one more token in
front of the end of line; then it begins the repeat scope with that count and
that loop variable, and the tokens behind the identifier are not looked at. -/
theorem get_code_repeat_cases {line_ : List Nat} {line_no : Nat} {beyond : List Nat}
    {l : Asm.TokLine} (htok : Asm.tokenize_line line_ line_no beyond = .ok l)
    {first : Asm.Token} {rest : List Asm.Token} (hl : l.tokens = first :: rest)
    (hfirst : first.type = .TOK_DIRECTIVE) (hdir : first.directive = .DIRECTIVE_REPEAT)
    (s : List (List Asm.Binding)) (hs : ∀ bs ∈ s, bs = []) :
    (∀ n var, Asm.RepeatArgs rest n var →
      Asm.get_code l s =
        .ok (.IM_BEGIN_SCOPE (.mk .SCOPE_REPEAT line_no [] [] n.toNat var))) ∧
    ((¬ ∃ n var, Asm.RepeatArgs rest n var) →
      Asm.get_code l s = .error .fatal ∨
      ∃ (count : Asm.Token) (num : Asm.Number) (n : Int) (name extra : Asm.Token)
          (more : List Asm.Token),
        rest = count :: name :: extra :: more ∧ count.type = .TOK_CTANT ∧
        count.constant = .num num ∧ Asm.parse_num count.src num.type = .ok n ∧ 0 ≤ n ∧
        name.type = .TOK_IDENT ∧ extra.type ≠ .TOK_EOL ∧
        Asm.get_code l s =
          .ok (.IM_BEGIN_SCOPE (.mk .SCOPE_REPEAT line_no [] [] n.toNat (some name.src)))) := by
  obtain ⟨hno, toks, eol, hshape, heol, hall⟩ := tokenize_line_shape htok
  rw [get_code_repeat l first rest hl hfirst hdir s]
  refine ⟨?_, ?_⟩
  · rintro n var ⟨count, num, eol1, hcty, hcc, hparse, hn, heol1, hrest⟩
    have hn' : ¬ n < 0 := by omega
    rcases hrest with ⟨rfl, rfl⟩ | ⟨name, hname, rfl, rfl⟩
    · have hnum := expect_number_at l 1 count (by simp [hl]) s hs
      simp only [hcty, if_true, hcc, hparse] at hnum
      simp [Asm.parse_repeat, hnum, hn', hl, hno]
    · have hnum := expect_number_at l 1 count (by simp [hl]) s hs
      simp only [hcty, if_true, hcc, hparse] at hnum
      simp [Asm.parse_repeat, hnum, hn', hl, Asm.expect_tok, Asm.please_tok, hname, hno]
  · intro hnot
    rw [hl] at hshape
    cases toks with
    | nil =>
      simp only [List.nil_append, List.cons.injEq] at hshape
      rw [← hshape.1, hfirst] at heol
      cases heol
    | cons t0 toks1 =>
      simp only [List.cons_append, List.cons.injEq] at hshape
      obtain ⟨rfl, rfl⟩ := hshape
      cases toks1 with
      | nil =>
        have hnum := expect_number_at l 1 eol (by simp [hl]) s hs
        simp only [heol, reduceCtorEq, if_false] at hnum
        exact Or.inl (by simp [Asm.parse_repeat, hnum])
      | cons count more =>
        have hnum := expect_number_at l 1 count (by simp [hl]) s hs
        by_cases hcty : count.type = .TOK_CTANT
        · cases hcc : count.constant with
          | num num =>
            cases hparse : Asm.parse_num count.src num.type with
            | error e =>
              simp only [hcty, if_true, hcc, hparse] at hnum
              exact Or.inl (by simp [Asm.parse_repeat, hnum])
            | ok n =>
              simp only [hcty, if_true, hcc, hparse] at hnum
              by_cases hn : n < 0
              · exact Or.inl (by simp [Asm.parse_repeat, hnum, hn])
              · have hn0 : 0 ≤ n := by omega
                cases more with
                | nil =>
                  exact absurd ⟨n, none, count, num, eol, hcty, hcc, hparse, hn0, heol,
                    Or.inl ⟨rfl, rfl⟩⟩ hnot
                | cons name more1 =>
                  by_cases hname : name.type = .TOK_IDENT
                  · cases more1 with
                    | nil =>
                      exact absurd ⟨n, some name.src, count, num, eol, hcty, hcc, hparse, hn0,
                        heol, Or.inr ⟨name, hname, rfl, rfl⟩⟩ hnot
                    | cons extra more2 =>
                      have hextra : extra.type ≠ .TOK_EOL := hall extra (by simp)
                      refine Or.inr ⟨count, num, n, name, extra, more2 ++ [eol], rfl, hcty, hcc,
                        hparse, hn0, hname, hextra, ?_⟩
                      simp [Asm.parse_repeat, hnum, hn, hl, Asm.expect_tok, Asm.please_tok,
                        hname, hno]
                  · exact Or.inl (by
                      simp [Asm.parse_repeat, hnum, hn, hl, Asm.expect_tok, Asm.please_tok,
                        hname])
          | str str =>
            simp only [hcty, if_true, hcc] at hnum
            exact Or.inl (by simp [Asm.parse_repeat, hnum])
          | ident x =>
            simp only [hcty, if_true, hcc] at hnum
            exact Or.inl (by simp [Asm.parse_repeat, hnum])
        · simp only [hcty, if_false] at hnum
          exact Or.inl (by simp [Asm.parse_repeat, hnum])

/-- C21. The code at the failing input: the line `%repeat 2 i j`, which has a
further token behind the loop variable, is not fatal but begins the repeat
scope with count 2 and loop variable `i`, and the program `%repeat 2 i j`,
`push i`, `%end` is assembled to PUSH 0; PUSH 1. The check of the end of line
is written in `parse_repeat` as a call of `expect_tok` whose result is
discarded, and `expect_tok` is declared `__attribute_const__`, so the call and
its assertion are dropped from the program; `%end junk` closes a scope for the
same reason. In general, for a `%repeat` line that `tokenize_line` returned,
read while no scope has a binding: with a number token of parsed value
`n >= 0`, optionally one identifier token, and the end of line, `get_code`
begins the repeat scope with count `n` and that loop variable (or none), and
`follow_imcode` makes it the current scope; every other line is fatal (no
count, a negative count, a count that is a string or an identifier or whose
parse fails, a second argument that is no identifier), except the lines with
further tokens behind an identifier, which are accepted. -/
theorem repeat_accepts_trailing_tokens :
    (match Asm.tokenize_line (Asm.bytes "%repeat 2 i j") 1 [0] with
      | .ok l => Asm.get_code l [[]]
      | .error e => .error e) =
      .ok (.IM_BEGIN_SCOPE (.mk .SCOPE_REPEAT 1 [] [] 2 (some (Asm.bytes "i")))) ∧
    Asm.assemble (fun _ => 0) (fun _ => [0])
      [Asm.bytes "%repeat 2 i j" ++ [10], Asm.bytes "push i" ++ [10], Asm.bytes "%end" ++ [10]] =
        .ok [2, 0, 0, 0, 0, 2, 1, 0, 0, 0] ∧
    Asm.assemble (fun _ => 0) (fun _ => [0])
      [Asm.bytes "%repeat 2" ++ [10], Asm.bytes "push 1" ++ [10],
        Asm.bytes "%end junk" ++ [10]] = .ok [2, 1, 0, 0, 0, 2, 1, 0, 0, 0] ∧
    (match Asm.tokenize_line (Asm.bytes "%repeat 2 3") 1 [0] with
      | .ok l => Asm.get_code l [[]]
      | .error e => .error e) = .error .fatal ∧
    (∀ (line_ : List Nat) (line_no : Nat) (beyond : List Nat) (l : Asm.TokLine),
      Asm.tokenize_line line_ line_no beyond = .ok l →
      ∀ (first : Asm.Token) (rest : List Asm.Token), l.tokens = first :: rest →
      first.type = .TOK_DIRECTIVE → first.directive = .DIRECTIVE_REPEAT →
      ∀ s : List (List Asm.Binding), (∀ bs ∈ s, bs = []) →
        (∀ n var, Asm.RepeatArgs rest n var →
          Asm.get_code l s =
            .ok (.IM_BEGIN_SCOPE (.mk .SCOPE_REPEAT line_no [] [] n.toNat var))) ∧
        ((¬ ∃ n var, Asm.RepeatArgs rest n var) →
          Asm.get_code l s = .error .fatal ∨
          ∃ (count : Asm.Token) (num : Asm.Number) (n : Int) (name extra : Asm.Token)
              (more : List Asm.Token),
            rest = count :: name :: extra :: more ∧ count.type = .TOK_CTANT ∧
            count.constant = .num num ∧ Asm.parse_num count.src num.type = .ok n ∧ 0 ≤ n ∧
            name.type = .TOK_IDENT ∧ extra.type ≠ .TOK_EOL ∧
            Asm.get_code l s =
              .ok (.IM_BEGIN_SCOPE
                (.mk .SCOPE_REPEAT line_no [] [] n.toNat (some name.src))))) ∧
    (∀ (sc : Asm.Scope) (scope : List Asm.Scope),
      Asm.follow_imcode (.IM_BEGIN_SCOPE sc) scope = .ok (sc :: scope)) :=
  ⟨rfl, by decide, by decide, rfl,
    fun _ _ _ _ htok _ _ hl hfirst hdir s hs => get_code_repeat_cases htok hl hfirst hdir s hs,
    fun _ _ => rfl⟩

/-! ## C22 and C23: scopes that are not closed, and `%end` at the root -/

/-- What `get_code` returns follows the first token: a scope begins only at a
`%repeat`, ends only at an `%end`, and a line is an instruction only when it
starts with a mnemonic. -/
theorem get_code_kind {l : Asm.TokLine} {s : List (List Asm.Binding)} {code : Asm.IMCode}
    (h : Asm.get_code l s = .ok code) :
    (∀ sc, code = .IM_BEGIN_SCOPE sc →
      ∃ first, l.tokens.head? = some first ∧ first.type = .TOK_DIRECTIVE ∧
        first.directive = .DIRECTIVE_REPEAT) ∧
    (code = .IM_END_SCOPE →
      ∃ first, l.tokens.head? = some first ∧ first.type = .TOK_DIRECTIVE ∧
        first.directive = .DIRECTIVE_END) ∧
    (∀ ln, code = .IM_INSTR ln →
      ∃ first, l.tokens.head? = some first ∧ first.type = .TOK_MNEM) ∧
    (code = .IM_NOOP → l.tokens = []) ∧
    code ≠ .IM_DIRECTIVE := by
  cases htoks : l.tokens with
  | nil =>
    simp only [Asm.get_code, htoks, List.length_nil, if_true] at h
    cases h
    exact ⟨(fun _ he => nomatch he), (fun he => nomatch he), (fun _ he => nomatch he),
      fun _ => rfl, (fun he => nomatch he)⟩
  | cons first rest =>
    simp only [Asm.get_code, htoks, List.length_cons, Nat.add_one_ne_zero, if_false,
      Asm.please_tok, List.get?] at h
    cases hty : first.type with
    | TOK_DIRECTIVE =>
      simp only [hty] at h
      cases hdir : first.directive with
      | DIRECTIVE_REPEAT =>
        simp only [hdir, Asm.parse_directive, Asm.parse_repeat] at h
        repeat' split at h
        all_goals first
          | (cases h
             exact ⟨fun _ _ => ⟨first, rfl, hty, hdir⟩, (fun he => nomatch he),
               (fun _ he => nomatch he), (fun he => nomatch he), (fun he => nomatch he)⟩)
          | cases h
      | DIRECTIVE_END =>
        simp only [hdir, Asm.parse_directive, Asm.parse_end] at h
        cases h
        exact ⟨(fun _ he => nomatch he), fun _ => ⟨first, rfl, hty, hdir⟩,
          (fun _ he => nomatch he), (fun he => nomatch he), (fun he => nomatch he)⟩
      | DIRECTIVE_UNK =>
        simp only [hdir, Asm.parse_directive] at h
        cases h
    | TOK_MNEM =>
      simp only [hty] at h
      cases h
      exact ⟨(fun _ he => nomatch he), (fun he => nomatch he), fun _ _ => ⟨first, rfl, hty⟩,
        (fun he => nomatch he), (fun he => nomatch he)⟩
    | TOK_CTANT => simp only [hty] at h; cases h
    | TOK_EOL => simp only [hty] at h; cases h
    | TOK_IDENT => simp only [hty] at h; cases h
    | TOK_UNK => simp only [hty] at h; cases h

/-- The chain that the line loop leaves, when it reads all the lines, is the
chain it started with and one scope more for every `%repeat` line that is
still open. -/
theorem main_loop_length (before : Nat → Nat) (beyond : Nat → List Nat) :
    ∀ (lines : List (List Nat)) (line_no : Nat) (scope current : List Asm.Scope),
      Asm.main_loop before beyond lines line_no scope = .ok current → scope ≠ [] →
      current ≠ [] ∧
        current.length = Asm.openRepeats before beyond lines line_no (scope.length - 1) + 1 := by
  intro lines
  induction lines with
  | nil =>
    intro line_no scope current h hne
    simp only [Asm.main_loop] at h
    cases h
    refine ⟨hne, ?_⟩
    simp only [Asm.openRepeats]
    cases scope with
    | nil => exact absurd rfl hne
    | cons x xs => simp
  | cons line rest ih =>
    intro line_no scope current h hne
    unfold Asm.main_loop at h
    split at h
    · cases h
    · rename_i trimmed htrim
      by_cases hempty : trimmed = []
      · simp only [hempty, if_true] at h
        have hdir : Asm.lineDirective (before line_no) (beyond line_no) line_no line = none := by
          simp [Asm.lineDirective, htrim, hempty]
        obtain ⟨h1, h2⟩ := ih _ _ _ h hne
        exact ⟨h1, by simp only [Asm.openRepeats, hdir]; exact h2⟩
      · simp only [hempty, if_false] at h
        split at h
        · cases h
        · rename_i tok_line htok
          split at h
          · cases h
          · rename_i code hcode
            split at h
            · cases h
            · rename_i current1 hfollow
              have hkind := get_code_kind hcode
              have hdirEq : Asm.lineDirective (before line_no) (beyond line_no) line_no line =
                  match tok_line.tokens.head? with
                  | none => none
                  | some first =>
                    if first.type = .TOK_DIRECTIVE then some first.directive else none := by
                simp [Asm.lineDirective, htrim, hempty, htok]
              cases code with
              | IM_BEGIN_SCOPE sc =>
                obtain ⟨first, hhead, hty, hd⟩ := hkind.1 sc rfl
                simp only [Asm.follow_imcode] at hfollow
                cases hfollow
                obtain ⟨h1, h2⟩ := ih _ _ _ h (by simp)
                refine ⟨h1, ?_⟩
                simp only [Asm.openRepeats, hdirEq, hhead, hty, if_true, hd]
                rw [h2]
                cases scope with
                | nil => exact absurd rfl hne
                | cons x xs => simp
              | IM_END_SCOPE =>
                obtain ⟨first, hhead, hty, hd⟩ := hkind.2.1 rfl
                simp only [Asm.follow_imcode] at hfollow
                split at hfollow
                · cases hfollow
                · cases hfollow
                · cases hfollow
                  obtain ⟨h1, h2⟩ := ih _ _ _ h (by simp)
                  refine ⟨h1, ?_⟩
                  simp only [Asm.openRepeats, hdirEq, hhead, hty, if_true, hd]
                  rw [h2]
                  simp
              | IM_INSTR ln =>
                obtain ⟨first, hhead, hty⟩ := hkind.2.2.1 ln rfl
                simp only [Asm.follow_imcode] at hfollow
                split at hfollow
                · cases hfollow
                · cases hfollow
                  obtain ⟨h1, h2⟩ := ih _ _ _ h (by simp)
                  refine ⟨h1, ?_⟩
                  simp only [Asm.openRepeats, hdirEq, hhead, hty, reduceCtorEq, if_false]
                  rw [h2]
                  simp
              | IM_NOOP =>
                have hnil := hkind.2.2.2.1 rfl
                simp only [Asm.follow_imcode] at hfollow
                cases hfollow
                obtain ⟨h1, h2⟩ := ih _ _ _ h hne
                refine ⟨h1, ?_⟩
                simp only [Asm.openRepeats, hdirEq, hnil, List.head?_nil]
                exact h2
              | IM_DIRECTIVE => exact absurd rfl hkind.2.2.2.2

/-- C23. The code at the failing input: for the program of the one line
`%end`, `follow_imcode` gets the code `IM_END_SCOPE` with the root as current
scope; the assertion `popped too many scopes` tests the current scope, which
is the root and not NULL, and `push_scope` is then called with the NULL
pointer `root->next` as the scope to append to: the run dereferences NULL and
does not reach the fatal path. This holds at every `%end` whose current scope
is the root; the assertion fails only for an empty chain, which the line loop
never has. -/
theorem end_at_root_dereferences_null :
    Asm.assemble (fun _ => 0) (fun _ => [0]) [Asm.bytes "%end" ++ [10]] = .error .undefined ∧
    Asm.assemble (fun _ => 0) (fun _ => [0])
      [Asm.bytes "push 1" ++ [10], Asm.bytes "%end" ++ [10]] = .error .undefined ∧
    (∀ root : Asm.Scope, Asm.follow_imcode .IM_END_SCOPE [root] = .error .undefined) ∧
    Asm.follow_imcode .IM_END_SCOPE [] = .error .fatal ∧
    (∀ (before : Nat → Nat) (beyond : Nat → List Nat) (lines : List (List Nat))
        (current : List Asm.Scope),
      Asm.main_loop before beyond lines 1 [Asm.new_scope] = .ok current → current ≠ []) :=
  ⟨by decide, by decide, fun _ => rfl, rfl,
    fun before beyond lines current h =>
      (main_loop_length before beyond lines 1 [Asm.new_scope] current h (by simp)).1⟩

/-- C22. The code at the failing input: the program `%end`, `%repeat 2`, whose
`%repeat` has no `%end` behind it, does not end in the fatal error of the
final check but dereferences NULL at its first line (the defect of `%end` at
the root). A program that leaves a `%repeat` open and has no such `%end`,
as `%repeat 2`, `push 1`, is fatal. In general: when the line loop reads all
the lines, the chain it leaves has one scope for every `%repeat` line that is
still open, and the root; if a `%repeat` is still open the assembler fails
fatally, and bytes are written only when none is. -/
theorem unclosed_scope_cases :
    Asm.assemble (fun _ => 0) (fun _ => [0])
      [Asm.bytes "%end" ++ [10], Asm.bytes "%repeat 2" ++ [10]] = .error .undefined ∧
    Asm.assemble (fun _ => 0) (fun _ => [0])
      [Asm.bytes "%repeat 2" ++ [10], Asm.bytes "push 1" ++ [10]] = .error .fatal ∧
    Asm.assemble (fun _ => 0) (fun _ => [0])
      [Asm.bytes "%repeat 2" ++ [10], Asm.bytes "push 1" ++ [10], Asm.bytes "%end" ++ [10]] =
        .ok [2, 1, 0, 0, 0, 2, 1, 0, 0, 0] ∧
    (∀ (before : Nat → Nat) (beyond : Nat → List Nat) (lines : List (List Nat)),
      (∀ current, Asm.main_loop before beyond lines 1 [Asm.new_scope] = .ok current →
        current.length = Asm.openRepeats before beyond lines 1 0 + 1 ∧
        (0 < Asm.openRepeats before beyond lines 1 0 →
          Asm.assemble before beyond lines = .error .fatal)) ∧
      (∀ out, Asm.assemble before beyond lines = .ok out →
        Asm.openRepeats before beyond lines 1 0 = 0) ∧
      (0 < Asm.openRepeats before beyond lines 1 0 →
        Asm.assemble before beyond lines = .error .fatal ∨
        Asm.main_loop before beyond lines 1 [Asm.new_scope] = .error .undefined)) := by
  refine ⟨by decide, by decide, by decide, ?_⟩
  intro before beyond lines
  have key : ∀ current, Asm.main_loop before beyond lines 1 [Asm.new_scope] = .ok current →
      current.length = Asm.openRepeats before beyond lines 1 0 + 1 ∧
      (0 < Asm.openRepeats before beyond lines 1 0 →
        Asm.assemble before beyond lines = .error .fatal) := by
    intro current h
    obtain ⟨_, hlen⟩ := main_loop_length before beyond lines 1 [Asm.new_scope] current h
      (by simp)
    simp only [List.length_singleton, Nat.sub_self] at hlen
    refine ⟨hlen, ?_⟩
    intro hopen
    unfold Asm.assemble
    rw [h]
    match current, hlen with
    | [], _ => rfl
    | [root], hlen => simp only [List.length_singleton] at hlen; omega
    | _ :: _ :: _, _ => rfl
  refine ⟨key, ?_, ?_⟩
  · intro out hout
    cases hloop : Asm.main_loop before beyond lines 1 [Asm.new_scope] with
    | error e => simp [Asm.assemble, hloop] at hout
    | ok current =>
      obtain ⟨_, hfatal⟩ := key current hloop
      by_contra hne
      rw [hfatal (by omega)] at hout
      cases hout
  · intro hopen
    cases hloop : Asm.main_loop before beyond lines 1 [Asm.new_scope] with
    | error e =>
      cases e with
      | fatal => left; simp [Asm.assemble, hloop]
      | undefined => right; rfl
    | ok current => exact Or.inl ((key current hloop).2 hopen)


/-! ## C26: the runtime effect of `print` -/

theorem reach_mem {objs : List Object} (hclosed : Closed objs) {r a : Ref}
    (h : Reach objs r a) (hr : r ∈ addrs objs) : a ∈ addrs objs := by
  induction h with
  | refl => exact hr
  | step hc _ ih =>
    obtain ⟨o, ho, hty, hk⟩ := hc
    obtain ⟨homem, _⟩ := deref_some_mem ho
    obtain ⟨hh, ht⟩ := hclosed o homem hty
    rcases hk with hk | hk
    · exact ih (hk ▸ hh)
    · exact ih (hk ▸ ht)

/-- Reachability carries over to a chain that agrees on a set of addresses
closed under head and tail. -/
theorem reach_congr {l1 l2 : List Object} (P : Ref → Prop)
    (hcl : ∀ a b, P a → Child l1 a b → P b)
    (hd : ∀ a, P a → deref l2 a = deref l1 a) {r a : Ref}
    (h : Reach l1 r a) (hr : P r) : Reach l2 r a ∧ P a := by
  induction h with
  | refl => exact ⟨Reach.refl _, hr⟩
  | @step x y z hc _ ih =>
    have hy : P y := hcl x y hr hc
    obtain ⟨o, ho, hty, hk⟩ := hc
    have hc2 : Child l2 x y := ⟨o, by rw [hd x hr]; exact ho, hty, hk⟩
    obtain ⟨h1, h2⟩ := ih hy
    exact ⟨Reach.step hc2 h1, h2⟩

theorem leaves_congr {l1 l2 : List Object} {r : Ref} {ls : List Int}
    (h : Leaves l1 r ls) (hd : ∀ a, Reach l1 r a → deref l2 a = deref l1 a) :
    Leaves l2 r ls := by
  induction h with
  | int ho hty =>
    exact Leaves.int (by rw [hd _ (Reach.refl _)]; exact ho) hty
  | pair ho hty _ _ ih1 ih2 =>
    obtain ⟨hch, hct⟩ := child_of_deref ho hty
    exact Leaves.pair (by rw [hd _ (Reach.refl _)]; exact ho) hty
      (ih1 (fun a ha => hd a (Reach.step hch ha)))
      (ih2 (fun a ha => hd a (Reach.step hct ha)))

theorem fromStack_mem {vm : VM} (hinv : Inv vm) {a : Ref} (h : FromStack vm a) :
    a ∈ addrs vm.first := by
  obtain ⟨r, hr, hreach⟩ := h
  exact reach_mem (ordered_closed hinv.ordered) hreach (hinv.roots r hr)

/-- In a frame over `vm0`, what was reachable from the stack of `vm0` is the
same object as before. -/
theorem frame_deref {vm0 vm : VM} (hinv0 : Inv vm0) (hf : Frame vm0 vm) {a : Ref}
    (ha : FromStack vm0 a) : deref vm.first a = deref vm0.first a := by
  obtain ⟨hinv, _, pre, p, hfirst, hkeep⟩ := hf
  obtain ⟨o, ho, rfl⟩ := mem_addrs_iff.mp (fromStack_mem hinv0 ha)
  have hmem : o ∈ vm.first := by
    rw [hfirst]
    exact List.mem_append_right _ (List.mem_filter.mpr ⟨ho, hkeep o ho ha⟩)
  rw [deref_of_mem_nodup hinv.nodup hmem, deref_of_mem_nodup hinv0.nodup ho]

/-- In a frame over `vm0`, the addresses reachable from the stack of `vm0` are
the same as before. -/
theorem frame_fromStack {vm0 vm : VM} (hinv0 : Inv vm0) (hf : Frame vm0 vm) (a : Ref) :
    FromStack vm0 a ↔ ∃ r ∈ vm0.stack, Reach vm.first r a := by
  constructor
  · rintro ⟨r, hr, hreach⟩
    have hP : FromStack vm0 r := ⟨r, hr, Reach.refl r⟩
    exact ⟨r, hr, (reach_congr (FromStack vm0) (fun x y hx hc => fromStack_child hx hc)
      (fun x hx => frame_deref hinv0 hf hx) hreach hP).1⟩
  · rintro ⟨r, hr, hreach⟩
    have hP : FromStack vm0 r := ⟨r, hr, Reach.refl r⟩
    refine (reach_congr (FromStack vm0) ?_ (fun x hx => (frame_deref hinv0 hf hx).symm)
      hreach hP).2
    intro x y hx hc
    obtain ⟨o, ho, hty, hk⟩ := hc
    rw [frame_deref hinv0 hf hx] at ho
    exact fromStack_child hx ⟨o, ho, hty, hk⟩

/-- The chain in which `newObject` allocates is the chain filtered, and the
filter keeps what is reachable from the stack. -/
theorem afterTrigger_filter {vm vmg : VM} (h : Inv vm) (hg : afterTrigger vm = some vmg) :
    ∃ t : Object → Bool, vmg.first = vm.first.filter t ∧
      ∀ o ∈ vm.first, FromStack vm o.addr → t o = true := by
  unfold afterTrigger at hg
  split at hg
  · obtain ⟨T, hT, hgc⟩ := gc_spec vm h.clear (ordered_closed h.ordered) h.roots
    rw [hgc] at hg
    cases hg
    exact ⟨fun o => decide (o.addr ∈ T), rfl, fun o _ ho => by simpa using (hT o.addr).mpr ho⟩
  · cases hg
    exact ⟨fun _ => true, by simp, fun _ _ _ => rfl⟩

theorem alloc_deref {vm vmg : VM} (hinv : Inv vm) (hg : afterTrigger vm = some vmg)
    (obj : Object) (hfresh : obj.addr ∉ addrs vmg.first) {x : Ref} (hx : FromStack vm x) :
    deref (obj :: vmg.first) x = deref vm.first x := by
  obtain ⟨t, ht, hkeep⟩ := afterTrigger_filter hinv hg
  obtain ⟨o, ho, rfl⟩ := mem_addrs_iff.mp (fromStack_mem hinv hx)
  have hmem : o ∈ vmg.first := by
    rw [ht]
    exact List.mem_filter.mpr ⟨ho, hkeep o ho hx⟩
  have hin : o.addr ∈ addrs vmg.first := mem_addrs_iff.mpr ⟨o, hmem, rfl⟩
  have hne : ¬ obj.addr = o.addr := fun e => hfresh (e ▸ hin)
  rw [deref_cons, if_neg hne]
  have hsub : vmg.first.Sublist vm.first := by rw [ht]; exact List.filter_sublist _
  exact deref_sublist hsub hinv.nodup hin

/-- An allocation in a frame over `vm0` leaves a frame over `vm0`. -/
theorem alloc_frame {vm0 vm vmg vm1 : VM} (hinv0 : Inv vm0) (hf : Frame vm0 vm)
    (hg : afterTrigger vm = some vmg) (obj : Object) (hfirst : vm1.first = obj :: vmg.first)
    (hinv1 : Inv vm1) (hstk : ∃ stk, vm1.stack = stk ++ vm0.stack) : Frame vm0 vm1 := by
  obtain ⟨t, ht, hkeep⟩ := afterTrigger_filter hf.1 hg
  have hfs := frame_fromStack hinv0 hf
  obtain ⟨hinv, ⟨stk0, hstk0⟩, pre, p, hpre, hp⟩ := hf
  refine ⟨hinv1, hstk, obj :: pre.filter t, fun o => p o && t o, ?_, ?_⟩
  · rw [hfirst, ht, hpre, List.filter_append, List.filter_filter]
    simp only [List.cons_append, Bool.and_comm]
  · intro o ho hfrom
    have hpo := hp o ho hfrom
    have hmem : o ∈ vm.first := by
      rw [hpre]
      exact List.mem_append_right _ (List.mem_filter.mpr ⟨ho, hpo⟩)
    obtain ⟨r, hr, hreach⟩ := (hfs o.addr).mp hfrom
    have hfrom1 : FromStack vm o.addr :=
      ⟨r, by rw [hstk0]; exact List.mem_append_right _ hr, hreach⟩
    simp [hpo, hkeep o hmem hfrom1]

theorem frame_pushInt {malloc : List Ref → Ref} (hm : FreshAlloc malloc) {vm0 vm : VM}
    (hinv0 : Inv vm0) (hf : Frame vm0 vm) (v : Int) (hlen : vm.stack.length < STACK_MAX) :
    ∃ vm1 a, pushInt malloc vm v = .ok vm1 ∧ Frame vm0 vm1 ∧ vm1.stack = a :: vm.stack ∧
      Leaves vm1.first a [v] ∧
      (∀ r ∈ vm.stack, ∀ ls, Leaves vm.first r ls → Leaves vm1.first r ls) := by
  obtain ⟨vmg, h1, _, _, _, _, hfresh, heq⟩ := pushInt_spec hm hf.1 v
  rw [if_pos hlen] at heq
  have hinv1 := pushInt_inv hm hf.1 heq
  obtain ⟨stk, hstk⟩ := hf.2.1
  refine ⟨_, malloc (addrs vmg.first), heq, ?_, rfl, ?_, ?_⟩
  · exact alloc_frame hinv0 hf h1 _ rfl hinv1
      ⟨malloc (addrs vmg.first) :: stk, by simp only [hstk, List.cons_append]⟩
  · have hd : deref (Object.mk (malloc (addrs vmg.first)) .OBJ_INT false v 0 0 :: vmg.first)
        (malloc (addrs vmg.first)) =
        some (Object.mk (malloc (addrs vmg.first)) .OBJ_INT false v 0 0) := by
      rw [deref_cons]
      simp
    exact Leaves.int hd rfl
  · intro r hr ls hl
    exact leaves_congr hl (fun x hx => alloc_deref hf.1 h1 _ hfresh ⟨r, hr, hx⟩)

theorem frame_pushPair {malloc : List Ref → Ref} (hm : FreshAlloc malloc) {vm0 vm : VM}
    (hinv0 : Inv vm0) (hf : Frame vm0 vm) (a b : Ref) (stk : List Ref)
    (hs : vm.stack = b :: a :: (stk ++ vm0.stack)) :
    ∃ vm1 p, pushPair malloc vm = .ok (vm1, p) ∧ Frame vm0 vm1 ∧
      vm1.stack = p :: (stk ++ vm0.stack) ∧
      (∀ la lb, Leaves vm.first a la → Leaves vm.first b lb → Leaves vm1.first p (la ++ lb)) ∧
      (∀ r ∈ vm.stack, ∀ ls, Leaves vm.first r ls → Leaves vm1.first r ls) := by
  obtain ⟨vmg, h1, _, _, _, _, hfresh, heq⟩ := pushPair_spec hm hf.1
  rw [hs] at heq
  simp only at heq
  have hinv1 := pushPair_inv hm hf.1 heq
  have hkeep : ∀ r ∈ vm.stack, ∀ ls, Leaves vm.first r ls →
      Leaves (Object.mk (malloc (addrs vmg.first)) .OBJ_PAIR false 0 a b :: vmg.first)
        r ls := by
    intro r hr ls hl
    exact leaves_congr hl (fun x hx => alloc_deref hf.1 h1 _ hfresh ⟨r, hr, hx⟩)
  refine ⟨_, malloc (addrs vmg.first), heq, ?_, rfl, ?_, hkeep⟩
  · exact alloc_frame hinv0 hf h1 _ rfl hinv1 ⟨malloc (addrs vmg.first) :: stk, rfl⟩
  · intro la lb hla hlb
    have hd : deref (Object.mk (malloc (addrs vmg.first)) .OBJ_PAIR false 0 a b :: vmg.first)
        (malloc (addrs vmg.first)) =
        some (Object.mk (malloc (addrs vmg.first)) .OBJ_PAIR false 0 a b) := by
      rw [deref_cons]
      simp
    exact Leaves.pair hd rfl (hkeep a (by simp [hs]) la hla) (hkeep b (by simp [hs]) lb hlb)

theorem interpretAll_append (malloc : List Ref → Ref) :
    ∀ (xs ys : List Instruction) (m : Machine),
      interpretAll malloc m (xs ++ ys) =
        match interpretAll malloc m xs with
        | .error e => .error e
        | .ok m1 => interpretAll malloc m1 ys := by
  intro xs
  induction xs with
  | nil => intro ys m; rfl
  | cons i rest ih =>
    intro ys m
    simp only [List.cons_append, interpretAll]
    cases interpret malloc m i with
    | error e => rfl
    | ok m1 => exact ih ys m1

/-- One `PUSH v; PAIR` on top of the object under construction. -/
theorem build_step {malloc : List Ref → Ref} (hm : FreshAlloc malloc) {vm0 : VM}
    (hinv0 : Inv vm0) (hsz : vm0.stack.length + 2 ≤ STACK_MAX) (m : Machine) (ls : List Int)
    (hb : Building vm0 m.vm ls) (v : Int) :
    ∃ m1, interpretAll malloc m [.I_PSH_I32 v, .I_PAIR] = .ok m1 ∧
      Building vm0 m1.vm (ls ++ [v]) ∧ m1.stdin = m.stdin ∧ m1.stdout = m.stdout := by
  obtain ⟨hf, t, hstack, hl⟩ := hb
  have hlen : m.vm.stack.length < STACK_MAX := by
    rw [hstack]
    simp only [List.length_cons]
    omega
  obtain ⟨vm1, a, hpush, hf1, hs1, hla, hkeep1⟩ := frame_pushInt hm hinv0 hf v hlen
  have hs1' : vm1.stack = a :: t :: ([] ++ vm0.stack) := by rw [hs1, hstack]; rfl
  obtain ⟨vm2, p, hpair, hf2, hs2, hlp, _⟩ := frame_pushPair hm hinv0 hf1 t a [] hs1'
  refine ⟨{ m with vm := vm2 }, ?_, ⟨hf2, p, hs2, ?_⟩, rfl, rfl⟩
  · simp only [interpretAll, interpret, hpush, hpair]
  · exact hlp ls [v] (hkeep1 t (by simp [hstack]) ls hl) hla

theorem build_loop {malloc : List Ref → Ref} (hm : FreshAlloc malloc) {vm0 : VM}
    (hinv0 : Inv vm0) (hsz : vm0.stack.length + 2 ≤ STACK_MAX) :
    ∀ (vs : List Int) (m : Machine) (ls : List Int), Building vm0 m.vm ls →
      ∃ m1, interpretAll malloc m (vs.flatMap (fun v => [.I_PSH_I32 v, .I_PAIR])) = .ok m1 ∧
        Building vm0 m1.vm (ls ++ vs) ∧ m1.stdin = m.stdin ∧ m1.stdout = m.stdout := by
  intro vs
  induction vs with
  | nil =>
    intro m ls hb
    exact ⟨m, rfl, by simpa using hb, rfl, rfl⟩
  | cons v rest ih =>
    intro m ls hb
    obtain ⟨m1, hrun1, hb1, hin1, hout1⟩ := build_step hm hinv0 hsz m ls hb v
    obtain ⟨m2, hrun2, hb2, hin2, hout2⟩ := ih m1 (ls ++ [v]) hb1
    refine ⟨m2, ?_, by simpa using hb2, by rw [hin2, hin1], by rw [hout2, hout1]⟩
    rw [List.flatMap_cons, interpretAll_append, hrun1]
    exact hrun2

/-- The collection at the end of a frame over `vm0` whose stack is the stack
of `vm0` again: the chain is the chain of `vm0` filtered by reachability from
that stack. -/
theorem frame_gc {vm0 vm : VM} (hinv0 : Inv vm0) (hf : Frame vm0 vm)
    (hs : vm.stack = vm0.stack) :
    ∃ (vm1 : VM) (T : List Ref), gc vm = some vm1 ∧ (∀ a, a ∈ T ↔ FromStack vm0 a) ∧
      vm1.first = vm0.first.filter (fun o => decide (o.addr ∈ T)) ∧
      vm1.stack = vm0.stack ∧ vm1.num_objects = (vm1.first.length : Int) := by
  have hfs := frame_fromStack hinv0 hf
  have hderef := fun a (ha : FromStack vm0 a) => frame_deref hinv0 hf ha
  obtain ⟨hinv, _, pre, p, hpre, hp⟩ := hf
  obtain ⟨T, hT, hgc⟩ := gc_spec vm hinv.clear (ordered_closed hinv.ordered) hinv.roots
  have hT0 : ∀ a, a ∈ T ↔ FromStack vm0 a := by
    intro a
    rw [hT a, hfs a]
    unfold FromStack
    rw [hs]
  have hcount := gc_count hgc hinv.count
  refine ⟨_, T, hgc, hT0, ?_, hs, hcount⟩
  simp only
  rw [hpre, List.filter_append, List.filter_filter]
  have hpreEmpty : pre.filter (fun o => decide (o.addr ∈ T)) = [] := by
    rw [List.filter_eq_nil_iff]
    intro o ho hdec
    have hoT : o.addr ∈ T := by simpa using hdec
    have hfrom := (hT0 o.addr).mp hoT
    obtain ⟨o0, ho0, hoaddr⟩ := mem_addrs_iff.mp (fromStack_mem hinv0 hfrom)
    have hkept : o0 ∈ vm0.first.filter p :=
      List.mem_filter.mpr ⟨ho0, hp o0 ho0 (hoaddr ▸ hfrom)⟩
    have hnd := hinv.nodup
    rw [hpre] at hnd
    simp only [addrs, List.map_append] at hnd
    have hdisj := (List.nodup_append.mp hnd).2.2
    exact hdisj (List.mem_map_of_mem _ ho) (hoaddr ▸ List.mem_map_of_mem _ hkept)
  rw [hpreEmpty, List.nil_append]
  apply List.filter_congr
  intro o ho
  by_cases hoT : o.addr ∈ T
  · simp [hoT, hp o ho ((hT0 o.addr).mp hoT)]
  · simp [hoT]

theorem interpret_print_leaves (malloc : List Ref → Ref) {m : Machine} (hinv : Inv m.vm)
    {t : Ref} {rest : List Ref} (hs : m.vm.stack = t :: rest) {ls : List Int}
    (hl : Leaves m.vm.first t ls) :
    interpret malloc m .I_PRINT = .ok { m with stdout := m.stdout ++ ls.map putchar } := by
  have htop : t ∈ addrs m.vm.first := hinv.roots t (by simp [hs])
  obtain ⟨ls1, hl1, hp⟩ := objPrint_inv hinv htop
  have hls : ls1 = ls := leaves_unique hl1 hl
  subst hls
  have hlen : rest.length < STACK_MAX := by
    have := hinv.size
    rw [hs] at this
    simp only [List.length_cons] at this
    omega
  have hvm : ({ m.vm with stack := t :: rest } : VM) = m.vm := by
    rw [← hs]
  simp only [interpret, pop, hs, hp, push, hlen, if_true]
  rw [hvm]

theorem putchar_charValue {c : Nat} (hc : c < 256) : putchar (Asm.charValue c) = c := by
  unfold putchar Asm.charValue
  split <;> omega

theorem flatMap_charValue (rest : List Nat) :
    rest.flatMap (fun c => [Instruction.I_PSH_I32 (Asm.charValue c), Instruction.I_PAIR]) =
      (rest.map Asm.charValue).flatMap (fun v => [Instruction.I_PSH_I32 v, Instruction.I_PAIR]) := by
  induction rest with
  | nil => rfl
  | cons c rest ih => simp only [List.flatMap_cons, List.map_cons, ih]

/-- C26. From every reachable state with at most 254 stack slots in use, the
instruction sequence of `print "s"`, for a string `s = c0 c1 rest` of bytes,
runs without failure; it appends the bytes of `s` and a newline to stdout and
reads nothing; the stack is afterwards as it was; and the all-objects chain is
the chain of the start filtered by reachability from the stack, so it holds
none of the objects the sequence allocated and nothing else that was
unreachable; `num_objects` is its length and each of its objects is reachable
from the stack. -/
theorem print_runtime_effect (malloc : List Ref → Ref) (hm : FreshAlloc malloc)
    (m : Machine) (h : Reachable malloc m) (hsize : m.vm.stack_size ≤ 254)
    (c0 c1 : Nat) (rest : List Nat) (hbytes : ∀ c ∈ c0 :: c1 :: rest, c < 256) :
    ∃ m1, interpretAll malloc m (Asm.printInstructions c0 c1 rest) = .ok m1 ∧
      m1.stdout = m.stdout ++ (c0 :: c1 :: rest) ++ [10] ∧
      m1.stdin = m.stdin ∧
      m1.vm.stack = m.vm.stack ∧
      (∃ keep : Ref → Bool, (∀ a, keep a = true ↔ FromStack m.vm a) ∧
        m1.vm.first = m.vm.first.filter (fun o => keep o.addr)) ∧
      m1.vm.num_objects = (m1.vm.first.length : Int) ∧
      (∀ o ∈ m1.vm.first, FromStack m1.vm o.addr) := by
  have hinv0 := reachable_inv hm h
  have hsz : m.vm.stack.length + 2 ≤ STACK_MAX := by
    unfold VM.stack_size at hsize
    unfold STACK_MAX
    omega
  have hf0 : Frame m.vm m.vm :=
    ⟨hinv0, ⟨[], rfl⟩, [], fun _ => true, by simp, fun _ _ _ => rfl⟩
  -- the first two characters and their pair
  obtain ⟨vm1, a0, hpush0, hf1, hs1, hl0, _⟩ :=
    frame_pushInt hm hinv0 hf0 (Asm.charValue c0) (by unfold STACK_MAX at hsz ⊢; omega)
  obtain ⟨vm2, a1, hpush1, hf2, hs2, hl1, hkeep2⟩ :=
    frame_pushInt hm hinv0 hf1 (Asm.charValue c1)
      (by rw [hs1]; simp only [List.length_cons]; unfold STACK_MAX at hsz ⊢; omega)
  have hs2' : vm2.stack = a1 :: a0 :: ([] ++ m.vm.stack) := by rw [hs2, hs1]; rfl
  obtain ⟨vm3, p, hpair, hf3, hs3, hlp, _⟩ := frame_pushPair hm hinv0 hf2 a0 a1 [] hs2'
  have hb3 : Building m.vm ({ m with vm := vm3 } : Machine).vm
      [Asm.charValue c0, Asm.charValue c1] :=
    ⟨hf3, p, hs3, hlp _ _ (hkeep2 a0 (by simp [hs1]) _ hl0) hl1⟩
  have hrun3 : interpretAll malloc m
      [.I_PSH_I32 (Asm.charValue c0), .I_PSH_I32 (Asm.charValue c1), .I_PAIR] =
      .ok { m with vm := vm3 } := by
    simp only [interpretAll, interpret, hpush0, hpush1, hpair]
  -- the other characters and the newline
  obtain ⟨m4, hrun4, hb4, hin4, hout4⟩ :=
    build_loop hm hinv0 hsz (rest.map Asm.charValue) _ _ hb3
  obtain ⟨m5, hrun5, hb5, hin5, hout5⟩ := build_step hm hinv0 hsz m4 _ hb4 10
  obtain ⟨hf5, t, hs5, hl5⟩ := hb5
  -- PRINT, POP, GC
  have hprint := interpret_print_leaves malloc hf5.1 hs5 hl5
  have hf6 : Frame m.vm { m5.vm with stack := m.vm.stack } := by
    obtain ⟨hinv5, _, pre, q, hpre, hq⟩ := hf5
    refine ⟨inv_of_stack hinv5 m.vm.stack (fun r hr => by rw [hs5]; exact List.mem_cons_of_mem _ hr)
      (by unfold STACK_MAX at hsz ⊢; omega) m5.vm.has_halted, ⟨[], rfl⟩, pre, q, hpre, hq⟩
  obtain ⟨vm7, T, hgc, hT, hfirst7, hs7, hcount7⟩ := frame_gc hinv0 hf6 rfl
  let ls : List Int := [Asm.charValue c0, Asm.charValue c1] ++ rest.map Asm.charValue ++ [10]
  refine ⟨{ vm := vm7, stdin := m5.stdin, stdout := m5.stdout ++ ls.map putchar },
    ?_, ?_, ?_, hs7, ⟨fun a => decide (a ∈ T), fun a => by simp [hT a], hfirst7⟩, hcount7, ?_⟩
  · have hsplit : Asm.printInstructions c0 c1 rest =
        [.I_PSH_I32 (Asm.charValue c0), .I_PSH_I32 (Asm.charValue c1), .I_PAIR] ++
          ((rest.map Asm.charValue).flatMap (fun v => [Instruction.I_PSH_I32 v, Instruction.I_PAIR]) ++
            ([.I_PSH_I32 10, .I_PAIR] ++ [.I_PRINT, .I_POP, .I_GC])) := by
      unfold Asm.printInstructions
      rw [flatMap_charValue]
      simp only [List.append_assoc, List.cons_append, List.nil_append]
    rw [hsplit, interpretAll_append, hrun3]
    simp only
    rw [interpretAll_append, hrun4]
    simp only
    rw [interpretAll_append, hrun5]
    have hpop : interpret malloc { m5 with stdout := m5.stdout ++ ls.map putchar } .I_POP =
        .ok { vm := { m5.vm with stack := m.vm.stack }, stdin := m5.stdin,
              stdout := m5.stdout ++ ls.map putchar } := by
      simp only [interpret, pop, hs5]
    have hcoll : interpret malloc
        (Machine.mk { m5.vm with stack := m.vm.stack } m5.stdin (m5.stdout ++ ls.map putchar))
        .I_GC = .ok { vm := vm7, stdin := m5.stdin, stdout := m5.stdout ++ ls.map putchar } := by
      simp only [interpret, hgc]
    simp only [interpretAll]
    rw [hprint]
    simp only
    rw [hpop]
    simp only
    rw [hcoll]
  · simp only
    rw [hout5, hout4]
    simp only [ls, List.map_append, List.map_cons, List.map_nil, List.map_map]
    have h0 : putchar (Asm.charValue c0) = c0 := putchar_charValue (hbytes c0 (by simp))
    have h1 : putchar (Asm.charValue c1) = c1 := putchar_charValue (hbytes c1 (by simp))
    have hr : rest.map (putchar ∘ Asm.charValue) = rest := by
      have : ∀ c ∈ rest, (putchar ∘ Asm.charValue) c = c := fun c hc =>
        putchar_charValue (hbytes c (by simp [hc]))
      calc rest.map (putchar ∘ Asm.charValue) = rest.map id := List.map_congr_left this
        _ = rest := List.map_id rest
    rw [h0, h1, hr]
    have h10 : putchar 10 = 10 := by decide
    rw [h10]
    simp
  · simp only
    rw [hin5, hin4]
  · intro o ho
    simp only at ho ⊢
    rw [hfirst7] at ho
    have hoT : o.addr ∈ T := by simpa using (List.mem_filter.mp ho).2
    obtain ⟨r, hr, hreach⟩ := (hT o.addr).mp hoT
    have hd : ∀ x, FromStack m.vm x → deref vm7.first x = deref m.vm.first x := by
      intro x hx
      rw [hfirst7]
      exact deref_sublist (List.filter_sublist _) hinv0.nodup
        (mem_addrs_filter (fromStack_mem hinv0 hx) ((hT x).mpr hx))
    refine ⟨r, by rw [hs7]; exact hr, ?_⟩
    exact (reach_congr (FromStack m.vm) (fun x y hx hc => fromStack_child hx hc) hd hreach
      ⟨r, hr, Reach.refl r⟩).1

/-- C26, witness: `print "Hi"` on the fresh machine writes `Hi` and a newline
and leaves no object; on the reachable state after `PUSH 72; PUSH 105; PAIR`
the sequence of `print "Hi!"` leaves the pair and its two integers and nothing
else. -/
theorem print_runtime_effect_witness :
    FreshAlloc bumpAlloc ∧ Reachable bumpAlloc onePairMachine ∧
    onePairMachine.vm.stack_size ≤ 254 ∧
    (∃ m1, interpretAll bumpAlloc onePairMachine (Asm.printInstructions 72 105 [33]) = .ok m1 ∧
      m1.stdout = onePairMachine.stdout ++ (72 :: 105 :: [33]) ++ [10] ∧
      m1.stdin = onePairMachine.stdin ∧
      m1.vm.stack = onePairMachine.vm.stack ∧
      (∃ keep : Ref → Bool, (∀ a, keep a = true ↔ FromStack onePairMachine.vm a) ∧
        m1.vm.first = onePairMachine.vm.first.filter (fun o => keep o.addr)) ∧
      m1.vm.num_objects = (m1.vm.first.length : Int) ∧
      (∀ o ∈ m1.vm.first, FromStack m1.vm o.addr)) ∧
    (interpretAll bumpAlloc onePairMachine (Asm.printInstructions 72 105 [33])).map
      (fun m => (m.stdout, m.vm.stack, addrs m.vm.first, m.vm.num_objects)) =
        .ok ([72, 105, 33, 10], [3], [3, 2, 1], 3) ∧
    (interpretAll bumpAlloc startMachine (Asm.printInstructions 72 105 [])).map
      (fun m => (m.stdout, m.vm.stack, addrs m.vm.first, m.vm.num_objects)) =
        .ok ([72, 105, 10], [], [], 0) :=
  ⟨bumpAlloc_fresh, onePairMachine_reachable, by decide,
    print_runtime_effect bumpAlloc bumpAlloc_fresh onePairMachine onePairMachine_reachable
      (by decide) 72 105 [33] (by decide),
    by decide, by decide⟩


/-! ## C28: the round trip through the disassembler -/

/-- A line of token texts, each classified, is tokenized to their tokens and
the end of line, when a NUL stands behind the line buffer. -/
theorem tokenize_line_of_lexes {l : List Nat} {ts : List (List Nat)} (h : Asm.Lexes l ts)
    (no : Nat) (b : List Nat) {toks : List Asm.Token} (hid : Asm.identifyAll no ts = .ok toks) :
    Asm.tokenize_line l no (0 :: b) =
      .ok { tokens := toks ++ [Asm.eolToken no 0], line_no := no } := by
  have hlen := lexes_length h
  have hloop := tokenize_loop_lexes b no h (l.length + 2) (by omega)
  rw [hid] at hloop
  simp only [Asm.tokenize_line, hloop]

/-- A line that starts and ends with a byte that is not white space and has no
`;` is what `trim_line` returns for it and its newline. -/
theorem trim_line_clean (before : Nat) (l : List Nat)
    (hfirst : ∃ c r, l = c :: r ∧ Asm.isspace c = false)
    (hlast : ∃ w z, l = w ++ [z] ∧ Asm.isspace z = false) (h59 : 59 ∉ l) :
    Asm.trim_line before (l ++ [10]) = .ok l := by
  have htake : (l ++ [10]).takeWhile (fun c => decide (c ≠ 59)) = l ++ [10] := by
    apply takeWhile_all
    intro c hc
    rcases List.mem_append.mp hc with h | h
    · have : c ≠ 59 := fun e => h59 (e ▸ h)
      simpa using this
    · rcases List.mem_singleton.mp h with rfl
      decide
  obtain ⟨c, r, hl, hc⟩ := hfirst
  have hex : ∃ c ∈ (l ++ [10]).takeWhile (fun c => decide (c ≠ 59)), Asm.isspace c = false := by
    rw [htake]
    exact ⟨c, by simp [hl], hc⟩
  rw [trim_line_text before (l ++ [10]) hex, htake]
  obtain ⟨w, z, hw, hz⟩ := hlast
  have hrev : (l ++ [10]).reverse.dropWhile Asm.isspace = z :: w.reverse := by
    rw [hw]
    simp only [List.reverse_append, List.reverse_cons, List.reverse_nil, List.nil_append,
      List.singleton_append, List.cons_append]
    rw [List.dropWhile_cons]
    have h10 : Asm.isspace 10 = true := by decide
    simp only [h10, if_true]
    rw [List.dropWhile_cons]
    simp only [hz]
    rfl
  rw [hrev]
  have hback : (z :: w.reverse).reverse = l := by
    rw [hw]
    simp
  rw [hback, hl, List.dropWhile_cons]
  simp only [hc]
  rfl

theorem getlines_loop_line (l : List Nat) (h10 : 10 ∉ l) :
    ∀ (rest cur : List Nat),
      Asm.getlines_loop (l ++ 10 :: rest) cur = (cur ++ l ++ [10]) :: Asm.getlines_loop rest [] := by
  induction l with
  | nil =>
    intro rest cur
    simp [Asm.getlines_loop]
  | cons c more ih =>
    intro rest cur
    have hc : c ≠ 10 := fun e => h10 (by simp [e])
    have hmore : 10 ∉ more := fun e => h10 (List.mem_cons_of_mem _ e)
    have step : ∀ tl : List Nat, Asm.getlines_loop (c :: tl) cur =
        Asm.getlines_loop tl (cur ++ [c]) := by
      intro tl
      simp only [Asm.getlines_loop, hc, if_false]
    rw [List.cons_append, step, ih hmore]
    simp

/-- The text of lines without a newline inside, each followed by its newline,
is read back line by line. -/
theorem getlines_lines : ∀ (ls : List (List Nat)), (∀ l ∈ ls, 10 ∉ l) →
    Asm.getlines (ls.flatMap (fun l => l ++ [10])) = ls.map (fun l => l ++ [10]) := by
  intro ls
  induction ls with
  | nil => intro _; rfl
  | cons l rest ih =>
    intro h
    have hl := h l (List.mem_cons_self _ _)
    have hrest := ih (fun x hx => h x (List.mem_cons_of_mem _ hx))
    unfold Asm.getlines at hrest ⊢
    simp only [List.flatMap_cons, List.append_assoc, List.singleton_append, List.map_cons]
    rw [getlines_loop_line l hl, hrest]
    simp


/-! ## C31: the threshold -/
/-- What one instruction that returned does to the chain and the two counters:
nothing; or it is GC and the collection ran; or it allocated one object, in
front of the chain that the trigger test of `newObject` left. -/
theorem interpret_counters {malloc : List Ref → Ref} (hm : FreshAlloc malloc) {m m1 : Machine}
    (hinv : Inv m.vm) {i : Instruction} (h : interpret malloc m i = .ok m1) :
    (m1.vm.first = m.vm.first ∧ m1.vm.num_objects = m.vm.num_objects ∧
      m1.vm.max_objects = m.vm.max_objects) ∨
    (i = .I_GC ∧ gc m.vm = some m1.vm) ∨
    (i ≠ .I_GC ∧ ∃ (vmg : VM) (o : Object), afterTrigger m.vm = some vmg ∧ Inv vmg ∧
      m1.vm.first = o :: vmg.first ∧ m1.vm.num_objects = vmg.num_objects + 1 ∧
      m1.vm.max_objects = vmg.max_objects) := by
  cases i with
  | I_DIE msg => simp [interpret] at h
  | I_HALT =>
    simp only [interpret] at h
    cases h
    exact Or.inl ⟨rfl, rfl, rfl⟩
  | I_POP =>
    simp only [interpret] at h
    split at h
    · cases h
    · rename_i vm1 _ hpop
      obtain ⟨p1, p2, p3, _⟩ := pop_first hpop
      cases h
      exact Or.inl ⟨p1, p2, p3⟩
  | I_PRINT =>
    simp only [interpret] at h
    split at h
    · cases h
    · rename_i vm1 o hpop
      obtain ⟨p1, p2, p3, _⟩ := pop_first hpop
      split at h
      · cases h
      · split at h
        · cases h
        · rename_i vm2 hpush
          obtain ⟨q1, q2, q3, _⟩ := push_first hpush
          cases h
          exact Or.inl ⟨q1.trans p1, q2.trans p2, q3.trans p3⟩
  | I_SWP =>
    simp only [interpret] at h
    split at h
    · cases h
    · rename_i vm1 hswap
      cases h
      rw [swap_eq m.vm hinv.size] at hswap
      split at hswap
      · cases hswap
        exact Or.inl ⟨rfl, rfl, rfl⟩
      · cases hswap
  | I_ASSERT n msg =>
    simp only [interpret] at h
    split at h
    · cases h
      exact Or.inl ⟨rfl, rfl, rfl⟩
    · cases h
  | I_GC =>
    simp only [interpret] at h
    split at h
    · cases h
    · rename_i vm1 hgc
      cases h
      exact Or.inr (Or.inl ⟨rfl, hgc⟩)
  | I_PSH_I32 v =>
    obtain ⟨vmg, h1, h2, _, _, _, _, heq⟩ := pushInt_spec hm hinv v
    by_cases hlen : m.vm.stack.length < STACK_MAX
    · simp only [interpret, heq, hlen, if_true] at h
      cases h
      exact Or.inr (Or.inr ⟨(fun he => nomatch he), vmg, _, h1, h2, rfl, rfl, rfl⟩)
    · simp only [interpret, heq, hlen, if_false] at h
      cases h
  | I_READ_I32 =>
    obtain ⟨vmg, h1, h2, _, _, _, _, heq⟩ := pushInt_spec hm hinv (getchar m.stdin).1
    by_cases hlen : m.vm.stack.length < STACK_MAX
    · simp only [interpret, heq, hlen, if_true] at h
      cases h
      exact Or.inr (Or.inr ⟨(fun he => nomatch he), vmg, _, h1, h2, rfl, rfl, rfl⟩)
    · simp only [interpret, heq, hlen, if_false] at h
      cases h
  | I_PAIR =>
    obtain ⟨vmg, h1, h2, _, _, _, _, heq⟩ := pushPair_spec hm hinv
    simp only [interpret, heq] at h
    split at h
    · cases h
    · rename_i vm1 p hok
      cases h
      split at hok
      · cases hok
        exact Or.inr (Or.inr ⟨(fun he => nomatch he), vmg, _, h1, h2, rfl, rfl, rfl⟩)
      · cases hok

/-- In every reachable state the count is at most the threshold, or the
threshold is 0. -/
theorem threshold_or_zero {malloc : List Ref → Ref} (hm : FreshAlloc malloc) {m : Machine}
    (h : Reachable malloc m) :
    m.vm.num_objects ≤ m.vm.max_objects ∨ m.vm.max_objects = 0 := by
  induction h with
  | init input =>
    refine Or.inl ?_
    show newVM.num_objects ≤ newVM.max_objects
    decide
  | @step m0 m1 i hprev hstep ih =>
    have hinv := reachable_inv hm hprev
    rcases interpret_counters hm hinv hstep with ⟨_, h2, h3⟩ | ⟨_, hgc⟩ | ⟨_, vmg, o, htrig, hinvg, _, hnum, hmax⟩
    · rw [h2, h3]
      exact ih
    · have hthr := gc_threshold hgc
      have hcount := gc_count hgc hinv.count
      omega
    · have hcount := hinvg.count
      unfold afterTrigger at htrig
      split at htrig
      · have hthr := gc_threshold htrig
        omega
      · rename_i hne
        cases htrig
        omega

/-- Once the count is above the threshold, no instruction but GC collects: the
chain only grows, the threshold stays, and the count stays above it. -/
theorem above_threshold_step {malloc : List Ref → Ref} (hm : FreshAlloc malloc) {m m1 : Machine}
    (hinv : Inv m.vm) (habove : m.vm.max_objects < m.vm.num_objects) {i : Instruction}
    (hi : i ≠ .I_GC) (h : interpret malloc m i = .ok m1) :
    m1.vm.max_objects < m1.vm.num_objects ∧ m1.vm.max_objects = m.vm.max_objects ∧
      ∃ pre, m1.vm.first = pre ++ m.vm.first := by
  rcases interpret_counters hm hinv h with ⟨h1, h2, h3⟩ | ⟨hgc, _⟩ | ⟨_, vmg, o, htrig, _, hfirst, hnum, hmax⟩
  · exact ⟨by rw [h2, h3]; exact habove, h3, [], by simpa using h1⟩
  · exact absurd hgc hi
  · unfold afterTrigger at htrig
    split at htrig
    · omega
    · cases htrig
      exact ⟨by omega, hmax, [o], by simpa using hfirst⟩

set_option maxRecDepth 100000 in
/-- After a GC on the fresh VM the threshold is 0, and the 101 allocations that
follow run no collection: the hundred popped integers stay in the chain. -/
theorem leakProgram_run :
    (interpretAll bumpAlloc startMachine leakProgram).map
      (fun m => (m.vm.first.length, m.vm.num_objects, m.vm.max_objects, m.vm.stack)) =
        .ok (101, 101, 0, [101]) := by
  decide

/-- C31. The code at the failing input: after the bytecode `10 02 01 00 00 00`
(GC, PUSH 1) on the fresh VM `num_objects` is 1 and `max_objects` is 0, and so
it is after one hundred `PUSH 0; POP` and one more PUSH, whose collection
leaves no survivor: a collection that leaves no object sets the threshold to
twice 0, the test `num_objects == max_objects` holds once more at count 0 and
is stepped over by the allocation that follows. From then on no allocation
collects: after GC, one hundred `PUSH 0; POP` and a PUSH the chain holds all
101 objects, where the fresh VM would have collected at the 101st. In general:
in every reachable state the count is at most the threshold or the threshold
is 0; and in a reachable state with the count above the threshold every
instruction but GC leaves the threshold as it is, the count above it, and
every object of the chain in the chain. -/
theorem threshold_stepped_over :
    (runBytes bumpAlloc [] [0x10, 0x02, 1, 0, 0, 0]).map
      (fun m => (m.vm.num_objects, m.vm.max_objects)) = .ok (1, 0) ∧
    (interpretAll bumpAlloc startMachine [.I_GC, .I_PSH_I32 1]).map
      (fun m => (m.vm.num_objects, m.vm.max_objects)) = .ok (1, 0) ∧
    interpretAll bumpAlloc startMachine churnProgram = .ok churnMachine ∧
    (∃ m, Reachable bumpAlloc m ∧ m.vm.max_objects < m.vm.num_objects) ∧
    (interpretAll bumpAlloc startMachine leakProgram).map
      (fun m => (m.vm.first.length, m.vm.num_objects, m.vm.max_objects, m.vm.stack)) =
        .ok (101, 101, 0, [101]) ∧
    (∀ (malloc : List Ref → Ref), FreshAlloc malloc → ∀ m, Reachable malloc m →
      (m.vm.num_objects ≤ m.vm.max_objects ∨ m.vm.max_objects = 0) ∧
      (m.vm.max_objects < m.vm.num_objects → ∀ i m1, i ≠ .I_GC →
        interpret malloc m i = .ok m1 →
        m1.vm.max_objects < m1.vm.num_objects ∧ m1.vm.max_objects = m.vm.max_objects ∧
          ∃ pre, m1.vm.first = pre ++ m.vm.first)) :=
  ⟨by decide, by decide, churnMachine_run, ⟨churnMachine, churnMachine_reachable, by decide⟩,
    leakProgram_run,
    fun _ hm _ h => ⟨threshold_or_zero hm h,
      fun habove _ _ hi hstep => above_threshold_step hm (reachable_inv hm h) habove hi hstep⟩⟩

/-! ## C33: no cycle from bytecode -/
/-- On a chain in allocation order without a repeated address, an edge of the
pair graph leads to an object further down the chain. -/
theorem child_index : ∀ {objs : List Object}, (addrs objs).Nodup → Ordered objs →
    ∀ {a b : Ref}, Child objs a b →
      b ∈ addrs objs ∧ (addrs objs).indexOf a < (addrs objs).indexOf b := by
  intro objs
  induction objs with
  | nil =>
    rintro _ _ a b ⟨o, hd, _⟩
    simp [deref] at hd
  | cons p rest ih =>
    rintro hnd hord a b ⟨o, hd, hty, hb⟩
    have hnd1 : p.addr ∉ addrs rest ∧ (addrs rest).Nodup := by
      simpa [addrs] using hnd
    rw [deref_cons] at hd
    by_cases hp : p.addr = a
    · simp only [hp, if_true, Option.some.injEq] at hd
      subst hd
      obtain ⟨hh, ht⟩ := hord.1 hty
      have hbm : b ∈ addrs rest := by
        rcases hb with h | h
        · exact h ▸ hh
        · exact h ▸ ht
      have hne : p.addr ≠ b := fun he => hnd1.1 (he ▸ hbm)
      refine ⟨mem_addrs_cons.mpr (Or.inr hbm), ?_⟩
      simp only [addrs, List.map_cons]
      rw [List.indexOf_cons_eq _ hp, List.indexOf_cons_ne _ hne]
      omega
    · simp only [hp, if_false] at hd
      obtain ⟨hbm, hlt⟩ := ih hnd1.2 hord.2 ⟨o, hd, hty, hb⟩
      have hne : p.addr ≠ b := fun he => hnd1.1 (he ▸ hbm)
      refine ⟨mem_addrs_cons.mpr (Or.inr hbm), ?_⟩
      simp only [addrs, List.map_cons] at hlt ⊢
      rw [List.indexOf_cons_ne _ hp, List.indexOf_cons_ne _ hne]
      omega

/-- A path of one edge or more leads further down the chain. -/
theorem path_index {objs : List Object} (hnd : (addrs objs).Nodup) (hord : Ordered objs)
    {a b : Ref} (h : Relation.TransGen (Child objs) a b) :
    (addrs objs).indexOf a < (addrs objs).indexOf b := by
  induction h with
  | single hc => exact (child_index hnd hord hc).2
  | tail _ hc ih => exact lt_trans ih (child_index hnd hord hc).2

/-- On a chain in allocation order the result of `objPrint` is the same for
every call depth of at least the number of objects. -/
theorem objPrint_fuel {vm : VM} (h : Inv vm) {r : Ref} (hr : r ∈ addrs vm.first) (fuel : Nat)
    (hfuel : vm.first.length ≤ fuel) :
    objPrint fuel vm.first r = objPrint (callDepth vm.first) vm.first r := by
  obtain ⟨l1, hl1, hp1⟩ := objPrint_ordered vm.first h.nodup vm.first [] rfl h.ordered r hr fuel
    hfuel
  obtain ⟨l2, hl2, hp2⟩ := objPrint_inv h hr
  rw [hp1, hp2, leaves_unique hl1 hl2]

/-- C33. In every state reached from `newVM` by instructions that returned, an
edge of the pair graph (from a pair to its head or its tail) leads to an object
of the chain that stands further down the chain than the pair, that is, to an
object allocated before it; so no path of one edge or more comes back to its
start. `objPrint`, which has no visited check, therefore returns from every
object of the chain, within a call depth of the number of objects and with the
same output for every greater depth; and the instruction PRINT returns with
that output appended when the stack is not empty, and is fatal (the underflow
of `pop`) when it is. -/
theorem bytecode_builds_no_cycle (malloc : List Ref → Ref) (hm : FreshAlloc malloc)
    (m : Machine) (h : Reachable malloc m) :
    (∀ a b, Child m.vm.first a b →
      b ∈ addrs m.vm.first ∧
        (addrs m.vm.first).indexOf a < (addrs m.vm.first).indexOf b) ∧
    (∀ a, ¬ Relation.TransGen (Child m.vm.first) a a) ∧
    (∀ r ∈ addrs m.vm.first, ∃ out,
      objPrint (callDepth m.vm.first) m.vm.first r = some out ∧
      ∀ fuel, m.vm.first.length ≤ fuel → objPrint fuel m.vm.first r = some out) ∧
    (∀ top rest, m.vm.stack = top :: rest → ∃ out,
      objPrint (callDepth m.vm.first) m.vm.first top = some out ∧
      interpret malloc m .I_PRINT = .ok { m with stdout := m.stdout ++ out }) ∧
    (m.vm.stack = [] → interpret malloc m .I_PRINT = .error .fatal) := by
  have hinv := reachable_inv hm h
  refine ⟨fun a b hc => child_index hinv.nodup hinv.ordered hc, ?_, ?_, ?_, ?_⟩
  · intro a hcyc
    exact lt_irrefl _ (path_index hinv.nodup hinv.ordered hcyc)
  · intro r hr
    obtain ⟨ls, _, hp⟩ := objPrint_inv hinv hr
    exact ⟨_, hp, fun fuel hfuel => (objPrint_fuel hinv hr fuel hfuel).trans hp⟩
  · intro top rest hs
    have htop : top ∈ addrs m.vm.first := hinv.roots top (by simp [hs])
    obtain ⟨ls, _, hp⟩ := objPrint_inv hinv htop
    have hlen : rest.length < STACK_MAX := by
      have := hinv.size
      rw [hs] at this
      simp only [List.length_cons] at this
      omega
    refine ⟨_, hp, ?_⟩
    have hvm : ({ m.vm with stack := top :: rest } : VM) = m.vm := by
      rw [← hs]
    simp only [interpret, pop, hs, hp, push, hlen, if_true]
    rw [hvm]
  · intro hs
    simp [interpret, pop, hs]

/-- C33, witness: the state after `PUSH 72; PUSH 105; PAIR` is reachable; its
pair at address 3 stands in front of its head 1 and its tail 2, and PRINT
writes `Hi`. On the heap that `test4` builds through the C functions, where
`a.tail = b` and `b.tail = a`, the recursion of `objPrint` does not return
within the call depth. -/
theorem bytecode_builds_no_cycle_witness :
    FreshAlloc bumpAlloc ∧ Reachable bumpAlloc onePairMachine ∧
    ((∀ a b, Child onePairMachine.vm.first a b →
      b ∈ addrs onePairMachine.vm.first ∧
        (addrs onePairMachine.vm.first).indexOf a < (addrs onePairMachine.vm.first).indexOf b) ∧
    (∀ a, ¬ Relation.TransGen (Child onePairMachine.vm.first) a a) ∧
    (∀ r ∈ addrs onePairMachine.vm.first, ∃ out,
      objPrint (callDepth onePairMachine.vm.first) onePairMachine.vm.first r = some out ∧
      ∀ fuel, onePairMachine.vm.first.length ≤ fuel →
        objPrint fuel onePairMachine.vm.first r = some out) ∧
    (∀ top rest, onePairMachine.vm.stack = top :: rest → ∃ out,
      objPrint (callDepth onePairMachine.vm.first) onePairMachine.vm.first top = some out ∧
      interpret bumpAlloc onePairMachine .I_PRINT =
        .ok { onePairMachine with stdout := onePairMachine.stdout ++ out }) ∧
    (onePairMachine.vm.stack = [] →
      interpret bumpAlloc onePairMachine .I_PRINT = .error .fatal)) ∧
    (interpret bumpAlloc onePairMachine .I_PRINT).map (fun m1 => m1.stdout) = .ok [72, 105] ∧
    objPrint (callDepth test4VM.first) test4VM.first 6 = none :=
  ⟨bumpAlloc_fresh, onePairMachine_reachable,
    bytecode_builds_no_cycle bumpAlloc bumpAlloc_fresh onePairMachine onePairMachine_reachable,
    by decide, by decide⟩

/-! ## C32: the read behind the arguments -/
/-- An argument that `opcode_insert` accepts is a token of the line, a constant
or an identifier, and the index advances by one. -/
theorem opcode_insert_accepts {op op1 : Asm.Op} {l : Asm.TokLine} {i i1 : Nat}
    {s : List (List Asm.Binding)} {ct : Asm.CType}
    (h : Asm.opcode_insert op l i s ct = .ok (op1, i1)) :
    i1 = i + 1 ∧ ∃ t, l.tokens.get? i = some t ∧ (t.type = .TOK_CTANT ∨ t.type = .TOK_IDENT) := by
  unfold Asm.opcode_insert at h
  split at h
  · cases h
  · rename_i ctant i2 hkind
    have hi : i1 = i2 := by
      split at h <;> (cases h; rfl)
    subst hi
    unfold Asm.expect_constant_kind at hkind
    split at hkind
    · cases hkind
    · rename_i tok i3 hexp
      have hi3 : i1 = i3 := by
        split at hkind
        · cases hkind
        · split at hkind
          · cases hkind; rfl
          · cases hkind
      subst hi3
      cases hget : l.tokens.get? i with
      | none => simp only [Asm.expect_constant, Asm.please_tok, hget] at hexp; cases hexp
      | some t =>
        simp only [Asm.expect_constant, Asm.please_tok, hget] at hexp
        by_cases h1 : t.type = .TOK_CTANT
        · simp only [h1, if_true] at hexp
          cases hexp
          exact ⟨rfl, _, rfl, Or.inl h1⟩
        · by_cases h2 : t.type = .TOK_IDENT
          · simp only [h1, h2, if_true, if_false] at hexp
            cases hexp
            exact ⟨rfl, _, rfl, Or.inr h2⟩
          · simp [h1, h2] at hexp

/-- The arguments that the loop of `parse` accepts are tokens of the line at
consecutive indices, each a constant or an identifier. -/
theorem parse_args_accepts (l : Asm.TokLine) (s : List (List Asm.Binding)) :
    ∀ (cts : List Asm.CType) (op : Asm.Op) (i : Nat) (op1 : Asm.Op) (i1 : Nat),
      Asm.parse_args l s cts op i = .ok (op1, i1) →
      i1 = i + cts.length ∧ ∀ j, i ≤ j → j < i + cts.length →
        ∃ t, l.tokens.get? j = some t ∧ (t.type = .TOK_CTANT ∨ t.type = .TOK_IDENT) := by
  intro cts
  induction cts with
  | nil =>
    intro op i op1 i1 h
    simp only [Asm.parse_args, Except.ok.injEq, Prod.mk.injEq] at h
    exact ⟨by simp [h.2], fun j h1 h2 => by simp at h2; omega⟩
  | cons ct rest ih =>
    intro op i op1 i1 h
    simp only [Asm.parse_args] at h
    split at h
    · cases h
    · rename_i op2 i2 hins
      obtain ⟨hi2, t, hget, hty⟩ := opcode_insert_accepts hins
      obtain ⟨hi1, hall⟩ := ih op2 i2 op1 i1 h
      refine ⟨by simp only [List.length_cons]; omega, ?_⟩
      intro j h1 h2
      by_cases hj : j = i
      · subst hj
        exact ⟨t, hget, hty⟩
      · exact hall j (by omega) (by simp only [List.length_cons] at h2; omega)

/-- In a line whose last token is its only end of line, a token that is not
the end of line has a token behind it. -/
theorem index_before_eol {toks : List Asm.Token} {eol t : Asm.Token}
    (heol : eol.type = .TOK_EOL) {j : Nat} (hget : (toks ++ [eol]).get? j = some t)
    (ht : t.type ≠ .TOK_EOL) : j + 1 < (toks ++ [eol]).length := by
  have hlt : j < (toks ++ [eol]).length := by
    have := List.get?_eq_some.mp hget
    exact this.1
  simp only [List.length_append, List.length_singleton] at hlt ⊢
  by_contra hge
  have hj : j = toks.length := by omega
  subst hj
  simp at hget
  rw [← hget] at ht
  exact ht heol

/-- C32. For every token line that `tokenize_line` returned and whose first
token is a mnemonic: when the loop of `parse` has accepted the `args_len`
arguments of the mnemonic, the index is `args_len + 1`, the accepted tokens
stand at the indices 1 to `args_len` and none of them is the end of line, the
last token of the line is the end of line, and so the index `args_len + 1` that
`parse` reads next is less than the number of tokens: the read returns a token
of the line, and `parse` is fatal when it is not the end of line and returns
the `Op` otherwise. -/
theorem arity_read_in_range (line_ : List Nat) (line_no : Nat) (beyond : List Nat)
    (l : Asm.TokLine) (htok : Asm.tokenize_line line_ line_no beyond = .ok l)
    (first : Asm.Token) (rest : List Asm.Token) (hl : l.tokens = first :: rest)
    (hfirst : first.type = .TOK_MNEM) (s : List (List Asm.Binding)) (op : Asm.Op) (i : Nat)
    (hargs : Asm.parse_args l s (Asm.specs first.mnemonic)
      { opcode := first.mnemonic, str := [], num := 0 } 1 = .ok (op, i)) :
    i = (Asm.specs first.mnemonic).length + 1 ∧
    (Asm.specs first.mnemonic).length + 1 < l.tokens.length ∧
    (∀ j, 1 ≤ j → j ≤ (Asm.specs first.mnemonic).length →
      ∃ t, l.tokens.get? j = some t ∧ t.type ≠ .TOK_EOL) ∧
    (∃ eol, l.tokens.getLast? = some eol ∧ eol.type = .TOK_EOL) ∧
    ∃ tok, l.tokens.get? ((Asm.specs first.mnemonic).length + 1) = some tok ∧
      Asm.parse l s = if tok.type ≠ .TOK_EOL then .error .fatal else .ok op := by
  obtain ⟨_, toks, eol, hshape, heol, _⟩ := tokenize_line_shape htok
  obtain ⟨hi, hall⟩ := parse_args_accepts l s _ _ _ _ _ hargs
  have hacc : ∀ j, 1 ≤ j → j ≤ (Asm.specs first.mnemonic).length →
      ∃ t, l.tokens.get? j = some t ∧ t.type ≠ .TOK_EOL := by
    intro j h1 h2
    obtain ⟨t, hget, hty⟩ := hall j h1 (by omega)
    refine ⟨t, hget, ?_⟩
    rcases hty with h | h <;> simp [h]
  have hlen : (Asm.specs first.mnemonic).length + 1 < l.tokens.length := by
    cases hn : (Asm.specs first.mnemonic).length with
    | zero =>
      have hget0 : l.tokens.get? 0 = some first := by simp [hl]
      rw [hshape] at hget0 ⊢
      exact index_before_eol heol hget0 (by simp [hfirst])
    | succ k =>
      obtain ⟨t, hget, hty⟩ := hacc (k + 1) (by omega) (by omega)
      rw [hshape] at hget ⊢
      exact index_before_eol heol hget hty
  refine ⟨by omega, hlen, hacc, ⟨eol, by simp [hshape], heol⟩, ?_⟩
  have hsome := List.get?_eq_get hlen
  refine ⟨_, hsome, ?_⟩
  have hget0 : l.tokens.get? 0 = some first := by simp [hl]
  simp only [Asm.parse, Asm.expect_tok, Asm.please_tok, hget0, hfirst, if_true, hargs, hsome]

/-- C32, witness: the line `push 1`. The loop accepts the one argument, the
index is 2 and the line has three tokens; the token read at index 2 is the end
of line and `parse` returns the `Op`. For `push 1 2` the token read at index 2
is the number `2` and `parse` is fatal; for `push` alone the loop does not
accept the end of line as the argument and the read is not reached. -/
theorem arity_read_in_range_witness :
    Asm.tokenize_line (Asm.bytes "push 1") 1 [0] =
      .ok (Asm.TokLine.mk [Asm.mnemToken (Asm.bytes "push") .MNEM_PUSH 1 0,
        Asm.numberToken (Asm.bytes "1") .NUM_DEC 1 0, Asm.eolToken 1 0] 1) ∧
    (2 = (Asm.specs .MNEM_PUSH).length + 1 ∧
    (Asm.specs .MNEM_PUSH).length + 1 <
      (Asm.TokLine.mk [Asm.mnemToken (Asm.bytes "push") .MNEM_PUSH 1 0,
        Asm.numberToken (Asm.bytes "1") .NUM_DEC 1 0, Asm.eolToken 1 0] 1).tokens.length ∧
    (∀ j, 1 ≤ j → j ≤ (Asm.specs .MNEM_PUSH).length →
      ∃ t, (Asm.TokLine.mk [Asm.mnemToken (Asm.bytes "push") .MNEM_PUSH 1 0,
        Asm.numberToken (Asm.bytes "1") .NUM_DEC 1 0, Asm.eolToken 1 0] 1).tokens.get? j =
          some t ∧ t.type ≠ .TOK_EOL) ∧
    (∃ eol, (Asm.TokLine.mk [Asm.mnemToken (Asm.bytes "push") .MNEM_PUSH 1 0,
        Asm.numberToken (Asm.bytes "1") .NUM_DEC 1 0, Asm.eolToken 1 0] 1).tokens.getLast? =
          some eol ∧ eol.type = .TOK_EOL) ∧
    ∃ tok, (Asm.TokLine.mk [Asm.mnemToken (Asm.bytes "push") .MNEM_PUSH 1 0,
        Asm.numberToken (Asm.bytes "1") .NUM_DEC 1 0, Asm.eolToken 1 0] 1).tokens.get?
          ((Asm.specs .MNEM_PUSH).length + 1) = some tok ∧
      Asm.parse (Asm.TokLine.mk [Asm.mnemToken (Asm.bytes "push") .MNEM_PUSH 1 0,
        Asm.numberToken (Asm.bytes "1") .NUM_DEC 1 0, Asm.eolToken 1 0] 1) [[]] =
        if tok.type ≠ .TOK_EOL then .error .fatal else .ok ⟨.MNEM_PUSH, [], 1⟩) ∧
    (match Asm.tokenize_line (Asm.bytes "push 1 2") 1 [0] with
      | .ok l => Asm.parse l [[]]
      | .error e => .error e) = .error .fatal ∧
    (match Asm.tokenize_line (Asm.bytes "push") 1 [0] with
      | .ok l => (Asm.parse_args l [[]] (Asm.specs .MNEM_PUSH) ⟨.MNEM_PUSH, [], 0⟩ 1).map
          (fun (r : Asm.Op × Nat) => r.2)
      | .error e => .error e) = .error .fatal :=
  ⟨by decide,
    arity_read_in_range (Asm.bytes "push 1") 1 [0] _ (by decide)
      (Asm.mnemToken (Asm.bytes "push") .MNEM_PUSH 1 0)
      [Asm.numberToken (Asm.bytes "1") .NUM_DEC 1 0, Asm.eolToken 1 0] rfl rfl [[]]
      ⟨.MNEM_PUSH, [], 1⟩ 2 (by decide),
    by decide, by decide⟩

/-! ## C6: the source line of `print` -/
/-- The source line `print "s"` for a string without double quote, `;` and
newline, read with a NUL behind the line buffer, is assembled to what its
token line emits. -/
theorem assemble_printSource (before : Nat → Nat) (beyond : Nat → List Nat)
    (hb : ∃ b, beyond 1 = 0 :: b) (s : List Nat) (h34 : 34 ∉ s) (h59 : 59 ∉ s)
    (h10 : 10 ∉ s) :
    Asm.assemble before beyond (Asm.getlines (Asm.printSource s ++ [10])) =
      Asm.flatten_output [[]] (.OUT_SINGLE (Asm.printLine s 1)) := by
  have hmem : ∀ c, c ∈ Asm.printSource s → c ∈ Asm.bytes "print" ∨ c = 32 ∨ c = 34 ∨ c ∈ s := by
    intro c hc
    simp only [Asm.printSource, List.mem_append, List.mem_cons, List.mem_singleton,
      List.not_mem_nil, or_false] at hc
    rcases hc with h | h | h | h | h
    · exact Or.inl h
    · exact Or.inr (Or.inl h)
    · exact Or.inr (Or.inr (Or.inl h))
    · exact Or.inr (Or.inr (Or.inr h))
    · exact Or.inr (Or.inr (Or.inl h))
  have hno10 : 10 ∉ Asm.printSource s := by
    intro hc
    rcases hmem 10 hc with h | h | h | h
    · revert h; decide
    · cases h
    · cases h
    · exact h10 h
  have hno59 : 59 ∉ Asm.printSource s := by
    intro hc
    rcases hmem 59 hc with h | h | h | h
    · revert h; decide
    · cases h
    · cases h
    · exact h59 h
  have hlines : Asm.getlines (Asm.printSource s ++ [10]) = [Asm.printSource s ++ [10]] := by
    have := getlines_lines [Asm.printSource s] (by
      intro l hl
      rw [List.mem_singleton.mp hl]
      exact hno10)
    simpa using this
  have htrim := trim_line_clean (before 1) (Asm.printSource s) ⟨112, _, rfl, by decide⟩
    ⟨Asm.bytes "print" ++ ([32] ++ 34 :: s), 34, by simp [Asm.printSource], by decide⟩ hno59
  have hne : Asm.printSource s ≠ [] := by simp [Asm.printSource, Asm.bytes]
  obtain ⟨b, hbn⟩ := hb
  have hlex : Asm.Lexes (Asm.printSource s) [Asm.bytes "print", 34 :: (s ++ [34])] :=
    Asm.Lexes.more (Or.inl ⟨by decide, by decide, by decide⟩) (by decide) (by decide)
      (Asm.Lexes.last (Or.inr ⟨s, rfl, h34⟩))
  have hids := (identify_quoted s h34 1 0).1
  have hidm : Asm.identify (some (Asm.bytes "print")) 1 0 =
      .ok (Asm.mnemToken (Asm.bytes "print") .MNEM_PRINT 1 0) := rfl
  have hall : Asm.identifyAll 1 [Asm.bytes "print", 34 :: (s ++ [34])] =
      .ok [Asm.mnemToken (Asm.bytes "print") .MNEM_PRINT 1 0, Asm.stringToken s 1 0] := by
    simp [Asm.identifyAll, hids, hidm, Asm.mnemToken, Asm.stringToken]
  have htok := tokenize_line_of_lexes hlex 1 b hall
  have hline : ({ tokens := [Asm.mnemToken (Asm.bytes "print") .MNEM_PRINT 1 0,
      Asm.stringToken s 1 0] ++ [Asm.eolToken 1 0], line_no := 1 } : Asm.TokLine) =
      Asm.printLine s 1 := rfl
  rw [hline] at htok
  have hcode : ∀ ch, Asm.get_code (Asm.printLine s 1) ch =
      .ok (.IM_INSTR (Asm.printLine s 1)) := by
    intro ch
    simp [Asm.get_code, Asm.please_tok, Asm.printLine, Asm.mnemToken]
  have hloop : Asm.main_loop before beyond [Asm.printSource s ++ [10]] 1 [Asm.new_scope] =
      .ok [Asm.Scope.mk .SCOPE_NORMAL 0 [.OUT_SINGLE (Asm.printLine s 1)] [] 0 none] := by
    simp only [Asm.main_loop, htrim, hne, if_false, hbn, htok, hcode, Asm.follow_imcode,
      Asm.push_line, Asm.push_out, Asm.new_scope, List.nil_append]
  simp only [Asm.assemble, hlines, hloop, Asm.flatten_scope, Asm.flatten_normal_scope]
  cases Asm.flatten_output [[]] (.OUT_SINGLE (Asm.printLine s 1)) with
  | error e => rfl
  | ok out => simp

/-- C6. The code at the failing input: for the source line `print "a;b"`,
whose string has neither NUL nor double quote, `trim_line` takes the `;`
inside the string for the start of a comment and returns `print "a`; the
lexer then looks for the closing quote behind the end of the line, and no
bytecode of the line is what the claim lists. The line `print "Hi"` is also
not assembled when the byte behind the copy of the line is not NUL, since the
lexer reads that byte after the last token. In general, for every string
`s = c0 c1 ... c(k-1)` with `k >= 2` and without NUL, double quote, `;` and
newline, and with a NUL behind the copy of the line: the source line
`print "s"` is assembled to exactly the encodings of PUSH c0; PUSH c1; PAIR;
then PUSH ci; PAIR for `i = 2 .. k-1`; then PUSH 10; PAIR; PRINT; POP; GC, in
that order, `6k + 8` bytes, a character being pushed with the value it has as
a C `char` (the byte itself below 128). -/
theorem print_source_line_cases :
    Asm.assemble (fun _ => 0) (fun _ => [0])
      (Asm.getlines (Asm.printSource (Asm.bytes "a;b") ++ [10])) = .error .undefined ∧
    Asm.trim_line 0 (Asm.printSource (Asm.bytes "a;b") ++ [10]) =
      .ok (Asm.bytes "print " ++ [34, 97]) ∧
    Asm.assemble (fun _ => 0) (fun _ => [5, 0])
      (Asm.getlines (Asm.printSource (Asm.bytes "Hi") ++ [10])) = .error .undefined ∧
    Asm.assemble (fun _ => 0) (fun _ => [0])
      (Asm.getlines (Asm.printSource (Asm.bytes "Hi") ++ [10])) =
      .ok [0x02, 72, 0, 0, 0, 0x02, 105, 0, 0, 0, 0x03, 0x02, 10, 0, 0, 0, 0x03,
           0x00, 0x05, 0x10] ∧
    (∀ (before : Nat → Nat) (beyond : Nat → List Nat) (c0 c1 : Nat) (rest : List Nat),
      (∃ b, beyond 1 = 0 :: b) → 0 ∉ c0 :: c1 :: rest → 34 ∉ c0 :: c1 :: rest →
      59 ∉ c0 :: c1 :: rest → 10 ∉ c0 :: c1 :: rest →
      Asm.assemble before beyond (Asm.getlines (Asm.printSource (c0 :: c1 :: rest) ++ [10])) =
        .ok ((Asm.printInstructions c0 c1 rest).flatMap encode) ∧
      ((Asm.printInstructions c0 c1 rest).flatMap encode).length =
        6 * (rest.length + 2) + 8) ∧
    (∀ c, c < 128 → Asm.charValue c = (c : Int)) :=
  ⟨by decide, by decide, by decide, by decide,
    fun before beyond c0 c1 rest hb h0 h34 h59 h10 =>
      ⟨(assemble_printSource before beyond hb _ h34 h59 h10).trans
          (printLine_emission c0 c1 rest ⟨h0, h34⟩ [[]] 1).1,
        (printLine_emission c0 c1 rest ⟨h0, h34⟩ [[]] 1).2.1⟩,
    (printLine_emission 72 105 [] (by decide) [] 1).2.2⟩

end GcVm
